import Mathlib

/-!
# L-System: turtle interpreter, driver and line rasterizer

A shallow embedding of `LSystem2.c` (`generate`, the two passes of `main`) and of
`tiffDrawingTools.c` (`sopen`, `drawLine2d`).

Conventions of the embedding

* `double` values are elements of a linearly ordered field `α` with a floor function
  (exact arithmetic in place of IEEE rounding); `cos` and `sin` of libm are the two
  fields of a `Libm α` record, so that every statement holds for the real functions
  and can be evaluated over `ℚ` with a tabulated pair.
* `int` values are unbounded integers. The argument `iteration` is a natural number:
  `generate` compares it with 0 and decrements it only when it is not 0, so from a
  non-negative start it never becomes negative.
* The header `tiffDrawingTools.h` is not among the sources; `drawLine2d` is called with
  the prototype of its definition, so its `double` arguments are converted to `int`.
  The log `lines` keeps the arguments before this conversion.
* A C string is the list of its characters before the terminating NUL.
* `generate` receives `lsystem *ls`; the members it only reads (`draw`, `skip`,
  `rules`, `angle`) stay in the record `lsystem`, the members it writes
  (`pos[0]`, `pos[1]`, `currentAngle`) are threaded through the state `World`
  together with `extremes` and the screen.
* The local array `brackets[8][3]` with its index `goTo` is the list of its live
  rows `brackets[goTo], ..., brackets[0]`; its length is `goTo + 1`. A push with
  `goTo = 7` and a pop with `goTo = -1` leave the array: the interpretation is
  then undefined and the model returns `none`.
* Three fields of `World` are observation logs and are not read by the code:
  `lines` (the arguments of every `drawLine2d` call), `visited` (the turtle after
  every terminal action) and `slots` (the index of every access `brackets[goTo]`).
-/

set_option linter.unusedSectionVars false
set_option linter.unusedVariables false

namespace LSystem

/-! ## tiffDrawingTools.c -/

/-- Image data entity `struct screen` (the unused member `name` is left out). -/
structure screen where
  dat : List Nat
  w : Int
  l : Int
  datmax : Int
  r : Nat
  g : Nat
  b : Nat
  deriving DecidableEq, Repr

/-- Allocation of a screen: `sopen`. -/
def sopen (wid len : Int) : screen :=
  { dat := List.replicate (wid * len * 1 * 3).toNat 0
    w := wid
    l := len
    datmax := wid * len * 1 * 3
    r := 255
    g := 255
    b := 255 }

/-- Change the current colour of the brush: `setColor`. -/
def setColor (s : screen) (r g b : Nat) : screen :=
  { s with r := r % 256, g := g % 256, b := b % 256 }

/-- Conversion of a `double` to `int`: truncation toward zero. -/
def toInt {α : Type} [LinearOrderedField α] [FloorRing α] (x : α) : Int :=
  if 0 ≤ x then ⌊x⌋ else ⌈x⌉

/-- The interpolation
`((double)(a1-a2)/((double)(b1-b2)) * (double)(t-b1) + (double)a1)` stored into an
`int`; `none` when the divisor `b1 - b2` is zero. -/
def interpolate (a1 a2 b1 b2 t : Int) : Option Int :=
  if b1 - b2 = 0 then none
  else some (toInt ((((a1 - a2 : Int) : ℚ) / ((b1 - b2 : Int) : ℚ)) * ((t - b1 : Int) : ℚ)
    + ((a1 : Int) : ℚ)))

/-- The values taken by the loop variable of `for(v = lo; v < hi; v++)`. -/
def steps (lo hi : Int) : List Int :=
  (List.range (hi - lo).toNat).map (fun k => lo + (k : Int))

/-- The pixels `(x, y)` computed by the first loop of `drawLine2d`, in order. -/
def xPass (x1 y1 x2 y2 : Int) : List Int → Option (List (Int × Int))
  | [] => some []
  | x :: xs =>
    match interpolate y1 y2 x1 x2 x with
    | none => none
    | some y => (xPass x1 y1 x2 y2 xs).map (fun ps => (x, y) :: ps)

/-- The pixels `(x, y)` computed by the second loop of `drawLine2d`, in order. -/
def yPass (x1 y1 x2 y2 : Int) : List Int → Option (List (Int × Int))
  | [] => some []
  | y :: ys =>
    match interpolate x1 x2 y1 y2 y with
    | none => none
    | some x => (yPass x1 y1 x2 y2 ys).map (fun ps => (x, y) :: ps)

/-- All pixels computed by one call of `drawLine2d`: the endpoints are ordered by
`px1 < px2`, the x-stepped loop runs, the endpoints are exchanged when `y2 < y1`
and the y-stepped loop runs. `none` when an interpolation divides by zero. -/
def pixels (px1 py1 px2 py2 : Int) : Option (List (Int × Int)) :=
  let x1 := if px1 < px2 then px1 else px2
  let x2 := if px1 < px2 then px2 else px1
  let y1 := if px1 < px2 then py1 else py2
  let y2 := if px1 < px2 then py2 else py1
  match xPass x1 y1 x2 y2 (steps x1 x2) with
  | none => none
  | some ps =>
    let x1r := if y2 < y1 then x2 else x1
    let x2r := if y2 < y1 then x1 else x2
    let y1r := if y2 < y1 then y2 else y1
    let y2r := if y2 < y1 then y1 else y2
    (yPass x1r y1r x2r y2r (steps y1r y2r)).map (fun qs => ps ++ qs)

/-- The byte offset `b = 3*(s->w)*y + 3*x` of a pixel. -/
def offset (s : screen) (p : Int × Int) : Int :=
  3 * s.w * p.2 + 3 * p.1

/-- The guard of both loop bodies:
`x >= 0 && x < s->w && (b = 3*(s->w)*y + 3*x) < s->datmax - 3 && b >= 0`. -/
def painted (s : screen) (p : Int × Int) : Bool :=
  decide (p.1 ≥ 0) && decide (p.1 < s.w) && decide (offset s p < s.datmax - 3)
    && decide (offset s p ≥ 0)

/-- One loop body of `drawLine2d`: three stores when the guard holds. -/
def plot (s : screen) (p : Int × Int) : screen :=
  if painted s p then
    let b0 := (offset s p).toNat
    let b1 := (offset s p + 1).toNat
    let b2 := (offset s p + 2).toNat
    { s with dat := List.set (List.set (List.set s.dat b0 s.r) b1 s.g) b2 s.b }
  else s

/-- The rasterizer `drawLine2d`. -/
def drawLine2d (s : screen) (px1 py1 px2 py2 : Int) : Option screen :=
  (pixels px1 py1 px2 py2).map (fun ps => ps.foldl plot s)

/-! ## LSystem2.c -/

/-- The libm functions used by `generate`. -/
structure Libm (α : Type) where
  cos : α → α
  sin : α → α

/-- The members of `lsystem` that `generate` only reads, and the ones `main` reads.
The tables are indexed by `c - 'a'`; a `NULL` rule is `none`. -/
structure lsystem (α : Type) where
  draw : Nat → Bool
  skip : Nat → Bool
  axiom_ : List Char
  rules : Nat → Option (List Char)
  angle : α
  startAngle : α
  iterations : Nat

/-- The array `double extremes[4]`. -/
structure Extremes (α : Type) where
  e0 : α
  e1 : α
  e2 : α
  e3 : α
  deriving DecidableEq, Repr

/-- One row of `brackets[8][3]`. -/
abbrev Saved (α : Type) := α × α × α

/-- The four `double` arguments of one `drawLine2d` call made by `generate`. -/
abbrev Line (α : Type) := α × α × α × α

/-- Everything `generate` reads and writes through its pointer arguments, and the
three observation logs. -/
structure World (α : Type) where
  pos0 : α
  pos1 : α
  currentAngle : α
  extremes : Extremes α
  sp : screen
  lines : List (Line α)
  visited : List (Saved α)
  slots : List Nat
  deriving DecidableEq, Repr

/-- Width of the picture. -/
def WID : Int := 2000

/-- Half the width, as used in the coordinate transform. -/
def HWID {α : Type} [LinearOrderedField α] : α := 1000

section
variable {α : Type} [LinearOrderedField α] [FloorRing α]

/-- The update of `extremes` at a terminal action of the measure pass. -/
def extend (e : Extremes α) (x y : α) : Extremes α :=
  let ex := if x < e.e0 then { e with e0 := x } else if x > e.e1 then { e with e1 := x } else e
  if y < ex.e2 then { ex with e2 := y } else if y > ex.e3 then { ex with e3 := y } else ex

/-- The pen after `pos[0] += cos(currentAngle); pos[1] += sin(currentAngle)`. -/
def move (m : Libm α) (w : World α) : World α :=
  { w with pos0 := w.pos0 + m.cos w.currentAngle, pos1 := w.pos1 + m.sin w.currentAngle }

/-- The arguments of the `drawLine2d` call for a move from `(t0, t1)` to `(p0, p1)`. -/
def segment (e : Extremes α) (t0 t1 p0 p1 : α) : Line α :=
  let coeff := HWID / e.e2
  ((t0 - e.e0) * coeff + HWID, (t1 - e.e1) * coeff + HWID,
    (p0 - e.e0) * coeff + HWID, (p1 - e.e1) * coeff + HWID)

/-- The branch `iteration == 0 || !(ls->rules[a])` of `generate`: draw, skip or
nothing, then the update of `extremes` when `drawable` is not set. -/
def terminal (m : Libm α) (ls : lsystem α) (a : Nat) (drawable : Bool) (w : World α) :
    Option (World α) :=
  let acted : Option (World α) :=
    if ls.draw a then
      if drawable then
        let q := segment w.extremes w.pos0 w.pos1 (move m w).pos0 (move m w).pos1
        (drawLine2d w.sp (toInt q.1) (toInt q.2.1) (toInt q.2.2.1) (toInt q.2.2.2)).map
          (fun sp1 => { move m w with sp := sp1, lines := w.lines ++ [q] })
      else some (move m w)
    else if ls.skip a then some (move m w)
    else some w
  acted.map (fun w1 =>
    let w2 := if drawable then w1 else { w1 with extremes := extend w1.extremes w1.pos0 w1.pos1 }
    { w2 with visited := w2.visited ++ [(w2.pos0, w2.pos1, w2.currentAngle)] })

/-- One iteration of the loop of `generate` on the character `c`; `recur` stands for
the call `generate(sp, ls, ls->rules[a], iteration-1, drawable, extremes)`. -/
def step (m : Libm α) (ls : lsystem α) (recur : List Char → World α → Option (World α))
    (iteration : Nat) (drawable : Bool) (c : Char) (br : List (Saved α)) (w : World α) :
    Option (List (Saved α) × World α) :=
  if c.isLower then
    match ls.rules (c.toNat - 97) with
    | none => (terminal m ls (c.toNat - 97) drawable w).map (fun w1 => (br, w1))
    | some rule =>
      if iteration = 0 then (terminal m ls (c.toNat - 97) drawable w).map (fun w1 => (br, w1))
      else if rule ≠ [] then (recur rule w).map (fun w1 => (br, w1))
      else some (br, w)
  else if c = '+' then some (br, { w with currentAngle := w.currentAngle + ls.angle })
  else if c = '-' then some (br, { w with currentAngle := w.currentAngle - ls.angle })
  else if c = '[' then
    if br.length < 8 then
      some ((w.pos0, w.pos1, w.currentAngle) :: br, { w with slots := w.slots ++ [br.length] })
    else none
  else if c = ']' then
    match br with
    | [] => none
    | (x, y, t) :: rest =>
      some (rest, { w with pos0 := x, pos1 := y, currentAngle := t,
                           slots := w.slots ++ [rest.length] })
  else some (br, w)

/-- The loop `for(int i = 0; (c = current[i]); ++i)` from a given state of the
bracket stack. -/
def run (m : Libm α) (ls : lsystem α) (recur : List Char → World α → Option (World α))
    (iteration : Nat) (drawable : Bool) :
    List Char → List (Saved α) → World α → Option (List (Saved α) × World α)
  | [], br, w => some (br, w)
  | c :: cs, br, w =>
    match step m ls recur iteration drawable c br w with
    | none => none
    | some (br1, w1) => run m ls recur iteration drawable cs br1 w1

/-- The function `generate`: a fresh bracket stack (`goTo = -1`), then the loop. At
`iteration = 0` the recursive call is never reached. -/
def generate (m : Libm α) (ls : lsystem α) :
    Nat → Bool → List Char → World α → Option (World α)
  | 0, drawable, current, w =>
    (run m ls (fun _ _ => none) 0 drawable current [] w).map Prod.snd
  | n + 1, drawable, current, w =>
    (run m ls (generate m ls n drawable) (n + 1) drawable current [] w).map Prod.snd

/-- The recursive call available at a given `iteration`. -/
def recurAt (m : Libm α) (ls : lsystem α) (drawable : Bool) :
    Nat → List Char → World α → Option (World α)
  | 0 => fun _ _ => none
  | n + 1 => generate m ls n drawable

/-- The conversion in `main` of the extremes into centre point and frame width. -/
def convert (e : Extremes α) : Extremes α :=
  let tmp := e.e2
  let e2 := if (e.e1 - e.e0) > (e.e3 - e.e2) then (e.e1 - e.e0) / 2 * 1.2
    else (e.e3 - e.e2) / 2 * 1.2
  let e0 := (e.e0 + e.e1) / 2
  let e1 := (tmp + e.e3) / 2
  { e0 := e0, e1 := e1, e2 := e2, e3 := e.e3 }

/-- The state reset `s1.pos[0] = s1.pos[1] = 0; s1.currentAngle = s1.startAngle`. -/
def reset (ls : lsystem α) (w : World α) : World α :=
  { w with pos0 := 0, pos1 := 0, currentAngle := ls.startAngle }

/-- The second call of `generate` in `main`, after the state reset. -/
def drawPass (m : Libm α) (ls : lsystem α) (w : World α) : Option (World α) :=
  generate m ls ls.iterations true ls.axiom_ (reset ls w)

/-- The state of `main` before the first call of `generate`. -/
def initial (ls : lsystem α) : World α :=
  { pos0 := 0, pos1 := 0, currentAngle := ls.startAngle, extremes := ⟨0, 0, 0, 0⟩,
    sp := sopen WID WID, lines := [], visited := [], slots := [] }

/-- The two passes of `main`, up to the call of `writeFile`. -/
def main (m : Libm α) (ls : lsystem α) : Option (World α) :=
  match generate m ls ls.iterations false ls.axiom_ (initial ls) with
  | none => none
  | some w1 => drawPass m ls { w1 with extremes := convert w1.extremes }

end

/-! ## Auxiliary definitions of the statements -/

section
variable {α : Type} [LinearOrderedField α] [FloorRing α]

/-- What every non-terminal, non-recursive branch of the loop body may do to the world. -/
structure Stable (P : World α → World α → Prop) : Prop where
  refl : ∀ w, P w w
  trans : ∀ w1 w2 w3, P w1 w2 → P w2 w3 → P w1 w3
  turtle : ∀ (w : World α) (x y t : α) (k : List Nat),
    P w { w with pos0 := x, pos1 := y, currentAngle := t, slots := k }

/-- The origin followed by the positions logged after each terminal action. -/
def points (v : List (Saved α)) : List (α × α) :=
  (0, 0) :: v.map (fun s => (s.1, s.2.1))

/-- The rectangle `e` is the minimal axis-aligned box around the points `pts`. -/
def Box (e : Extremes α) (pts : List (α × α)) : Prop :=
  (∀ p ∈ pts, e.e0 ≤ p.1 ∧ p.1 ≤ e.e1 ∧ e.e2 ≤ p.2 ∧ p.2 ≤ e.e3) ∧
  (∃ p ∈ pts, p.1 = e.e0) ∧ (∃ p ∈ pts, p.1 = e.e1) ∧
  (∃ p ∈ pts, p.2 = e.e2) ∧ (∃ p ∈ pts, p.2 = e.e3)

end

/-! ## Concrete inputs -/

/-- A table of quarter turns over `ℚ`: the angle `k` stands for `k` right angles. -/
def quarter : Libm ℚ :=
  { cos := fun t => if t = 0 then 1 else if t = 1 then 0 else if t = -1 then 0 else -1
    sin := fun t => if t = 0 then 0 else if t = 1 then 1 else if t = -1 then -1 else 0 }

/-- The tree of the file header: `draw=a axiom=a a=a[+a][-a]a`, turning by a right angle. -/
def tree : lsystem ℚ :=
  { draw := fun a => a == 0
    skip := fun _ => false
    axiom_ := ['a']
    rules := fun a => if a = 0 then some ['a', '[', '+', 'a', ']', '[', '-', 'a', ']', 'a'] else none
    angle := 1
    startAngle := 0
    iterations := 1 }

/-- The extremes of the tree after the measure pass with one iteration. -/
def treeBox : Extremes ℚ := ⟨0, 2, -1, 1⟩

/-- The state of the tree before the draw pass, on a 2 by 2 screen. -/
def treeDraw : World ℚ :=
  { pos0 := 0, pos1 := 0, currentAngle := 0, extremes := convert treeBox, sp := sopen 2 2,
    lines := [], visited := [], slots := [] }

/-- The bracket depth after scanning a sequence from depth `k`: `[` opens, `]` closes;
`none` when a `]` has no open bracket to close. -/
def depthAfter : List Char → Nat → Option Nat
  | [], k => some k
  | c :: cs, k =>
    if c = '[' then depthAfter cs (k + 1)
    else if c = ']' then (if k = 0 then none else depthAfter cs (k - 1))
    else depthAfter cs k

/-- A sequence whose own brackets are matched. -/
def matched (u : List Char) : Prop := depthAfter u 0 = some 0

instance (u : List Char) : Decidable (matched u) := by
  unfold matched; infer_instance

/-- The state before the measure pass, on a 2 by 2 screen. -/
def origin : World ℚ :=
  { pos0 := 0, pos1 := 0, currentAngle := 0, extremes := ⟨0, 0, 0, 0⟩, sp := sopen 2 2,
    lines := [], visited := [], slots := [] }

/-- The state of the measure pass of `a[+a]` at iteration 0 after the first `a`. -/
def beforeBranch : World ℚ :=
  { pos0 := 1, pos1 := 0, currentAngle := 0, extremes := ⟨0, 1, 0, 0⟩, sp := sopen 2 2,
    lines := [], visited := [(1, 0, 0)], slots := [] }

/-- The state of the measure pass of `a[+a]` at iteration 0 after the `]`. -/
def afterBranch : World ℚ :=
  { pos0 := 1, pos1 := 0, currentAngle := 0, extremes := ⟨0, 1, 0, 1⟩, sp := sopen 2 2,
    lines := [], visited := [(1, 0, 0), (1, 1, 1)], slots := [0, 0] }

/-- A grammar in which `a` is a draw letter with a production that is present but
empty (`rules[0]` points to the empty string). -/
def silent : lsystem ℚ :=
  { draw := fun a => a == 0
    skip := fun _ => false
    axiom_ := ['a']
    rules := fun a => if a = 0 then some [] else none
    angle := 1
    startAngle := 0
    iterations := 0 }

/-- A grammar without rules in which `a` is both in the draw set and in the skip set. -/
def both : lsystem ℚ :=
  { draw := fun a => a == 0
    skip := fun a => a == 0
    axiom_ := ['a']
    rules := fun _ => none
    angle := 1
    startAngle := 0
    iterations := 0 }

/-- The Koch snowflake of the file header, `draw=a axiom=a--a--a a=a+a--a+a`, with the
turn `angle` and two iterations. -/
def koch {α : Type} [LinearOrderedField α] (angle : α) : lsystem α :=
  { draw := fun a => a == 0
    skip := fun _ => false
    axiom_ := ['a', '-', '-', 'a', '-', '-', 'a']
    rules := fun a => if a = 0 then some ['a', '+', 'a', '-', '-', 'a', '+', 'a'] else none
    angle := angle
    startAngle := 0
    iterations := 2 }

/-- The state at the origin with heading 0, zero extremes, a 2 by 2 screen and empty
logs. -/
def blank (α : Type) [LinearOrderedField α] : World α :=
  { pos0 := 0, pos1 := 0, currentAngle := 0, extremes := ⟨0, 0, 0, 0⟩, sp := sopen 2 2,
    lines := [], visited := [], slots := [] }

/-- Two states with the same turtle and the same extremes; screens and logs may differ. -/
def Same {α : Type} (u v : World α) : Prop :=
  u.pos0 = v.pos0 ∧ u.pos1 = v.pos1 ∧ u.currentAngle = v.currentAngle ∧
    u.extremes = v.extremes

/-- A run `f` paints a list of pixels that depends on the turtle and the extremes only:
from a state with the same turtle and extremes it is defined too, ends with the same
turtle and extremes, and paints the same pixels on the screen it is given. -/
def Paints {α : Type} (f : World α → Option (World α)) : Prop :=
  ∀ u v, f u = some v → ∃ ps : List (Int × Int), v.sp = ps.foldl plot u.sp ∧
    ∀ u1, Same u u1 → ∃ v1, f u1 = some v1 ∧ Same v v1 ∧ v1.sp = ps.foldl plot u1.sp

/-- A state before a draw pass whose transform is the identity (centre `(1000, 1000)`,
half span 1000), on a 2 by 2 screen; the turtle is anywhere, the pass resets it. -/
def unitDraw : World ℚ :=
  { pos0 := 5, pos1 := 7, currentAngle := 1, extremes := ⟨1000, 1000, 1000, 0⟩,
    sp := sopen 2 2, lines := [], visited := [], slots := [] }

/-- The extremes after the updates of the measure pass at the logged states `vs`, from
the extremes `e`: one update `extend` per terminal action, in order. -/
def track {α : Type} [LinearOrderedField α] (e : Extremes α) (vs : List (Saved α)) :
    Extremes α :=
  vs.foldl (fun ex p => extend ex p.1 p.2.1) e

/-- Two states with the same position and heading; extremes, screens and logs may
differ. -/
def Turtle {α : Type} (u v : World α) : Prop :=
  u.pos0 = v.pos0 ∧ u.pos1 = v.pos1 ∧ u.currentAngle = v.currentAngle

/-- The runs `f` and `g` walk the same path: whenever `f` is defined, it appends some
states `vs` to the log, and from every state with the same position and heading `g` is
defined too, ends with the same position and heading and appends the same states. -/
def Walks {α : Type} (f g : World α → Option (World α)) : Prop :=
  ∀ u v, f u = some v → ∃ vs : List (Saved α), v.visited = u.visited ++ vs ∧
    ∀ u1, Turtle u u1 → ∃ v1, g u1 = some v1 ∧ Turtle v v1 ∧ v1.visited = u1.visited ++ vs

/-- The deepest bracket nesting reached while scanning a sequence from depth `k`. -/
def deepest : List Char → Nat → Nat
  | [], k => k
  | c :: cs, k =>
    max k (if c = '[' then deepest cs (k + 1)
      else if c = ']' then deepest cs (k - 1)
      else deepest cs k)

/-- A sequence with matched brackets nested no deeper than 8. -/
def tame (u : List Char) : Prop := matched u ∧ deepest u 0 ≤ 8

instance (u : List Char) : Decidable (tame u) := by
  unfold tame; infer_instance

/-- A grammar whose rule `a` nests eight brackets around a recursive `a`. -/
def nested : lsystem ℚ :=
  { draw := fun a => a == 0
    skip := fun _ => false
    axiom_ := ['a']
    rules := fun a => if a = 0 then
        some ['[', '[', '[', '[', '[', '[', '[', '[', 'a', ']', ']', ']', ']', ']', ']', ']', ']']
      else none
    angle := 1
    startAngle := 0
    iterations := 5 }

/-- A run `f` is defined and logs only bracket accesses at indices below 8. -/
def Inside {α : Type} (f : World α → Option (World α)) : Prop :=
  ∀ w, ∃ r extra, f w = some r ∧ r.slots = w.slots ++ extra ∧ ∀ i ∈ extra, i < 8

/-- The function `generate` run with a budget for the depth of nested calls: a call
needs one unit, and hands what is left to the calls
`generate(sp, ls, ls->rules[a], iteration-1, drawable, extremes)` it makes; a call for
which nothing is left is not made (`none`). -/
def generateWithin {α : Type} [LinearOrderedField α] [FloorRing α] (m : Libm α)
    (ls : lsystem α) : Nat → Nat → Bool → List Char → World α → Option (World α)
  | 0, _, _, _, _ => none
  | budget + 1, iteration, drawable, current, w =>
    (run m ls (generateWithin m ls budget (iteration - 1) drawable) iteration drawable
      current [] w).map Prod.snd

/-! ### The image file -/

/-- Field type `SHORT` of an IFD entry. -/
def SHORT : Nat := 3

/-- Field type `LONG` of an IFD entry. -/
def LONG : Nat := 4

/-- Field type `RATIONAL` of an IFD entry. -/
def RATIONAL : Nat := 5

/-- The two bytes `fwrite(&v, 2, 1, fp)` writes for a `uint16_t` on a little-endian host;
a wider value is reduced modulo `2^16` by the conversion to `uint16_t`. -/
def le16 (v : Nat) : List Nat := [v % 256, v / 256 % 256]

/-- The four bytes `fwrite(&v, 4, 1, fp)` writes for a `uint32_t` on a little-endian
host; a wider value is reduced modulo `2^32` by the conversion to `uint32_t`. -/
def le32 (v : Nat) : List Nat :=
  [v % 256, v / 256 % 256, v / 65536 % 256, v / 16777216 % 256]

/-- The conversion of an `int` argument to `uint32_t`. -/
def toU32 (v : Int) : Nat := (v % 4294967296).toNat

/-- The twelve bytes of one IFD entry: `write_IFD`. -/
def write_IFD (tag field vals offset : Nat) : List Nat :=
  le16 tag ++ le16 field ++ le32 vals ++ le32 offset

/-- The bytes written by `writeHeader`, in order. -/
def writeHeader (w l : Int) : List Nat :=
  [73, 73] ++ le16 42 ++ le32 8
    ++ le16 12
    ++ write_IFD 256 SHORT 1 (toU32 w)
    ++ write_IFD 257 SHORT 1 (toU32 l)
    ++ write_IFD 258 SHORT 3 174
    ++ write_IFD 259 SHORT 1 1
    ++ write_IFD 262 SHORT 1 2
    ++ write_IFD 273 SHORT 1 180
    ++ write_IFD 277 SHORT 1 3
    ++ write_IFD 278 SHORT 1 (toU32 l)
    ++ write_IFD 279 LONG 1 (toU32 (w * l))
    ++ write_IFD 282 RATIONAL 1 158
    ++ write_IFD 283 RATIONAL 1 166
    ++ write_IFD 296 SHORT 1 1
    ++ le32 0
    ++ le32 1 ++ le32 1 ++ le32 1 ++ le32 1
    ++ le16 8 ++ le16 8 ++ le16 8

/-- The bytes of the file written by `writeFile`: the header, then the
`(s->w) * (s->l) * 3` first bytes of the pixel buffer. -/
def writeFile (s : screen) : List Nat :=
  writeHeader s.w s.l ++ s.dat.take (s.w * s.l * 3).toNat

/-- The 16-bit little-endian value at byte position `i` of a file. -/
def read16 (bs : List Nat) (i : Nat) : Nat :=
  bs.getD i 0 + 256 * bs.getD (i + 1) 0

/-- The 32-bit little-endian value at byte position `i` of a file. -/
def read32 (bs : List Nat) (i : Nat) : Nat :=
  bs.getD i 0 + 256 * bs.getD (i + 1) 0 + 65536 * bs.getD (i + 2) 0
    + 16777216 * bs.getD (i + 3) 0

/-- The entry number `k` of the IFD at byte 8 of a file: tag, field type, count and
value or offset. -/
def entry (bs : List Nat) (k : Nat) : Nat × Nat × Nat × Nat :=
  (read16 bs (10 + 12 * k), read16 bs (12 + 12 * k), read32 bs (14 + 12 * k),
    read32 bs (18 + 12 * k))

/-- The position of the turtle and the positions saved in the bracket stack are the
origin or positions logged after a terminal action. -/
def Known {α : Type} [LinearOrderedField α] (u : World α) (br : List (Saved α)) : Prop :=
  (u.pos0, u.pos1) ∈ points u.visited ∧ ∀ s ∈ br, (s.1, s.2.1) ∈ points u.visited

/-- Every logged `drawLine2d` call joins the images, under the transform of the current
extremes, of two different points among the origin and the logged positions. -/
def Faithful {α : Type} [LinearOrderedField α] (u : World α) : Prop :=
  ∀ ln ∈ u.lines, ∃ p ∈ points u.visited, ∃ q ∈ points u.visited,
    p ≠ q ∧ ln = segment u.extremes p.1 p.2 q.1 q.2

/-- What a run of the draw pass keeps, from a stack `br` to a stack `br1`. -/
def Keeps {α : Type} [LinearOrderedField α] (u : World α) (br : List (Saved α)) (v : World α) (br1 : List (Saved α)) : Prop :=
  Known u br → Faithful u →
    Known v br1 ∧ Faithful v ∧ (∀ p ∈ points u.visited, p ∈ points v.visited) ∧
      v.extremes = u.extremes

/-! ## The calls of the draw pass -/

section
variable {α : Type} [LinearOrderedField α] [FloorRing α]

/-- The coordinate transform of the specification, section 4.2, on one coordinate:
`(worldCoord - center) * (1000 / halfSpan) + 1000`. -/
def screenCoord (center halfSpan p : α) : α := (p - center) * (1000 / halfSpan) + 1000

/-- The number of terminal draw symbols that the letter `c` stands for: a letter is
terminal when no iteration remains or when it has no production, and then counts once if
it is in the draw set; otherwise it stands for the terminal draw symbols of its
production, counted by `deeper`. Characters that are not lowercase letters count for
nothing. -/
def drawsOf (ls : lsystem α) (deeper : List Char → Nat) (remaining : Nat) (c : Char) : Nat :=
  if c.isLower then
    if remaining = 0 ∨ ls.rules (c.toNat - 97) = none then
      if ls.draw (c.toNat - 97) then 1 else 0
    else deeper ((ls.rules (c.toNat - 97)).getD [])
  else 0

/-- The number of terminal draw symbols met by the depth-first walk of the sequence
`current` with `remaining` iterations left. It reads the grammar only: no position, no
heading, no bracket. -/
def terminalDraws (ls : lsystem α) : Nat → List Char → Nat
  | 0, current => (current.map (drawsOf ls (fun _ => 0) 0)).sum
  | n + 1, current => (current.map (drawsOf ls (terminalDraws ls n) (n + 1))).sum

/-- What a stretch of the draw pass adds to the logs: the extremes stay; the turtle
states `olds` (position and heading before each drawing action) give the new
`drawLine2d` calls, one each, from the old position to the old position plus
`(cos, sin)` of the heading, both mapped by `segment`; and the turtles after these
actions appear, in the same order, among the new entries `vis` of the log `visited`. -/
def Emits (m : Libm α) (u v : World α) : Prop :=
  v.extremes = u.extremes ∧
  ∃ olds vis : List (Saved α),
    v.lines = u.lines ++ olds.map (fun s =>
      segment u.extremes s.1 s.2.1 (s.1 + m.cos s.2.2) (s.2.1 + m.sin s.2.2)) ∧
    v.visited = u.visited ++ vis ∧
    (olds.map (fun s => (s.1 + m.cos s.2.2, s.2.1 + m.sin s.2.2, s.2.2))).Sublist vis

end

/-! ## Theorems -/

/-! ## General lemmas on the loop of `generate` -/

section
variable {α : Type} [LinearOrderedField α] [FloorRing α]

theorem generate_eq_run (m : Libm α) (ls : lsystem α) (n : Nat) (d : Bool) (cur : List Char)
    (w : World α) :
    generate m ls n d cur w = (run m ls (recurAt m ls d n) n d cur [] w).map Prod.snd := by
  cases n <;> rfl

theorem run_append (m : Libm α) (ls : lsystem α) (recur : List Char → World α → Option (World α))
    (n : Nat) (d : Bool) (u v : List Char) (br : List (Saved α)) (w : World α) :
    run m ls recur n d (u ++ v) br w
      = (run m ls recur n d u br w).bind (fun p => run m ls recur n d v p.1 p.2) := by
  induction u generalizing br w with
  | nil => simp [run]
  | cons c cs ih =>
    simp only [List.cons_append, run]
    cases h : step m ls recur n d c br w with
    | none => simp
    | some p => obtain ⟨br1, w1⟩ := p; simp [ih]

theorem step_rel {P : World α → World α → Prop} (hP : Stable P) (m : Libm α) (ls : lsystem α)
    (recur : List Char → World α → Option (World α)) (n : Nat) (d : Bool)
    (hterm : ∀ a w w1, terminal m ls a d w = some w1 → P w w1)
    (hrec : ∀ rule w w1, recur rule w = some w1 → P w w1)
    (c : Char) (br br1 : List (Saved α)) (w w1 : World α)
    (h : step m ls recur n d c br w = some (br1, w1)) : P w w1 := by
  unfold step at h
  split at h
  · split at h
    · simp only [Option.map_eq_some'] at h
      obtain ⟨w2, h2, h3⟩ := h
      cases h3
      exact hterm _ _ _ h2
    · split at h
      · simp only [Option.map_eq_some'] at h
        obtain ⟨w2, h2, h3⟩ := h
        cases h3
        exact hterm _ _ _ h2
      · split at h
        · simp only [Option.map_eq_some'] at h
          obtain ⟨w2, h2, h3⟩ := h
          cases h3
          exact hrec _ _ _ h2
        · cases h; exact hP.refl _
  · split at h
    · cases h; exact hP.turtle w w.pos0 w.pos1 _ w.slots
    · split at h
      · cases h; exact hP.turtle w w.pos0 w.pos1 _ w.slots
      · split at h
        · split at h
          · cases h; exact hP.turtle w w.pos0 w.pos1 w.currentAngle _
          · cases h
        · split at h
          · split at h
            · cases h
            · cases h; exact hP.turtle w _ _ _ _
          · cases h; exact hP.refl _

theorem run_rel {P : World α → World α → Prop} (hP : Stable P) (m : Libm α) (ls : lsystem α)
    (recur : List Char → World α → Option (World α)) (n : Nat) (d : Bool)
    (hterm : ∀ a w w1, terminal m ls a d w = some w1 → P w w1)
    (hrec : ∀ rule w w1, recur rule w = some w1 → P w w1)
    (cur : List Char) (br br1 : List (Saved α)) (w w1 : World α)
    (h : run m ls recur n d cur br w = some (br1, w1)) : P w w1 := by
  induction cur generalizing br w with
  | nil => simp only [run, Option.some.injEq, Prod.mk.injEq] at h; rw [← h.2]; exact hP.refl _
  | cons c cs ih =>
    simp only [run] at h
    cases hs : step m ls recur n d c br w with
    | none => rw [hs] at h; cases h
    | some p =>
      obtain ⟨br2, w2⟩ := p
      rw [hs] at h
      exact hP.trans _ _ _ (step_rel hP m ls recur n d hterm hrec c br br2 w w2 hs) (ih br2 w2 h)

theorem generate_rel {P : World α → World α → Prop} (hP : Stable P) (m : Libm α) (ls : lsystem α)
    (d : Bool) (hterm : ∀ a w w1, terminal m ls a d w = some w1 → P w w1)
    (n : Nat) (cur : List Char) (w w1 : World α)
    (h : generate m ls n d cur w = some w1) : P w w1 := by
  induction n generalizing cur w w1 with
  | zero =>
    simp only [generate, Option.map_eq_some'] at h
    obtain ⟨⟨br2, w2⟩, h2, h3⟩ := h
    cases h3
    exact run_rel hP m ls _ 0 d hterm (fun _ _ _ hh => by cases hh) cur [] br2 w w2 h2
  | succ k ih =>
    simp only [generate, Option.map_eq_some'] at h
    obtain ⟨⟨br2, w2⟩, h2, h3⟩ := h
    cases h3
    exact run_rel hP m ls _ (k + 1) d hterm (fun rule w w1 hh => ih rule w w1 hh) cur [] br2 w w2 h2
end

/-! ## The measure pass and the bounding box -/

section
variable {α : Type} [LinearOrderedField α] [FloorRing α]

theorem extend_e0 (e : Extremes α) (x y : α) :
    (extend e x y).e0 = if x < e.e0 then x else e.e0 := by
  unfold extend; dsimp only; split_ifs <;> rfl

theorem extend_e1 (e : Extremes α) (x y : α) :
    (extend e x y).e1 = if x < e.e0 then e.e1 else if x > e.e1 then x else e.e1 := by
  unfold extend; dsimp only; split_ifs <;> rfl

theorem extend_e2 (e : Extremes α) (x y : α) :
    (extend e x y).e2 = if y < e.e2 then y else e.e2 := by
  unfold extend; dsimp only; split_ifs <;> rfl

theorem extend_e3 (e : Extremes α) (x y : α) :
    (extend e x y).e3 = if y < e.e2 then e.e3 else if y > e.e3 then y else e.e3 := by
  unfold extend; dsimp only; split_ifs <;> rfl

theorem Box.le01 {e : Extremes α} {pts : List (α × α)} (h : Box e pts) : e.e0 ≤ e.e1 := by
  obtain ⟨hall, ⟨p, hp, _⟩, _⟩ := h
  exact (hall p hp).1.trans (hall p hp).2.1

theorem Box.le23 {e : Extremes α} {pts : List (α × α)} (h : Box e pts) : e.e2 ≤ e.e3 := by
  obtain ⟨hall, ⟨p, hp, _⟩, _⟩ := h
  exact (hall p hp).2.2.1.trans (hall p hp).2.2.2

theorem Box.extend {e : Extremes α} {pts : List (α × α)} (h : Box e pts) (x y : α) :
    Box (extend e x y) (pts ++ [(x, y)]) := by
  have h01 := h.le01
  have h23 := h.le23
  obtain ⟨hall, ⟨a, ha, hae⟩, ⟨b, hb, hbe⟩, ⟨c, hc, hce⟩, ⟨d, hd, hde⟩⟩ := h
  refine ⟨?_, ?_, ?_, ?_, ?_⟩
  · intro p hp
    rw [extend_e0, extend_e1, extend_e2, extend_e3]
    rcases List.mem_append.1 hp with hp | hp
    · obtain ⟨p0, p1, p2, p3⟩ := hall p hp
      split_ifs <;> refine ⟨?_, ?_, ?_, ?_⟩ <;> linarith
    · rw [List.mem_singleton] at hp
      subst hp
      split_ifs <;> refine ⟨?_, ?_, ?_, ?_⟩ <;> simp only [] <;> linarith
  · rw [extend_e0]
    split_ifs
    · exact ⟨(x, y), by simp, rfl⟩
    · exact ⟨a, List.mem_append_left _ ha, hae⟩
  · rw [extend_e1]
    split_ifs
    · exact ⟨b, List.mem_append_left _ hb, hbe⟩
    · exact ⟨(x, y), by simp, rfl⟩
    · exact ⟨b, List.mem_append_left _ hb, hbe⟩
  · rw [extend_e2]
    split_ifs
    · exact ⟨(x, y), by simp, rfl⟩
    · exact ⟨c, List.mem_append_left _ hc, hce⟩
  · rw [extend_e3]
    split_ifs
    · exact ⟨d, List.mem_append_left _ hd, hde⟩
    · exact ⟨(x, y), by simp, rfl⟩
    · exact ⟨d, List.mem_append_left _ hd, hde⟩

theorem points_append (v : List (Saved α)) (s : Saved α) :
    points (v ++ [s]) = points v ++ [(s.1, s.2.1)] := by
  simp [points]

/-- In the measure pass a terminal action logs the new position and extends the
extremes by it. -/
theorem terminal_measure (m : Libm α) (ls : lsystem α) (a : Nat) (w w1 : World α)
    (h : terminal m ls a false w = some w1) :
    w1.visited = w.visited ++ [(w1.pos0, w1.pos1, w1.currentAngle)] ∧
      w1.extremes = extend w.extremes w1.pos0 w1.pos1 := by
  unfold terminal at h
  simp only [Bool.false_eq_true, if_false, Option.map_eq_some'] at h
  obtain ⟨w2, h2, h3⟩ := h
  subst h3
  split_ifs at h2 <;> cases h2 <;> exact ⟨rfl, rfl⟩

/-- The measure pass keeps the extremes the bounding box of the logged points. -/
theorem generate_box (m : Libm α) (ls : lsystem α) (n : Nat) (cur : List Char) (w w1 : World α)
    (h : generate m ls n false cur w = some w1) (hb : Box w.extremes (points w.visited)) :
    Box w1.extremes (points w1.visited) := by
  refine generate_rel
    (P := fun u v => Box u.extremes (points u.visited) → Box v.extremes (points v.visited))
    ⟨fun _ hh => hh, fun _ _ _ h12 h23 hh => h23 (h12 hh), fun _ _ _ _ _ hh => hh⟩
    m ls false ?_ n cur w w1 h hb
  intro a u v hterm hu
  obtain ⟨hv, he⟩ := terminal_measure m ls a u v hterm
  rw [hv, he, points_append]
  exact hu.extend _ _

end

/-- C1: in the measure pass (`drawable = 0`) started at the position `(0,0)` with
`extremes = {0,0,0,0}`, whenever the interpretation is defined the final extremes bound
the origin and every position logged after a terminal action, and each of the four
bounds is the coordinate of the origin or of one of these positions. -/
theorem measure_pass_bounding_box {α : Type} [LinearOrderedField α] [FloorRing α]
    (m : Libm α) (ls : lsystem α) (iterations : Nat)
    (current : List Char) (startAngle : α) (sp : screen) (lines : List (Line α))
    (slots : List Nat) (r : World α)
    (hrun : generate m ls iterations false current
      { pos0 := 0, pos1 := 0, currentAngle := startAngle, extremes := ⟨0, 0, 0, 0⟩, sp := sp,
        lines := lines, visited := [], slots := slots } = some r) :
    (∀ p ∈ (0, 0) :: r.visited.map (fun s => (s.1, s.2.1)),
        r.extremes.e0 ≤ p.1 ∧ p.1 ≤ r.extremes.e1 ∧ r.extremes.e2 ≤ p.2 ∧ p.2 ≤ r.extremes.e3) ∧
      (∃ p ∈ (0, 0) :: r.visited.map (fun s => (s.1, s.2.1)), p.1 = r.extremes.e0) ∧
      (∃ p ∈ (0, 0) :: r.visited.map (fun s => (s.1, s.2.1)), p.1 = r.extremes.e1) ∧
      (∃ p ∈ (0, 0) :: r.visited.map (fun s => (s.1, s.2.1)), p.2 = r.extremes.e2) ∧
      (∃ p ∈ (0, 0) :: r.visited.map (fun s => (s.1, s.2.1)), p.2 = r.extremes.e3) := by
  refine generate_box m ls iterations current _ r hrun ?_
  simp [Box, points]

/-- The measure pass of the tree after one iteration, evaluated. -/
theorem tree_measure :
    generate quarter tree 1 false ['a']
      { pos0 := 0, pos1 := 0, currentAngle := 0, extremes := ⟨0, 0, 0, 0⟩, sp := sopen 2 2,
        lines := [], visited := [], slots := [] }
      = some { pos0 := 2, pos1 := 0, currentAngle := 0, extremes := ⟨0, 2, -1, 1⟩, sp := sopen 2 2,
               lines := [], visited := [(1, 0, 0), (1, 1, 1), (1, -1, -1), (2, 0, 0)],
               slots := [0, 0, 0, 0] } := by
  simp +decide [generate, run, step, terminal, move, extend, quarter, tree]
  norm_num

/-- Witness of C1: the tree after one iteration has the box `[0,2] x [-1,1]`. -/
theorem measure_pass_bounding_box_witness :
    (∀ p ∈ [((0 : ℚ), (0 : ℚ)), (1, 0), (1, 1), (1, -1), (2, 0)],
        (0 : ℚ) ≤ p.1 ∧ p.1 ≤ 2 ∧ -1 ≤ p.2 ∧ p.2 ≤ 1) ∧
      (∃ p ∈ [((0 : ℚ), (0 : ℚ)), (1, 0), (1, 1), (1, -1), (2, 0)], p.1 = 0) ∧
      (∃ p ∈ [((0 : ℚ), (0 : ℚ)), (1, 0), (1, 1), (1, -1), (2, 0)], p.1 = 2) ∧
      (∃ p ∈ [((0 : ℚ), (0 : ℚ)), (1, 0), (1, 1), (1, -1), (2, 0)], p.2 = -1) ∧
      (∃ p ∈ [((0 : ℚ), (0 : ℚ)), (1, 0), (1, 1), (1, -1), (2, 0)], p.2 = 1) :=
  measure_pass_bounding_box quarter tree 1 ['a'] 0 (sopen 2 2) [] [] _ tree_measure

/-! ## The rasterizer -/

theorem steps_eq_nil (lo hi : Int) (h : hi ≤ lo) : steps lo hi = [] := by
  have : (hi - lo).toNat = 0 := by omega
  simp [steps, this]

theorem xPass_isSome (x1 y1 x2 y2 : Int) (xs : List Int) (h : x1 ≠ x2 ∨ xs = []) :
    ∃ ps, xPass x1 y1 x2 y2 xs = some ps := by
  rcases h with h | h
  · induction xs with
    | nil => exact ⟨[], rfl⟩
    | cons x xs ih =>
      obtain ⟨ps, hps⟩ := ih
      have hd : ¬ (x1 - x2 = 0) := fun h0 => h (by omega)
      simp only [xPass, interpolate, hd, if_false, hps]
      exact ⟨_, rfl⟩
  · subst h; exact ⟨[], rfl⟩

theorem yPass_isSome (x1 y1 x2 y2 : Int) (ys : List Int) (h : y1 ≠ y2 ∨ ys = []) :
    ∃ ps, yPass x1 y1 x2 y2 ys = some ps := by
  rcases h with h | h
  · induction ys with
    | nil => exact ⟨[], rfl⟩
    | cons y ys ih =>
      obtain ⟨ps, hps⟩ := ih
      have hd : ¬ (y1 - y2 = 0) := fun h0 => h (by omega)
      simp only [yPass, interpolate, hd, if_false, hps]
      exact ⟨_, rfl⟩
  · subst h; exact ⟨[], rfl⟩

/-- Neither loop of `drawLine2d` divides by zero. -/
theorem pixels_isSome (px1 py1 px2 py2 : Int) : ∃ ps, pixels px1 py1 px2 py2 = some ps := by
  unfold pixels
  dsimp only
  obtain ⟨ps, hps⟩ := xPass_isSome (if px1 < px2 then px1 else px2) (if px1 < px2 then py1 else py2)
    (if px1 < px2 then px2 else px1) (if px1 < px2 then py2 else py1)
    (steps (if px1 < px2 then px1 else px2) (if px1 < px2 then px2 else px1))
    (by
      by_cases h : px1 < px2
      · left; simp only [h, if_true]; omega
      · by_cases h2 : px1 = px2
        · right; simp only [h, if_false]; exact steps_eq_nil _ _ (by omega)
        · left; simp only [h, if_false]; omega)
  rw [hps]
  dsimp only
  generalize (if px1 < px2 then px1 else px2) = x1
  generalize (if px1 < px2 then px2 else px1) = x2
  generalize (if px1 < px2 then py1 else py2) = y1
  generalize (if px1 < px2 then py2 else py1) = y2
  obtain ⟨qs, hqs⟩ := yPass_isSome (if y2 < y1 then x2 else x1) (if y2 < y1 then y2 else y1)
    (if y2 < y1 then x1 else x2) (if y2 < y1 then y1 else y2)
    (steps (if y2 < y1 then y2 else y1) (if y2 < y1 then y1 else y2))
    (by
      by_cases h : y2 < y1
      · left; simp only [h, if_true]; omega
      · by_cases h2 : y1 = y2
        · right; simp only [h, if_false]; exact steps_eq_nil _ _ (by omega)
        · left; simp only [h, if_false]; omega)
  rw [hqs]
  exact ⟨_, rfl⟩

theorem drawLine2d_isSome (s : screen) (px1 py1 px2 py2 : Int) :
    ∃ ps, pixels px1 py1 px2 py2 = some ps ∧ drawLine2d s px1 py1 px2 py2 = some (ps.foldl plot s) := by
  obtain ⟨ps, hps⟩ := pixels_isSome px1 py1 px2 py2
  exact ⟨ps, hps, by simp [drawLine2d, hps]⟩

/-- A pixel that passes the guard lies on the canvas and its three bytes in the buffer. -/
theorem painted_inside (s : screen) (hw : 0 < s.w) (hl : 0 < s.l) (hmax : s.datmax = 3 * s.w * s.l)
    (p : Int × Int) (hp : painted s p = true) :
    0 ≤ p.1 ∧ p.1 < s.w ∧ 0 ≤ p.2 ∧ p.2 < s.l ∧ 0 ≤ offset s p ∧ offset s p + 2 < s.datmax := by
  simp only [painted, offset, Bool.and_eq_true, decide_eq_true_eq, ge_iff_le] at hp
  obtain ⟨⟨⟨h1, h2⟩, h3⟩, h4⟩ := hp
  have hy0 : 0 ≤ p.2 := by
    by_contra hneg
    have : p.2 ≤ -1 := by omega
    nlinarith
  have hyl : p.2 < s.l := by
    by_contra hge
    have : s.l ≤ p.2 := by omega
    nlinarith
  refine ⟨h1, h2, hy0, hyl, ?_, ?_⟩
  · simpa [offset] using h4
  · simp only [offset]; omega

/-- A pixel off the canvas is skipped: the loop body leaves the screen as it is. -/
theorem plot_outside (s : screen) (hw : 0 < s.w) (hl : 0 < s.l) (hmax : s.datmax = 3 * s.w * s.l)
    (p : Int × Int) (hp : ¬ (0 ≤ p.1 ∧ p.1 < s.w ∧ 0 ≤ p.2 ∧ p.2 < s.l)) : plot s p = s := by
  unfold plot
  split
  · rename_i h
    obtain ⟨a, b, c, d, _⟩ := painted_inside s hw hl hmax p h
    exact absurd ⟨a, b, c, d⟩ hp
  · rfl

theorem plot_geometry (s : screen) (p : Int × Int) :
    (plot s p).w = s.w ∧ (plot s p).l = s.l ∧ (plot s p).datmax = s.datmax ∧
      (plot s p).r = s.r ∧ (plot s p).g = s.g ∧ (plot s p).b = s.b ∧
      (plot s p).dat.length = s.dat.length := by
  unfold plot
  split <;> simp

theorem foldl_plot_geometry (ps : List (Int × Int)) (s : screen) :
    (ps.foldl plot s).w = s.w ∧ (ps.foldl plot s).l = s.l ∧ (ps.foldl plot s).datmax = s.datmax ∧
      (ps.foldl plot s).r = s.r ∧ (ps.foldl plot s).g = s.g ∧ (ps.foldl plot s).b = s.b ∧
      (ps.foldl plot s).dat.length = s.dat.length := by
  induction ps generalizing s with
  | nil => simp
  | cons p ps ih =>
    obtain ⟨a, b, c, d, e, f, g⟩ := plot_geometry s p
    obtain ⟨a1, b1, c1, d1, e1, f1, g1⟩ := ih (plot s p)
    simp only [List.foldl_cons]
    exact ⟨a1.trans a, b1.trans b, c1.trans c, d1.trans d, e1.trans e, f1.trans f, g1.trans g⟩

/-- C7: on a screen with `w > 0`, `l > 0` and `datmax = 3*w*l`, for all integer endpoints
`drawLine2d` returns (neither interpolation divides by zero); every pixel it paints lies
on the canvas and its three bytes `b`, `b+1`, `b+2` lie in `[0, datmax)`; a computed pixel
off the canvas is skipped, the loop body leaving any screen of this geometry unchanged. -/
theorem rasterizer_clipping_safe (s : screen) (hw : 0 < s.w) (hl : 0 < s.l)
    (hmax : s.datmax = 3 * s.w * s.l) (px1 py1 px2 py2 : Int) :
    ∃ ps, pixels px1 py1 px2 py2 = some ps ∧
      drawLine2d s px1 py1 px2 py2 = some (ps.foldl plot s) ∧
      ∀ p ∈ ps,
        (painted s p = true →
          0 ≤ p.1 ∧ p.1 < s.w ∧ 0 ≤ p.2 ∧ p.2 < s.l ∧
            0 ≤ offset s p ∧ offset s p + 2 < s.datmax) ∧
        (¬ (0 ≤ p.1 ∧ p.1 < s.w ∧ 0 ≤ p.2 ∧ p.2 < s.l) →
          ∀ t : screen, t.w = s.w → t.l = s.l → t.datmax = s.datmax → plot t p = t) := by
  obtain ⟨ps, hps, hdraw⟩ := drawLine2d_isSome s px1 py1 px2 py2
  refine ⟨ps, hps, hdraw, fun p _ => ⟨painted_inside s hw hl hmax p, ?_⟩⟩
  intro hout t tw tl tmax
  exact plot_outside t (tw ▸ hw) (tl ▸ hl) (by rw [tmax, tw, tl]; exact hmax) p (by rw [tw, tl]; exact hout)

/-- Witness of C7: the line from `(-1,-1)` to `(3,3)` on the 2 by 2 screen of `sopen`. -/
theorem rasterizer_clipping_safe_witness :
    ∃ ps, pixels (-1) (-1) 3 3 = some ps ∧
      drawLine2d (sopen 2 2) (-1) (-1) 3 3 = some (ps.foldl plot (sopen 2 2)) ∧
      ∀ p ∈ ps,
        (painted (sopen 2 2) p = true →
          0 ≤ p.1 ∧ p.1 < (sopen 2 2).w ∧ 0 ≤ p.2 ∧ p.2 < (sopen 2 2).l ∧
            0 ≤ offset (sopen 2 2) p ∧ offset (sopen 2 2) p + 2 < (sopen 2 2).datmax) ∧
        (¬ (0 ≤ p.1 ∧ p.1 < (sopen 2 2).w ∧ 0 ≤ p.2 ∧ p.2 < (sopen 2 2).l) →
          ∀ t : screen, t.w = (sopen 2 2).w → t.l = (sopen 2 2).l →
            t.datmax = (sopen 2 2).datmax → plot t p = t) :=
  rasterizer_clipping_safe (sopen 2 2) (by decide) (by decide) (by decide) (-1) (-1) 3 3

/-! ## Terminal actions -/

section
variable {α : Type} [LinearOrderedField α] [FloorRing α]

/-- A terminal action on a letter of the draw set, in the draw pass. -/
theorem terminal_draw (m : Libm α) (ls : lsystem α) (a : Nat) (w : World α)
    (hdraw : ls.draw a = true) :
    ∃ ps : List (Int × Int),
      terminal m ls a true w = some
        { pos0 := w.pos0 + m.cos w.currentAngle
          pos1 := w.pos1 + m.sin w.currentAngle
          currentAngle := w.currentAngle
          extremes := w.extremes
          sp := ps.foldl plot w.sp
          lines := w.lines ++ [segment w.extremes w.pos0 w.pos1
            (w.pos0 + m.cos w.currentAngle) (w.pos1 + m.sin w.currentAngle)]
          visited := w.visited ++
            [(w.pos0 + m.cos w.currentAngle, w.pos1 + m.sin w.currentAngle, w.currentAngle)]
          slots := w.slots } := by
  obtain ⟨ps, -, hps⟩ := drawLine2d_isSome w.sp
    (toInt (segment w.extremes w.pos0 w.pos1 (move m w).pos0 (move m w).pos1).1)
    (toInt (segment w.extremes w.pos0 w.pos1 (move m w).pos0 (move m w).pos1).2.1)
    (toInt (segment w.extremes w.pos0 w.pos1 (move m w).pos0 (move m w).pos1).2.2.1)
    (toInt (segment w.extremes w.pos0 w.pos1 (move m w).pos0 (move m w).pos1).2.2.2)
  refine ⟨ps, ?_⟩
  unfold terminal
  simp only [hdraw, if_true, hps, Option.map_some']
  rfl

/-- A terminal action on a letter of the draw set, in the measure pass. -/
theorem terminal_draw_measure (m : Libm α) (ls : lsystem α) (a : Nat) (w : World α)
    (hdraw : ls.draw a = true) :
    terminal m ls a false w = some
      { pos0 := w.pos0 + m.cos w.currentAngle
        pos1 := w.pos1 + m.sin w.currentAngle
        currentAngle := w.currentAngle
        extremes := extend w.extremes (w.pos0 + m.cos w.currentAngle)
          (w.pos1 + m.sin w.currentAngle)
        sp := w.sp
        lines := w.lines
        visited := w.visited ++
          [(w.pos0 + m.cos w.currentAngle, w.pos1 + m.sin w.currentAngle, w.currentAngle)]
        slots := w.slots } := by
  unfold terminal
  simp only [hdraw, if_true, Bool.false_eq_true, if_false, Option.map_some']
  rfl

/-- A terminal action on a letter of the skip set that is not in the draw set. -/
theorem terminal_skip (m : Libm α) (ls : lsystem α) (a : Nat) (d : Bool) (w : World α)
    (hdraw : ls.draw a = false) (hskip : ls.skip a = true) :
    terminal m ls a d w = some
      { pos0 := w.pos0 + m.cos w.currentAngle
        pos1 := w.pos1 + m.sin w.currentAngle
        currentAngle := w.currentAngle
        extremes := if d then w.extremes
          else extend w.extremes (w.pos0 + m.cos w.currentAngle) (w.pos1 + m.sin w.currentAngle)
        sp := w.sp
        lines := w.lines
        visited := w.visited ++
          [(w.pos0 + m.cos w.currentAngle, w.pos1 + m.sin w.currentAngle, w.currentAngle)]
        slots := w.slots } := by
  unfold terminal
  cases d <;> simp [hdraw, hskip, move]

/-- A terminal action on a letter in neither set. -/
theorem terminal_idle (m : Libm α) (ls : lsystem α) (a : Nat) (d : Bool) (w : World α)
    (hdraw : ls.draw a = false) (hskip : ls.skip a = false) :
    terminal m ls a d w = some
      { w with
        extremes := if d then w.extremes else extend w.extremes w.pos0 w.pos1
        visited := w.visited ++ [(w.pos0, w.pos1, w.currentAngle)] } := by
  unfold terminal
  cases d <;> simp [hdraw, hskip]

/-- The loop body on a lowercase letter in a terminal situation. -/
theorem step_terminal (m : Libm α) (ls : lsystem α)
    (recur : List Char → World α → Option (World α)) (n : Nat) (d : Bool) (c : Char)
    (br : List (Saved α)) (w : World α) (hc : c.isLower = true)
    (hterm : n = 0 ∨ ls.rules (c.toNat - 97) = none) :
    step m ls recur n d c br w
      = (terminal m ls (c.toNat - 97) d w).map (fun w1 => (br, w1)) := by
  unfold step
  simp only [hc, if_true]
  rcases hterm with h | h
  · subst h
    cases ls.rules (c.toNat - 97) <;> simp
  · simp [h]

end

/-- The converted extremes of the tree, evaluated: centre `(1, 0)` and half span `6/5`. -/
theorem convert_treeBox : convert treeBox = ⟨1, 0, 6 / 5, 1⟩ := by
  norm_num [convert, treeBox]

/-! ## Brackets -/

section
variable {α : Type} [LinearOrderedField α] [FloorRing α]

/-- What one loop body does to the bracket stack. -/
theorem step_stack (m : Libm α) (ls : lsystem α)
    (recur : List Char → World α → Option (World α)) (n : Nat) (d : Bool) (c : Char)
    (br br1 : List (Saved α)) (w w1 : World α)
    (h : step m ls recur n d c br w = some (br1, w1)) :
    (c = '[' ∧ br1 = (w.pos0, w.pos1, w.currentAngle) :: br ∧ w1.pos0 = w.pos0 ∧
        w1.pos1 = w.pos1 ∧ w1.currentAngle = w.currentAngle) ∨
    (c = ']' ∧ br = (w1.pos0, w1.pos1, w1.currentAngle) :: br1) ∨
    (c ≠ '[' ∧ c ≠ ']' ∧ br1 = br) := by
  unfold step at h
  by_cases hl : c.isLower = true
  · have h1 : c ≠ '[' := by rintro rfl; revert hl; decide
    have h2 : c ≠ ']' := by rintro rfl; revert hl; decide
    refine Or.inr (Or.inr ⟨h1, h2, ?_⟩)
    simp only [hl, if_true] at h
    split at h
    · simp only [Option.map_eq_some'] at h
      obtain ⟨_, _, h3⟩ := h
      cases h3; rfl
    · split at h
      · simp only [Option.map_eq_some'] at h
        obtain ⟨_, _, h3⟩ := h
        cases h3; rfl
      · split at h
        · simp only [Option.map_eq_some'] at h
          obtain ⟨_, _, h3⟩ := h
          cases h3; rfl
        · cases h; rfl
  · rw [if_neg hl] at h
    by_cases hp : c = '+'
    · rw [if_pos hp] at h
      cases h
      exact Or.inr (Or.inr ⟨by rw [hp]; decide, by rw [hp]; decide, rfl⟩)
    · rw [if_neg hp] at h
      by_cases hm : c = '-'
      · rw [if_pos hm] at h
        cases h
        exact Or.inr (Or.inr ⟨by rw [hm]; decide, by rw [hm]; decide, rfl⟩)
      · rw [if_neg hm] at h
        by_cases ho : c = '['
        · rw [if_pos ho] at h
          split at h
          · cases h
            exact Or.inl ⟨ho, rfl, rfl, rfl, rfl⟩
          · cases h
        · rw [if_neg ho] at h
          by_cases hcl : c = ']'
          · rw [if_pos hcl] at h
            split at h
            · cases h
            · cases h
              exact Or.inr (Or.inl ⟨hcl, rfl⟩)
          · rw [if_neg hcl] at h
            cases h
            exact Or.inr (Or.inr ⟨ho, hcl, rfl⟩)

/-- Over a sequence scanned from depth `k` to depth `k1`, the loop leaves the rows of
the stack below the `k` topmost ones in place. -/
theorem run_stack (m : Libm α) (ls : lsystem α)
    (recur : List Char → World α → Option (World α)) (n : Nat) (d : Bool)
    (u : List Char) (k k1 : Nat) (hk : depthAfter u k = some k1)
    (top base br1 : List (Saved α)) (w w1 : World α) (htop : top.length = k)
    (h : run m ls recur n d u (top ++ base) w = some (br1, w1)) :
    ∃ top1 : List (Saved α), top1.length = k1 ∧ br1 = top1 ++ base := by
  induction u generalizing k top w with
  | nil =>
    simp only [depthAfter, Option.some.injEq] at hk
    simp only [run, Option.some.injEq, Prod.mk.injEq] at h
    exact ⟨top, htop.trans hk, h.1.symm⟩
  | cons c cs ih =>
    simp only [run] at h
    cases hs : step m ls recur n d c (top ++ base) w with
    | none => rw [hs] at h; cases h
    | some p =>
      obtain ⟨br2, w2⟩ := p
      rw [hs] at h
      simp only [depthAfter] at hk
      rcases step_stack m ls recur n d c _ _ w w2 hs with ⟨hc, hbr, -⟩ | ⟨hc, hbr⟩ | ⟨hc1, hc2, hbr⟩
      · subst hc
        simp only [if_true] at hk
        exact ih (k + 1) hk ((w.pos0, w.pos1, w.currentAngle) :: top) w2
          (by simp [htop]) (by rw [hbr] at h; exact h)
      · subst hc
        have hne : ¬ (']' = '[') := by decide
        simp only [hne, if_false, if_true] at hk
        split at hk
        · cases hk
        · rename_i hk0
          cases top with
          | nil => exact absurd htop.symm hk0
          | cons t ts =>
            simp only [List.cons_append, List.cons.injEq] at hbr
            exact ih (k - 1) hk ts w2 (by simp at htop; omega) (by rw [hbr.2]; exact h)
      · simp only [hc1, hc2, if_false] at hk
        exact ih k hk top w2 htop (by rw [hbr] at h; exact h)

/-- Bracket balance on the loop: after `[ u ]` with `u` matched, the stack, the
position and the heading are those before the `[`. -/
theorem run_bracketed (m : Libm α) (ls : lsystem α)
    (recur : List Char → World α → Option (World α)) (n : Nat) (d : Bool)
    (u : List Char) (hu : matched u) (br br1 : List (Saved α)) (w w1 : World α)
    (h : run m ls recur n d ('[' :: (u ++ [']'])) br w = some (br1, w1)) :
    br1 = br ∧ w1.pos0 = w.pos0 ∧ w1.pos1 = w.pos1 ∧ w1.currentAngle = w.currentAngle := by
  simp only [run] at h
  cases hs : step m ls recur n d '[' br w with
  | none => rw [hs] at h; cases h
  | some p =>
    obtain ⟨br2, w2⟩ := p
    rw [hs] at h
    rcases step_stack m ls recur n d '[' _ _ w w2 hs with ⟨-, hbr, -⟩ | ⟨hc, -⟩ | ⟨hc, -⟩
    · simp only [] at h
      rw [run_append] at h
      cases hr : run m ls recur n d u br2 w2 with
      | none => rw [hr] at h; cases h
      | some q =>
        obtain ⟨br3, w3⟩ := q
        rw [hr] at h
        simp only [Option.some_bind, run] at h
        obtain ⟨top1, hlen, htop⟩ := run_stack m ls recur n d u 0 0 hu [] br2 br3 w2 w3 rfl
          (by simpa using hr)
        have h3 : br3 = br2 := by
          rw [htop, List.length_eq_zero.1 hlen]; rfl
        cases hs2 : step m ls recur n d ']' br3 w3 with
        | none => rw [hs2] at h; cases h
        | some q2 =>
          obtain ⟨br4, w4⟩ := q2
          rw [hs2] at h
          simp only [Option.some.injEq, Prod.mk.injEq] at h
          obtain ⟨h41, h42⟩ := h
          subst h41 h42
          rcases step_stack m ls recur n d ']' _ _ w3 w4 hs2 with ⟨hc, -⟩ | ⟨-, hpop⟩ | ⟨-, hc, -⟩
          · exact absurd hc (by decide)
          · rw [h3, hbr] at hpop
            simp only [List.cons.injEq, Prod.mk.injEq] at hpop
            obtain ⟨⟨p0, p1, p2⟩, p3⟩ := hpop
            exact ⟨p3.symm, p0.symm, p1.symm, p2.symm⟩
          · exact absurd rfl hc
    · exact absurd hc (by decide)
    · exact absurd rfl hc

end

/-- C3: in the loop of `generate` (any grammar, mode and iteration count), when the
current sequence continues after `pre` with `[ u ]` where the brackets of `u` are
matched and the interpretation up to the `]` is defined, the position and the heading
after the `]` are those before the `[`, and so is the bracket stack. -/
theorem bracket_balance {α : Type} [LinearOrderedField α] [FloorRing α]
    (m : Libm α) (ls : lsystem α) (drawable : Bool) (iteration : Nat)
    (pre u : List Char) (hu : matched u) (start before after : World α)
    (br br1 : List (Saved α))
    (hbefore : run m ls (recurAt m ls drawable iteration) iteration drawable pre [] start
      = some (br, before))
    (hafter : run m ls (recurAt m ls drawable iteration) iteration drawable
      (pre ++ '[' :: (u ++ [']'])) [] start = some (br1, after)) :
    after.pos0 = before.pos0 ∧ after.pos1 = before.pos1 ∧
      after.currentAngle = before.currentAngle ∧ br1 = br := by
  rw [run_append, hbefore] at hafter
  obtain ⟨h0, h1, h2, h3⟩ := run_bracketed m ls _ iteration drawable u hu br br1 before after
    (by simpa using hafter)
  exact ⟨h1, h2, h3, h0⟩

/-- The measure pass of the tree at iteration 0 on `a`. -/
theorem branch_before :
    run quarter tree (recurAt quarter tree false 0) 0 false ['a'] [] origin
      = some ([], beforeBranch) := by
  simp +decide [run, step, terminal, move, extend, quarter, tree, origin, beforeBranch]

/-- The measure pass of the tree at iteration 0 on `a[+a]`. -/
theorem branch_after :
    run quarter tree (recurAt quarter tree false 0) 0 false
      (['a'] ++ '[' :: (['+', 'a'] ++ [']'])) [] origin = some ([], afterBranch) := by
  simp +decide [run, step, terminal, move, extend, quarter, tree, origin, afterBranch]

/-- Witness of C3: the branch `[+a]` after `a`, at iteration 0 in the measure pass. -/
theorem bracket_balance_witness :
    afterBranch.pos0 = beforeBranch.pos0 ∧ afterBranch.pos1 = beforeBranch.pos1 ∧
      afterBranch.currentAngle = beforeBranch.currentAngle ∧
      ([] : List (Saved ℚ)) = [] :=
  bracket_balance quarter tree false 0 ['a'] ['+', 'a'] (by decide) origin beforeBranch
    afterBranch [] [] branch_before branch_after

/-! ## Iteration 0 -/

section
variable {α : Type} [LinearOrderedField α] [FloorRing α]

/-- A terminal action does not read the rules. -/
theorem terminal_rules (m : Libm α) (ls : lsystem α) (rules1 : Nat → Option (List Char))
    (a : Nat) (d : Bool) (w : World α) :
    terminal m { ls with rules := rules1 } a d w = terminal m ls a d w := rfl

/-- At iteration 0 the loop body reads neither the rules nor the recursive call. -/
theorem step_zero (m : Libm α) (ls : lsystem α) (rules1 : Nat → Option (List Char))
    (recur recur1 : List Char → World α → Option (World α)) (d : Bool) (c : Char)
    (br : List (Saved α)) (w : World α) :
    step m { ls with rules := rules1 } recur1 0 d c br w = step m ls recur 0 d c br w := by
  unfold step
  by_cases hl : c.isLower = true
  · simp only [hl, if_true, terminal_rules]
    cases ls.rules (c.toNat - 97) <;> cases rules1 (c.toNat - 97) <;> rfl
  · rw [if_neg hl, if_neg hl]

theorem run_zero (m : Libm α) (ls : lsystem α) (rules1 : Nat → Option (List Char))
    (recur recur1 : List Char → World α → Option (World α)) (d : Bool) (cur : List Char)
    (br : List (Saved α)) (w : World α) :
    run m { ls with rules := rules1 } recur1 0 d cur br w = run m ls recur 0 d cur br w := by
  induction cur generalizing br w with
  | nil => rfl
  | cons c cs ih =>
    simp only [run, step_zero m ls rules1 recur recur1]
    cases step m ls recur 0 d c br w with
    | none => rfl
    | some p => exact ih p.1 p.2

end

/-! ## Empty productions, and letters in both sets -/

section
variable {α : Type} [LinearOrderedField α] [FloorRing α]

/-- The position and heading after a terminal action on a letter that moves the pen. -/
theorem terminal_moves (m : Libm α) (ls : lsystem α) (a : Nat) (d : Bool) (w : World α)
    (hmove : ls.draw a = true ∨ ls.skip a = true) :
    ∃ w1, terminal m ls a d w = some w1 ∧
      w1.pos0 = w.pos0 + m.cos w.currentAngle ∧
      w1.pos1 = w.pos1 + m.sin w.currentAngle ∧
      w1.currentAngle = w.currentAngle := by
  by_cases hdraw : ls.draw a = true
  · cases d with
    | true =>
      obtain ⟨ps, hps⟩ := terminal_draw m ls a w hdraw
      exact ⟨_, hps, rfl, rfl, rfl⟩
    | false => exact ⟨_, terminal_draw_measure m ls a w hdraw, rfl, rfl, rfl⟩
  · have hd : ls.draw a = false := by simpa using hdraw
    have hs : ls.skip a = true := by
      rcases hmove with h | h
      · exact absurd h hdraw
      · exact h
    exact ⟨_, terminal_skip m ls a d w hd hs, rfl, rfl, rfl⟩

/-- C5, as amended: while iterations remain (`iteration = n + 1`), a letter whose
production is present but empty changes nothing: position, heading, extremes, screen and
logs are those before, whatever the draw and skip sets; at `iteration = 0` it performs
the terminal action. A letter with no production performs the terminal action at every
iteration count, which moves the pen by `(cos, sin)` of the heading when the letter is in
the draw or the skip set. -/
theorem rule_empty_silent (m : Libm α) (ls : lsystem α)
    (recur : List Char → World α → Option (World α)) (n : Nat) (drawable : Bool) (c : Char)
    (br : List (Saved α)) (w : World α) (hc : c.isLower = true) :
    (ls.rules (c.toNat - 97) = some [] →
      step m ls recur (n + 1) drawable c br w = some (br, w) ∧
      generate m ls (n + 1) drawable [c] w = some w ∧
      step m ls recur 0 drawable c br w
        = (terminal m ls (c.toNat - 97) drawable w).map (fun w1 => (br, w1))) ∧
    (ls.rules (c.toNat - 97) = none →
      step m ls recur n drawable c br w
        = (terminal m ls (c.toNat - 97) drawable w).map (fun w1 => (br, w1)) ∧
      (ls.draw (c.toNat - 97) = true ∨ ls.skip (c.toNat - 97) = true →
        ∃ w1, step m ls recur n drawable c br w = some (br, w1) ∧
          w1.pos0 = w.pos0 + m.cos w.currentAngle ∧
          w1.pos1 = w.pos1 + m.sin w.currentAngle ∧
          w1.currentAngle = w.currentAngle)) := by
  constructor
  · intro hrule
    have hstep : ∀ (rc : List Char → World α → Option (World α)) (b : List (Saved α)),
        step m ls rc (n + 1) drawable c b w = some (b, w) := by
      intro rc b
      unfold step
      simp [hc, hrule]
    refine ⟨hstep recur br, ?_, step_terminal m ls recur 0 drawable c br w hc (Or.inl rfl)⟩
    simp only [generate, run, hstep]
    rfl
  · intro hrule
    have hstep := step_terminal m ls recur n drawable c br w hc (Or.inr hrule)
    refine ⟨hstep, fun hmove => ?_⟩
    obtain ⟨w1, h1, h2⟩ := terminal_moves m ls (c.toNat - 97) drawable w hmove
    exact ⟨w1, by rw [hstep, h1]; rfl, h2⟩

/-- C6: a terminal action on a letter that is in the draw set and in the skip set is the
action of the same letter taken out of the skip set: the pen advances by `(cos, sin)` of
the heading once, and the draw pass logs exactly one `drawLine2d` call, the measure pass
none. -/
theorem draw_precedes_skip (m : Libm α) (ls : lsystem α)
    (recur : List Char → World α → Option (World α)) (n : Nat) (drawable : Bool) (c : Char)
    (br : List (Saved α)) (w : World α) (hc : c.isLower = true)
    (hterm : n = 0 ∨ ls.rules (c.toNat - 97) = none)
    (hdraw : ls.draw (c.toNat - 97) = true) (hskip : ls.skip (c.toNat - 97) = true) :
    step m ls recur n drawable c br w
        = step m { ls with skip := fun b => if b = c.toNat - 97 then false else ls.skip b }
            recur n drawable c br w ∧
      ∃ w1, step m ls recur n drawable c br w = some (br, w1) ∧
        w1.pos0 = w.pos0 + m.cos w.currentAngle ∧
        w1.pos1 = w.pos1 + m.sin w.currentAngle ∧
        w1.currentAngle = w.currentAngle ∧
        w1.lines = w.lines ++
          (if drawable then
            [segment w.extremes w.pos0 w.pos1 (w.pos0 + m.cos w.currentAngle)
              (w.pos1 + m.sin w.currentAngle)]
          else []) := by
  constructor
  · rw [step_terminal m ls recur n drawable c br w hc hterm,
      step_terminal m { ls with skip := fun b => if b = c.toNat - 97 then false else ls.skip b }
        recur n drawable c br w hc hterm]
    unfold terminal
    simp only [hdraw, if_true]
  · rw [step_terminal m ls recur n drawable c br w hc hterm]
    cases drawable with
    | true =>
      obtain ⟨ps, hps⟩ := terminal_draw m ls (c.toNat - 97) w hdraw
      rw [hps]
      exact ⟨_, rfl, rfl, rfl, rfl, rfl⟩
    | false =>
      rw [terminal_draw_measure m ls (c.toNat - 97) w hdraw]
      exact ⟨_, rfl, rfl, rfl, rfl, by simp⟩

end

/-- Counterexample to C5 as stated: at `iteration = 0` the letter `a`, in the draw set
and with a production that is present but empty, moves the pen from `(0,0)` to `(1,0)`
in the measure pass and logs one `drawLine2d` call in the draw pass. -/
theorem rule_empty_silent_counterexample :
    silent.rules ('a'.toNat - 97) = some [] ∧
      generate quarter silent 0 false ['a'] origin = some beforeBranch ∧
      beforeBranch.pos0 ≠ origin.pos0 ∧
      (generate quarter silent 0 true ['a'] treeDraw).map (fun r => r.lines.length) = some 1 := by
  refine ⟨by decide, ?_, ?_, ?_⟩
  · simp +decide [generate, run, step, terminal, move, extend, quarter, silent, origin,
      beforeBranch]
  · simp [beforeBranch, origin]
  · obtain ⟨ps, hps⟩ := terminal_draw quarter silent 0 treeDraw (by decide)
    have hstep := step_terminal quarter silent (fun _ _ => none) 0 true 'a' [] treeDraw
      (by decide) (Or.inl rfl)
    have h0 : 'a'.toNat - 97 = 0 := by decide
    rw [h0, hps] at hstep
    simp only [generate, run, hstep]
    simp [treeDraw]

/-- Witness of C5 as amended: with one iteration left the letter `a` of `silent` changes
nothing. -/
theorem rule_empty_silent_witness :
    step quarter silent (fun _ _ => none) (0 + 1) false 'a' [] origin = some ([], origin) ∧
      generate quarter silent (0 + 1) false ['a'] origin = some origin ∧
      step quarter silent (fun _ _ => none) 0 false 'a' [] origin
        = (terminal quarter silent ('a'.toNat - 97) false origin).map (fun w1 => ([], w1)) :=
  (rule_empty_silent quarter silent (fun _ _ => none) 0 false 'a' [] origin (by decide)).1
    (by decide)

/-- Witness of C6: the letter `a` of `both` in the draw pass. -/
theorem draw_precedes_skip_witness :
    step quarter both (fun _ _ => none) 0 true 'a' [] treeDraw
        = step quarter
            { both with skip := fun b => if b = 'a'.toNat - 97 then false else both.skip b }
            (fun _ _ => none) 0 true 'a' [] treeDraw ∧
      ∃ w1, step quarter both (fun _ _ => none) 0 true 'a' [] treeDraw = some ([], w1) ∧
        w1.pos0 = treeDraw.pos0 + quarter.cos treeDraw.currentAngle ∧
        w1.pos1 = treeDraw.pos1 + quarter.sin treeDraw.currentAngle ∧
        w1.currentAngle = treeDraw.currentAngle ∧
        w1.lines = treeDraw.lines ++
          (if true then
            [segment treeDraw.extremes treeDraw.pos0 treeDraw.pos1
              (treeDraw.pos0 + quarter.cos treeDraw.currentAngle)
              (treeDraw.pos1 + quarter.sin treeDraw.currentAngle)]
          else []) :=
  draw_precedes_skip quarter both (fun _ _ => none) 0 true 'a' [] treeDraw (by decide)
    (Or.inl rfl) (by decide) (by decide)

/-! ## The tree example -/

section
variable {α : Type} [LinearOrderedField α] [FloorRing α]

theorem step_plus (m : Libm α) (ls : lsystem α)
    (recur : List Char → World α → Option (World α)) (n : Nat) (d : Bool)
    (br : List (Saved α)) (w : World α) :
    step m ls recur n d '+' br w
      = some (br, { w with currentAngle := w.currentAngle + ls.angle }) := by
  simp +decide [step]

theorem step_minus (m : Libm α) (ls : lsystem α)
    (recur : List Char → World α → Option (World α)) (n : Nat) (d : Bool)
    (br : List (Saved α)) (w : World α) :
    step m ls recur n d '-' br w
      = some (br, { w with currentAngle := w.currentAngle - ls.angle }) := by
  simp +decide [step]

theorem step_open (m : Libm α) (ls : lsystem α)
    (recur : List Char → World α → Option (World α)) (n : Nat) (d : Bool)
    (br : List (Saved α)) (w : World α) (hlen : br.length < 8) :
    step m ls recur n d '[' br w
      = some ((w.pos0, w.pos1, w.currentAngle) :: br,
          { w with slots := w.slots ++ [br.length] }) := by
  simp +decide [step, hlen]

theorem step_close (m : Libm α) (ls : lsystem α)
    (recur : List Char → World α → Option (World α)) (n : Nat) (d : Bool)
    (x y t : α) (br : List (Saved α)) (w : World α) :
    step m ls recur n d ']' ((x, y, t) :: br) w
      = some (br, { w with pos0 := x, pos1 := y, currentAngle := t,
                           slots := w.slots ++ [br.length] }) := by
  simp +decide [step]

/-- The loop body on a letter with a non-empty production while iterations remain. -/
theorem step_recur (m : Libm α) (ls : lsystem α) (d : Bool) (n : Nat) (c : Char)
    (rule : List Char) (br : List (Saved α)) (w : World α) (hc : c.isLower = true)
    (hrule : ls.rules (c.toNat - 97) = some rule) (hne : rule ≠ []) :
    step m ls (recurAt m ls d (n + 1)) (n + 1) d c br w
      = (generate m ls n d rule w).map (fun w1 => (br, w1)) := by
  unfold step
  simp [hc, hrule, hne, recurAt]

/-- The letter `a` of the tree with `n` iterations left: `4 ^ n` calls of `drawLine2d`,
every bracket access at slot 0. -/
theorem tree_letter (m : Libm α) (ls : lsystem α) (hdraw : ls.draw 0 = true)
    (hrule : ls.rules 0 = some ['a', '[', '+', 'a', ']', '[', '-', 'a', ']', 'a'])
    (n : Nat) (br : List (Saved α)) (w : World α) :
    ∃ w1, step m ls (recurAt m ls true n) n true 'a' br w = some (br, w1) ∧
      w1.lines.length = w.lines.length + 4 ^ n ∧
      ∀ i ∈ w1.slots, i ∈ w.slots ∨ i = 0 := by
  have ha : 'a'.toNat - 97 = 0 := by decide
  induction n generalizing br w with
  | zero =>
    obtain ⟨ps, hps⟩ := terminal_draw m ls 0 w hdraw
    have hstep := step_terminal m ls (recurAt m ls true 0) 0 true 'a' br w (by decide)
      (Or.inl rfl)
    rw [ha, hps] at hstep
    exact ⟨_, hstep, by simp, fun i hi => Or.inl hi⟩
  | succ k ih =>
    rw [step_recur m ls true k 'a' _ br w (by decide) (by rw [ha]; exact hrule) (by simp),
      generate_eq_run]
    obtain ⟨w1, h1, l1, s1⟩ := ih [] w
    obtain ⟨w2, h2, l2, s2⟩ := ih [(w1.pos0, w1.pos1, w1.currentAngle)]
      { w1 with slots := w1.slots ++ [0], currentAngle := w1.currentAngle + ls.angle }
    obtain ⟨w3, h3, l3, s3⟩ := ih [(w1.pos0, w1.pos1, w1.currentAngle)]
      { w2 with pos0 := w1.pos0, pos1 := w1.pos1, currentAngle := w1.currentAngle - ls.angle,
                slots := w2.slots ++ [0] ++ [0] }
    obtain ⟨w4, h4, l4, s4⟩ := ih []
      { w3 with pos0 := w1.pos0, pos1 := w1.pos1, currentAngle := w1.currentAngle,
                slots := w3.slots ++ [0] }
    refine ⟨w4, ?_, ?_, ?_⟩
    · simp only [run, h1, step_open m ls _ k true [] _ (Nat.zero_lt_succ 7), step_plus, h2, step_close,
        step_minus, h3, h4, List.length_nil, Option.map_some']
    · rw [l4, l3, l2, l1]
      simp only [pow_succ]
      ring
    · intro i hi
      rcases s4 i hi with h | h
      · simp only [List.mem_append, List.mem_singleton] at h
        rcases h with h | h
        · rcases s3 i h with h | h
          · simp only [List.mem_append, List.mem_singleton] at h
            rcases h with (h | h) | h
            · rcases s2 i h with h | h
              · simp only [List.mem_append, List.mem_singleton] at h
                rcases h with h | h
                · exact s1 i h
                · exact Or.inr h
              · exact Or.inr h
            · exact Or.inr h
            · exact Or.inr h
          · exact Or.inr h
        · exact Or.inr h
      · exact Or.inr h

end

/-- C8: for the tree (`a = a[+a][-a]a`, `a` in the draw set, any angle and any other
table entries) the draw pass on the sequence `a` with `n` iterations is defined, logs
exactly `4 ^ n` calls of `drawLine2d`, and every access `brackets[goTo]` it logs is at an
index below 8. -/
theorem tree_segment_count {α : Type} [LinearOrderedField α] [FloorRing α]
    (m : Libm α) (ls : lsystem α) (hdraw : ls.draw 0 = true)
    (hrule : ls.rules 0 = some ['a', '[', '+', 'a', ']', '[', '-', 'a', ']', 'a'])
    (n : Nat) (w : World α) :
    ∃ r, generate m ls n true ['a'] w = some r ∧
      r.lines.length = w.lines.length + 4 ^ n ∧
      ∀ i ∈ r.slots, i ∈ w.slots ∨ i < 8 := by
  obtain ⟨w1, h1, l1, s1⟩ := tree_letter m ls hdraw hrule n [] w
  refine ⟨w1, ?_, l1, fun i hi => ?_⟩
  · rw [generate_eq_run]
    simp only [run, h1, Option.map_some']
  · rcases s1 i hi with h | h
    · exact Or.inl h
    · exact Or.inr (by omega)

/-- Witness of C8: the tree with three iterations logs 64 calls. -/
theorem tree_segment_count_witness :
    ∃ r, generate quarter tree 3 true ['a'] treeDraw = some r ∧
      r.lines.length = 0 + 64 ∧
      ∀ i ∈ r.slots, i ∈ treeDraw.slots ∨ i < 8 :=
  tree_segment_count quarter tree (by decide) (by decide) 3 treeDraw

/-! ## The Koch snowflake -/

section
variable {α : Type} [LinearOrderedField α] [FloorRing α]

/-- A terminal action leaves the heading and the log of bracket accesses. -/
theorem terminal_frame (m : Libm α) (ls : lsystem α) (a : Nat) (d : Bool) (w w1 : World α)
    (h : terminal m ls a d w = some w1) :
    w1.currentAngle = w.currentAngle ∧ w1.slots = w.slots := by
  by_cases hdraw : ls.draw a = true
  · cases d with
    | true =>
      obtain ⟨ps, hps⟩ := terminal_draw m ls a w hdraw
      rw [hps] at h; cases h; exact ⟨rfl, rfl⟩
    | false =>
      rw [terminal_draw_measure m ls a w hdraw] at h; cases h; exact ⟨rfl, rfl⟩
  · have hd : ls.draw a = false := by simpa using hdraw
    by_cases hskip : ls.skip a = true
    · rw [terminal_skip m ls a d w hd hskip] at h; cases h; exact ⟨rfl, rfl⟩
    · have hs : ls.skip a = false := by simpa using hskip
      rw [terminal_idle m ls a d w hd hs] at h; cases h; exact ⟨rfl, rfl⟩

end

/-- The letter `a` of the Koch curve with `n` iterations left advances the pen by `3 ^ n`
along the heading and leaves the heading. -/
theorem koch_letter (ls : lsystem ℝ) (hdraw : ls.draw 0 = true)
    (hrule : ls.rules 0 = some ['a', '+', 'a', '-', '-', 'a', '+', 'a'])
    (hangle : ls.angle = Real.pi / 3) (d : Bool) (n : Nat) (br : List (Saved ℝ))
    (w : World ℝ) :
    ∃ w1, step ⟨Real.cos, Real.sin⟩ ls (recurAt ⟨Real.cos, Real.sin⟩ ls d n) n d 'a' br w
        = some (br, w1) ∧
      w1.pos0 = w.pos0 + 3 ^ n * Real.cos w.currentAngle ∧
      w1.pos1 = w.pos1 + 3 ^ n * Real.sin w.currentAngle ∧
      w1.currentAngle = w.currentAngle ∧ w1.slots = w.slots := by
  have ha : 'a'.toNat - 97 = 0 := by decide
  induction n generalizing br w with
  | zero =>
    obtain ⟨w1, h1, p0, p1, -⟩ :=
      terminal_moves (⟨Real.cos, Real.sin⟩ : Libm ℝ) ls 0 d w (Or.inl hdraw)
    obtain ⟨f1, f2⟩ := terminal_frame _ ls 0 d w w1 h1
    have hstep := step_terminal (⟨Real.cos, Real.sin⟩ : Libm ℝ) ls
      (recurAt ⟨Real.cos, Real.sin⟩ ls d 0) 0 d 'a' br w (by decide) (Or.inl rfl)
    rw [ha, h1] at hstep
    exact ⟨w1, hstep, by simpa using p0, by simpa using p1, f1, f2⟩
  | succ k ih =>
    rw [step_recur _ ls d k 'a' _ br w (by decide) (by rw [ha]; exact hrule) (by simp),
      generate_eq_run]
    obtain ⟨w1, h1, x1, y1, t1, s1⟩ := ih [] w
    obtain ⟨w2, h2, x2, y2, t2, s2⟩ := ih []
      { w1 with currentAngle := w1.currentAngle + ls.angle }
    obtain ⟨w3, h3, x3, y3, t3, s3⟩ := ih []
      { w2 with currentAngle := w2.currentAngle - ls.angle - ls.angle }
    obtain ⟨w4, h4, x4, y4, t4, s4⟩ := ih []
      { w3 with currentAngle := w3.currentAngle + ls.angle }
    refine ⟨w4, ?_, ?_, ?_, ?_, ?_⟩
    · simp only [run, h1, step_plus, h2, step_minus, h3, h4, Option.map_some']
    · simp only [] at x2 x3 x4 t2 t3 t4
      rw [x4, x3, x2, x1, t3, t2, t1, hangle]
      have e1 : w.currentAngle + Real.pi / 3 - Real.pi / 3 - Real.pi / 3
          = w.currentAngle - Real.pi / 3 := by ring
      have e2 : w.currentAngle - Real.pi / 3 + Real.pi / 3 = w.currentAngle := by ring
      rw [e1, e2, Real.cos_add, Real.cos_sub, Real.cos_pi_div_three, pow_succ]
      ring
    · simp only [] at y2 y3 y4 t2 t3 t4
      rw [y4, y3, y2, y1, t3, t2, t1, hangle]
      have e1 : w.currentAngle + Real.pi / 3 - Real.pi / 3 - Real.pi / 3
          = w.currentAngle - Real.pi / 3 := by ring
      have e2 : w.currentAngle - Real.pi / 3 + Real.pi / 3 = w.currentAngle := by ring
      rw [e1, e2, Real.sin_add, Real.sin_sub, Real.cos_pi_div_three, pow_succ]
      ring
    · simp only [] at t2 t3 t4
      rw [t4, t3, t2, t1]
      ring
    · simp only [] at s2 s3 s4
      rw [s4, s3, s2, s1]

/-- C9: for the Koch snowflake (`a = a+a--a+a`, `a` in the draw set, turn of exactly
`pi / 3`, reals for doubles) started at `(0,0)` with heading 0, `generate` on `a--a--a` is
defined for every iteration count and mode, ends at the position `(0,0)`, and logs no
access to the bracket stack. -/
theorem koch_snowflake_closed (ls : lsystem ℝ) (hdraw : ls.draw 0 = true)
    (hrule : ls.rules 0 = some ['a', '+', 'a', '-', '-', 'a', '+', 'a'])
    (hangle : ls.angle = Real.pi / 3) (drawable : Bool) (n : Nat) (w : World ℝ)
    (hx : w.pos0 = 0) (hy : w.pos1 = 0) (ht : w.currentAngle = 0) :
    ∃ r, generate ⟨Real.cos, Real.sin⟩ ls n drawable ['a', '-', '-', 'a', '-', '-', 'a'] w
        = some r ∧
      r.pos0 = 0 ∧ r.pos1 = 0 ∧ r.slots = w.slots := by
  obtain ⟨w1, h1, x1, y1, t1, s1⟩ := koch_letter ls hdraw hrule hangle drawable n [] w
  obtain ⟨w2, h2, x2, y2, t2, s2⟩ := koch_letter ls hdraw hrule hangle drawable n []
    { w1 with currentAngle := w1.currentAngle - ls.angle - ls.angle }
  obtain ⟨w3, h3, x3, y3, t3, s3⟩ := koch_letter ls hdraw hrule hangle drawable n []
    { w2 with currentAngle := w2.currentAngle - ls.angle - ls.angle }
  have e1 : (0 : ℝ) - Real.pi / 3 - Real.pi / 3 = -(Real.pi - Real.pi / 3) := by ring
  have e2 : -(Real.pi - Real.pi / 3) - Real.pi / 3 - Real.pi / 3
      = -(Real.pi / 3 + Real.pi) := by ring
  refine ⟨w3, ?_, ?_, ?_, ?_⟩
  · rw [generate_eq_run]
    simp only [run, h1, step_minus, h2, h3, Option.map_some']
  · simp only [] at x2 x3 t2 t3
    rw [x3, x2, x1, t2, t1, hx, ht, hangle, e1, e2, Real.cos_neg, Real.cos_neg,
      Real.cos_pi_sub, Real.cos_add_pi, Real.cos_pi_div_three, Real.cos_zero]
    ring
  · simp only [] at y2 y3 t2 t3
    rw [y3, y2, y1, t2, t1, hy, ht, hangle, e1, e2, Real.sin_neg, Real.sin_neg,
      Real.sin_pi_sub, Real.sin_add_pi, Real.sin_zero]
    ring
  · simp only [] at s2 s3
    rw [s3, s2, s1]

/-- Witness of C9: the snowflake of the file header with the spec's two iterations, in
the measure pass. -/
theorem koch_snowflake_closed_witness :
    ∃ r, generate ⟨Real.cos, Real.sin⟩ (koch (Real.pi / 3)) 2 false
          ['a', '-', '-', 'a', '-', '-', 'a'] (blank ℝ) = some r ∧
      r.pos0 = 0 ∧ r.pos1 = 0 ∧ r.slots = (blank ℝ).slots :=
  koch_snowflake_closed (koch (Real.pi / 3)) rfl rfl rfl false 2 (blank ℝ) rfl rfl rfl

/-! ## Repainting the canvas -/

/-- The three stores of one loop body of `drawLine2d`, at the byte index `k`. -/
theorem paint_comm (l : List Nat) (k k1 r g b : Nat) (h : k + 3 ≤ k1 ∨ k1 + 3 ≤ k) :
    (((((l.set k r).set (k + 1) g).set (k + 2) b).set k1 r).set (k1 + 1) g).set (k1 + 2) b
      = (((((l.set k1 r).set (k1 + 1) g).set (k1 + 2) b).set k r).set (k + 1) g).set (k + 2) b := by
  apply List.ext_getElem?
  intro j
  simp only [List.getElem?_set, List.length_set]
  split_ifs <;> first | rfl | omega

theorem paint_idem (l : List Nat) (k r g b : Nat) :
    (((((l.set k r).set (k + 1) g).set (k + 2) b).set k r).set (k + 1) g).set (k + 2) b
      = ((l.set k r).set (k + 1) g).set (k + 2) b := by
  apply List.ext_getElem?
  intro j
  simp only [List.getElem?_set, List.length_set]
  split_ifs <;> rfl

theorem painted_congr (s t : screen) (hw : t.w = s.w) (hmax : t.datmax = s.datmax)
    (p : Int × Int) : painted t p = painted s p := by
  simp only [painted, offset, hw, hmax]

theorem offset_congr (s t : screen) (hw : t.w = s.w) (p : Int × Int) :
    offset t p = offset s p := by
  simp only [offset, hw]

/-- The loop body, for a pixel that passes the guard, in terms of one byte index. -/
theorem plot_painted (s : screen) (p : Int × Int) (hp : painted s p = true) :
    plot s p = { s with dat := ((s.dat.set (offset s p).toNat s.r).set
      ((offset s p).toNat + 1) s.g).set ((offset s p).toNat + 2) s.b } := by
  have h0 : 0 ≤ offset s p := by
    simp only [painted, Bool.and_eq_true, decide_eq_true_eq, ge_iff_le] at hp
    exact hp.2
  have e1 : (offset s p + 1).toNat = (offset s p).toNat + 1 := by omega
  have e2 : (offset s p + 2).toNat = (offset s p).toNat + 2 := by omega
  unfold plot
  rw [if_pos hp]
  simp only [e1, e2]

theorem plot_comm (s : screen) (p q : Int × Int) : plot (plot s p) q = plot (plot s q) p := by
  have gp := plot_geometry s p
  have gq := plot_geometry s q
  by_cases hp : painted s p = true
  · by_cases hq : painted s q = true
    · have hq1 : painted (plot s p) q = true := by
        rw [painted_congr s _ gp.1 gp.2.2.1]; exact hq
      have hp1 : painted (plot s q) p = true := by
        rw [painted_congr s _ gq.1 gq.2.2.1]; exact hp
      rw [plot_painted _ q hq1, plot_painted _ p hp1, offset_congr s _ gp.1,
        offset_congr s _ gq.1, plot_painted s p hp, plot_painted s q hq]
      simp only [screen.mk.injEq, and_true, true_and]
      have h0p : 0 ≤ offset s p := by
        simp only [painted, Bool.and_eq_true, decide_eq_true_eq, ge_iff_le] at hp
        exact hp.2
      have h0q : 0 ≤ offset s q := by
        simp only [painted, Bool.and_eq_true, decide_eq_true_eq, ge_iff_le] at hq
        exact hq.2
      have ep : offset s p = 3 * (s.w * p.2 + p.1) := by unfold offset; ring
      have eq : offset s q = 3 * (s.w * q.2 + q.1) := by unfold offset; ring
      by_cases hsame : offset s p = offset s q
      · rw [hsame]
      · exact paint_comm s.dat _ _ s.r s.g s.b (by omega)
    · have hq0 : painted s q = false := by simpa using hq
      have hq1 : painted (plot s p) q = false := by
        rw [painted_congr s _ gp.1 gp.2.2.1]; exact hq0
      have e1 : plot s q = s := by unfold plot; simp [hq0]
      have e2 : plot (plot s p) q = plot s p := by
        generalize plot s p = t at hq1
        unfold plot; simp [hq1]
      rw [e1, e2]
  · have hp0 : painted s p = false := by simpa using hp
    have hp1 : painted (plot s q) p = false := by
      rw [painted_congr s _ gq.1 gq.2.2.1]; exact hp0
    have e1 : plot s p = s := by unfold plot; simp [hp0]
    have e2 : plot (plot s q) p = plot s q := by
      generalize plot s q = t at hp1
      unfold plot; simp [hp1]
    rw [e1, e2]

theorem plot_idem (s : screen) (p : Int × Int) : plot (plot s p) p = plot s p := by
  have gp := plot_geometry s p
  by_cases hp : painted s p = true
  · have hp1 : painted (plot s p) p = true := by
      rw [painted_congr s _ gp.1 gp.2.2.1]; exact hp
    rw [plot_painted _ p hp1, offset_congr s _ gp.1, plot_painted s p hp]
    simp only [screen.mk.injEq, and_true, true_and]
    exact paint_idem s.dat _ s.r s.g s.b
  · have hp0 : painted s p = false := by simpa using hp
    have e1 : plot s p = s := by unfold plot; simp [hp0]
    rw [e1, e1]

/-- Painting a list of pixels after one more pixel, or before it. -/
theorem foldl_plot_comm (ps : List (Int × Int)) (s : screen) (p : Int × Int) :
    plot (ps.foldl plot s) p = ps.foldl plot (plot s p) := by
  induction ps generalizing s with
  | nil => rfl
  | cons q qs ih =>
    simp only [List.foldl_cons]
    rw [ih (plot s q), plot_comm s q p]

/-- Painting the same list of pixels a second time changes nothing. -/
theorem foldl_plot_idem (ps : List (Int × Int)) (s : screen) :
    ps.foldl plot (ps.foldl plot s) = ps.foldl plot s := by
  induction ps generalizing s with
  | nil => rfl
  | cons q qs ih =>
    simp only [List.foldl_cons]
    rw [foldl_plot_comm qs (plot s q) q, plot_idem, ih]

/-! ## The screen after a pass is the start screen repainted -/

section
variable {α : Type} [LinearOrderedField α] [FloorRing α]

theorem terminal_draw_pixels (m : Libm α) (ls : lsystem α) (a : Nat) (w : World α)
    (hdraw : ls.draw a = true) :
    ∃ ps : List (Int × Int),
      pixels
        (toInt (segment w.extremes w.pos0 w.pos1 (w.pos0 + m.cos w.currentAngle)
          (w.pos1 + m.sin w.currentAngle)).1)
        (toInt (segment w.extremes w.pos0 w.pos1 (w.pos0 + m.cos w.currentAngle)
          (w.pos1 + m.sin w.currentAngle)).2.1)
        (toInt (segment w.extremes w.pos0 w.pos1 (w.pos0 + m.cos w.currentAngle)
          (w.pos1 + m.sin w.currentAngle)).2.2.1)
        (toInt (segment w.extremes w.pos0 w.pos1 (w.pos0 + m.cos w.currentAngle)
          (w.pos1 + m.sin w.currentAngle)).2.2.2) = some ps ∧
      terminal m ls a true w = some
        { pos0 := w.pos0 + m.cos w.currentAngle
          pos1 := w.pos1 + m.sin w.currentAngle
          currentAngle := w.currentAngle
          extremes := w.extremes
          sp := ps.foldl plot w.sp
          lines := w.lines ++ [segment w.extremes w.pos0 w.pos1
            (w.pos0 + m.cos w.currentAngle) (w.pos1 + m.sin w.currentAngle)]
          visited := w.visited ++
            [(w.pos0 + m.cos w.currentAngle, w.pos1 + m.sin w.currentAngle, w.currentAngle)]
          slots := w.slots } := by
  obtain ⟨ps, hpx, hps⟩ := drawLine2d_isSome w.sp
    (toInt (segment w.extremes w.pos0 w.pos1 (move m w).pos0 (move m w).pos1).1)
    (toInt (segment w.extremes w.pos0 w.pos1 (move m w).pos0 (move m w).pos1).2.1)
    (toInt (segment w.extremes w.pos0 w.pos1 (move m w).pos0 (move m w).pos1).2.2.1)
    (toInt (segment w.extremes w.pos0 w.pos1 (move m w).pos0 (move m w).pos1).2.2.2)
  refine ⟨ps, hpx, ?_⟩
  unfold terminal
  simp only [hdraw, if_true, hps, Option.map_some']
  rfl

theorem terminal_paints (m : Libm α) (ls : lsystem α) (a : Nat) (d : Bool) :
    Paints (terminal m ls a d) := by
  intro u v h
  by_cases hdraw : ls.draw a = true
  · cases d with
    | true =>
      obtain ⟨ps, hpx, ht⟩ := terminal_draw_pixels m ls a u hdraw
      rw [ht] at h
      cases h
      refine ⟨ps, rfl, fun u1 hs => ?_⟩
      obtain ⟨e0, e1, e2, e3⟩ := hs
      obtain ⟨ps1, hpx1, ht1⟩ := terminal_draw_pixels m ls a u1 hdraw
      rw [← e0, ← e1, ← e2, ← e3, hpx] at hpx1
      cases hpx1
      exact ⟨_, ht1, ⟨by simp only [e0, e2], by simp only [e1, e2], e2, e3⟩, rfl⟩
    | false =>
      rw [terminal_draw_measure m ls a u hdraw] at h
      cases h
      refine ⟨[], rfl, fun u1 hs => ?_⟩
      obtain ⟨e0, e1, e2, e3⟩ := hs
      exact ⟨_, terminal_draw_measure m ls a u1 hdraw,
        ⟨by simp only [e0, e2], by simp only [e1, e2], e2, by simp only [e0, e1, e2, e3]⟩, rfl⟩
  · have hd : ls.draw a = false := by simpa using hdraw
    by_cases hskip : ls.skip a = true
    · rw [terminal_skip m ls a d u hd hskip] at h
      cases h
      refine ⟨[], rfl, fun u1 hs => ?_⟩
      obtain ⟨e0, e1, e2, e3⟩ := hs
      exact ⟨_, terminal_skip m ls a d u1 hd hskip,
        ⟨by simp only [e0, e2], by simp only [e1, e2], e2, by simp only [e0, e1, e2, e3]⟩, rfl⟩
    · have hs0 : ls.skip a = false := by simpa using hskip
      rw [terminal_idle m ls a d u hd hs0] at h
      cases h
      refine ⟨[], rfl, fun u1 hs => ?_⟩
      obtain ⟨e0, e1, e2, e3⟩ := hs
      exact ⟨_, terminal_idle m ls a d u1 hd hs0,
        ⟨e0, e1, e2, by simp only [e0, e1, e3]⟩, rfl⟩

/-- The loop body paints, with the same bracket stack before and after in both runs. -/
theorem step_paints (m : Libm α) (ls : lsystem α)
    (recur : List Char → World α → Option (World α)) (n : Nat) (d : Bool)
    (hrec : ∀ rule, Paints (recur rule)) (c : Char) (br br1 : List (Saved α))
    (u v : World α) (h : step m ls recur n d c br u = some (br1, v)) :
    ∃ ps : List (Int × Int), v.sp = ps.foldl plot u.sp ∧
      ∀ u1, Same u u1 → ∃ v1, step m ls recur n d c br u1 = some (br1, v1) ∧ Same v v1 ∧
        v1.sp = ps.foldl plot u1.sp := by
  have lift : ∀ (f : World α → Option (World α)), Paints f →
      Option.map (fun w1 => (br, w1)) (f u) = some (br1, v) →
      ∃ ps : List (Int × Int), v.sp = ps.foldl plot u.sp ∧
        ∀ u1, Same u u1 → ∃ v1, Option.map (fun w1 => (br, w1)) (f u1) = some (br1, v1) ∧
          Same v v1 ∧ v1.sp = ps.foldl plot u1.sp := by
    intro f hf hmap
    simp only [Option.map_eq_some'] at hmap
    obtain ⟨v0, hv0, hpair⟩ := hmap
    cases hpair
    obtain ⟨ps, hps, hall⟩ := hf u v hv0
    refine ⟨ps, hps, fun u1 hs => ?_⟩
    obtain ⟨v1, hv1, hsame, hsp⟩ := hall u1 hs
    exact ⟨v1, by rw [hv1]; rfl, hsame, hsp⟩
  unfold step at h ⊢
  by_cases hl : c.isLower = true
  · rw [if_pos hl] at h
    simp only [if_pos hl]
    cases hr : ls.rules (c.toNat - 97) with
    | none =>
      rw [hr] at h
      exact lift _ (terminal_paints m ls _ d) h
    | some rule =>
      rw [hr] at h
      simp only [] at h ⊢
      by_cases hn : n = 0
      · rw [if_pos hn] at h
        simp only [if_pos hn]
        exact lift _ (terminal_paints m ls _ d) h
      · rw [if_neg hn] at h
        simp only [if_neg hn]
        by_cases hne : rule ≠ []
        · rw [if_pos hne] at h
          simp only [if_pos hne]
          exact lift _ (hrec rule) h
        · rw [if_neg hne] at h
          simp only [if_neg hne]
          cases h
          exact ⟨[], rfl, fun u1 hs => ⟨u1, rfl, hs, rfl⟩⟩
  · rw [if_neg hl] at h
    simp only [if_neg hl]
    by_cases hp : c = '+'
    · rw [if_pos hp] at h
      simp only [if_pos hp]
      cases h
      refine ⟨[], rfl, fun u1 hs => ⟨_, rfl, ?_, rfl⟩⟩
      obtain ⟨e0, e1, e2, e3⟩ := hs
      exact ⟨e0, e1, by simp only [e2], e3⟩
    · rw [if_neg hp] at h
      simp only [if_neg hp]
      by_cases hm : c = '-'
      · rw [if_pos hm] at h
        simp only [if_pos hm]
        cases h
        refine ⟨[], rfl, fun u1 hs => ⟨_, rfl, ?_, rfl⟩⟩
        obtain ⟨e0, e1, e2, e3⟩ := hs
        exact ⟨e0, e1, by simp only [e2], e3⟩
      · rw [if_neg hm] at h
        simp only [if_neg hm]
        by_cases ho : c = '['
        · rw [if_pos ho] at h
          simp only [if_pos ho]
          by_cases hlen : br.length < 8
          · rw [if_pos hlen] at h
            simp only [if_pos hlen]
            cases h
            refine ⟨[], rfl, fun u1 hs => ?_⟩
            obtain ⟨e0, e1, e2, e3⟩ := hs
            exact ⟨{ u1 with slots := u1.slots ++ [br.length] }, by rw [e0, e1, e2],
              ⟨e0, e1, e2, e3⟩, rfl⟩
          · rw [if_neg hlen] at h
            cases h
        · rw [if_neg ho] at h
          simp only [if_neg ho]
          by_cases hcl : c = ']'
          · rw [if_pos hcl] at h
            simp only [if_pos hcl]
            cases br with
            | nil => cases h
            | cons top rest =>
              obtain ⟨x, y, t⟩ := top
              cases h
              exact ⟨[], rfl, fun u1 hs => ⟨_, rfl, ⟨rfl, rfl, rfl, hs.2.2.2⟩, rfl⟩⟩
          · rw [if_neg hcl] at h
            simp only [if_neg hcl]
            cases h
            exact ⟨[], rfl, fun u1 hs => ⟨u1, rfl, hs, rfl⟩⟩

theorem run_paints (m : Libm α) (ls : lsystem α)
    (recur : List Char → World α → Option (World α)) (n : Nat) (d : Bool)
    (hrec : ∀ rule, Paints (recur rule)) (cur : List Char) (br br1 : List (Saved α))
    (u v : World α) (h : run m ls recur n d cur br u = some (br1, v)) :
    ∃ ps : List (Int × Int), v.sp = ps.foldl plot u.sp ∧
      ∀ u1, Same u u1 → ∃ v1, run m ls recur n d cur br u1 = some (br1, v1) ∧ Same v v1 ∧
        v1.sp = ps.foldl plot u1.sp := by
  induction cur generalizing br u with
  | nil =>
    simp only [run, Option.some.injEq, Prod.mk.injEq] at h
    obtain ⟨hb, hu⟩ := h
    subst hb hu
    exact ⟨[], rfl, fun u1 hs => ⟨u1, rfl, hs, rfl⟩⟩
  | cons c cs ih =>
    simp only [run] at h
    cases hs : step m ls recur n d c br u with
    | none => rw [hs] at h; cases h
    | some p =>
      obtain ⟨br2, u2⟩ := p
      rw [hs] at h
      obtain ⟨ps, hps, hall⟩ := step_paints m ls recur n d hrec c br br2 u u2 hs
      obtain ⟨qs, hqs, hall2⟩ := ih br2 u2 h
      refine ⟨ps ++ qs, by rw [hqs, hps, List.foldl_append], fun u1 hsame => ?_⟩
      obtain ⟨v1, hv1, hsame1, hsp1⟩ := hall u1 hsame
      obtain ⟨v2, hv2, hsame2, hsp2⟩ := hall2 v1 hsame1
      refine ⟨v2, ?_, hsame2, by rw [hsp2, hsp1, List.foldl_append]⟩
      simp only [run, hv1]
      exact hv2

theorem generate_paints (m : Libm α) (ls : lsystem α) (d : Bool) (n : Nat)
    (cur : List Char) : Paints (generate m ls n d cur) := by
  induction n generalizing cur with
  | zero =>
    intro u v h
    simp only [generate, Option.map_eq_some'] at h
    obtain ⟨⟨br2, v2⟩, h2, h3⟩ := h
    cases h3
    obtain ⟨ps, hps, hall⟩ := run_paints m ls (fun _ _ => none) 0 d
      (fun _ u v hh => by cases hh) cur [] br2 u v2 h2
    refine ⟨ps, hps, fun u1 hs => ?_⟩
    obtain ⟨v1, hv1, hsame, hsp⟩ := hall u1 hs
    exact ⟨v1, by simp only [generate, hv1, Option.map_some'], hsame, hsp⟩
  | succ k ih =>
    intro u v h
    simp only [generate, Option.map_eq_some'] at h
    obtain ⟨⟨br2, v2⟩, h2, h3⟩ := h
    cases h3
    obtain ⟨ps, hps, hall⟩ := run_paints m ls (generate m ls k d) (k + 1) d
      (fun rule => ih rule) cur [] br2 u v2 h2
    refine ⟨ps, hps, fun u1 hs => ?_⟩
    obtain ⟨v1, hv1, hsame, hsp⟩ := hall u1 hs
    exact ⟨v1, by simp only [generate, hv1, Option.map_some'], hsame, hsp⟩

/-- The draw pass leaves the extremes. -/
theorem generate_draw_extremes (m : Libm α) (ls : lsystem α) (n : Nat) (cur : List Char)
    (u v : World α) (h : generate m ls n true cur u = some v) : v.extremes = u.extremes := by
  refine generate_rel (P := fun a b => b.extremes = a.extremes)
    ⟨fun _ => rfl, fun _ _ _ h12 h23 => h23.trans h12, fun _ _ _ _ _ => rfl⟩
    m ls true ?_ n cur u v h
  intro a x y hxy
  by_cases hdraw : ls.draw a = true
  · obtain ⟨ps, hps⟩ := terminal_draw m ls a x hdraw
    rw [hps] at hxy; cases hxy; rfl
  · have hd : ls.draw a = false := by simpa using hdraw
    by_cases hskip : ls.skip a = true
    · rw [terminal_skip m ls a true x hd hskip] at hxy; cases hxy; rfl
    · have hs0 : ls.skip a = false := by simpa using hskip
      rw [terminal_idle m ls a true x hd hs0] at hxy; cases hxy; rfl

/-- C10: if the draw pass (state reset, then `generate` with `drawable = 1` on the
axiom) from the state `w`, with whatever extremes and screen, returns `r1`, then the draw
pass from `r1` returns too and its screen is the screen of `r1`, buffer and pen colour
alike. -/
theorem draw_pass_idempotent (m : Libm α) (ls : lsystem α) (w r1 : World α)
    (h1 : drawPass m ls w = some r1) :
    ∃ r2, drawPass m ls r1 = some r2 ∧ r2.sp = r1.sp := by
  unfold drawPass at h1 ⊢
  obtain ⟨ps, hps, hall⟩ := generate_paints m ls true ls.iterations ls.axiom_ _ _ h1
  have hext := generate_draw_extremes m ls _ _ _ _ h1
  obtain ⟨r2, hr2, -, hsp⟩ := hall (reset ls r1) ⟨rfl, rfl, rfl, hext.symm⟩
  refine ⟨r2, hr2, ?_⟩
  rw [hsp]
  show ps.foldl plot r1.sp = r1.sp
  rw [hps]
  exact foldl_plot_idem ps _

end

/-- The draw pass of the tree with one iteration and the identity transform, on the
2 by 2 screen: the pixels `(0,0)` and `(1,0)` are painted, the pixel `(1,-1)` is clipped. -/
theorem tree_draw :
    drawPass quarter tree unitDraw = some
      { pos0 := 2, pos1 := 0, currentAngle := 0, extremes := ⟨1000, 1000, 1000, 0⟩,
        sp := { sopen 2 2 with dat := [255, 255, 255, 255, 255, 255, 0, 0, 0, 0, 0, 0] },
        lines := [(0, 0, 1, 0), (1, 0, 1, 1), (1, 0, 1, -1), (1, 0, 2, 0)],
        visited := [(1, 0, 0), (1, 1, 1), (1, -1, -1), (2, 0, 0)],
        slots := [0, 0, 0, 0] } := by
  simp +decide [drawPass, reset, generate, run, step, terminal, move, segment, HWID, quarter,
    tree, unitDraw]
  norm_num [toInt, drawLine2d, pixels, steps, xPass, yPass, interpolate, sopen,
    List.range_succ]
  norm_num [toInt, plot, painted, offset]
  decide

/-- Witness of C10: the draw pass of the tree, repeated on its own result. -/
theorem draw_pass_idempotent_witness :
    ∃ r2, drawPass quarter tree
        { pos0 := 2, pos1 := 0, currentAngle := 0, extremes := ⟨1000, 1000, 1000, 0⟩,
          sp := { sopen 2 2 with dat := [255, 255, 255, 255, 255, 255, 0, 0, 0, 0, 0, 0] },
          lines := [(0, 0, 1, 0), (1, 0, 1, 1), (1, 0, 1, -1), (1, 0, 2, 0)],
          visited := [(1, 0, 0), (1, 1, 1), (1, -1, -1), (2, 0, 0)],
          slots := [0, 0, 0, 0] } = some r2 ∧
      r2.sp = { sopen 2 2 with dat := [255, 255, 255, 255, 255, 255, 0, 0, 0, 0, 0, 0] } :=
  draw_pass_idempotent quarter tree unitDraw _ tree_draw

/-! ## The extent invariant and the frame of each pass -/

section
variable {α : Type} [LinearOrderedField α] [FloorRing α]

/-- One update of the extremes keeps `min ≤ max` on both axes, lowers no maximum and
raises no minimum. -/
theorem extend_ordered (e : Extremes α) (x y : α) (hx : e.e0 ≤ e.e1) (hy : e.e2 ≤ e.e3) :
    (extend e x y).e0 ≤ (extend e x y).e1 ∧ (extend e x y).e2 ≤ (extend e x y).e3 ∧
      (extend e x y).e0 ≤ e.e0 ∧ e.e1 ≤ (extend e x y).e1 ∧
      (extend e x y).e2 ≤ e.e2 ∧ e.e3 ≤ (extend e x y).e3 := by
  rw [extend_e0, extend_e1, extend_e2, extend_e3]
  split_ifs <;> refine ⟨?_, ?_, ?_, ?_, ?_, ?_⟩ <;> linarith

theorem track_append (e : Extremes α) (us vs : List (Saved α)) :
    track e (us ++ vs) = track (track e us) vs := by
  simp [track, List.foldl_append]

theorem track_take_succ (e : Extremes α) (vs : List (Saved α)) (k : Nat) :
    track e (vs.take (k + 1)) = track e (vs.take k) ∨
      ∃ p : Saved α, track e (vs.take (k + 1)) = extend (track e (vs.take k)) p.1 p.2.1 := by
  rw [List.take_succ, track_append]
  cases vs[k]? with
  | none => left; rfl
  | some p => right; exact ⟨p, rfl⟩

theorem track_ordered (e : Extremes α) (vs : List (Saved α)) (hx : e.e0 ≤ e.e1)
    (hy : e.e2 ≤ e.e3) :
    (track e vs).e0 ≤ (track e vs).e1 ∧ (track e vs).e2 ≤ (track e vs).e3 ∧
      (track e vs).e0 ≤ e.e0 ∧ e.e1 ≤ (track e vs).e1 ∧
      (track e vs).e2 ≤ e.e2 ∧ e.e3 ≤ (track e vs).e3 := by
  induction vs generalizing e with
  | nil => exact ⟨hx, hy, le_refl _, le_refl _, le_refl _, le_refl _⟩
  | cons p ps ih =>
    obtain ⟨a1, a2, a3, a4, a5, a6⟩ := extend_ordered e p.1 p.2.1 hx hy
    obtain ⟨b1, b2, b3, b4, b5, b6⟩ := ih (extend e p.1 p.2.1) a1 a2
    exact ⟨b1, b2, b3.trans a3, a4.trans b4, b5.trans a5, a6.trans b6⟩

/-- The measure pass appends to the log and updates the extremes once per logged state. -/
theorem generate_track (m : Libm α) (ls : lsystem α) (n : Nat) (cur : List Char)
    (w r : World α) (h : generate m ls n false cur w = some r) :
    ∃ vs, r.visited = w.visited ++ vs ∧ r.extremes = track w.extremes vs := by
  refine generate_rel
    (P := fun u v => ∃ vs, v.visited = u.visited ++ vs ∧ v.extremes = track u.extremes vs)
    ⟨fun _ => ⟨[], by simp, rfl⟩, ?_, fun _ _ _ _ _ => ⟨[], by simp, rfl⟩⟩
    m ls false ?_ n cur w r h
  · rintro w1 w2 w3 ⟨us, hu1, hu2⟩ ⟨vs, hv1, hv2⟩
    exact ⟨us ++ vs, by rw [hv1, hu1, List.append_assoc], by rw [hv2, hu2, track_append]⟩
  · intro a u v hterm
    obtain ⟨hv, he⟩ := terminal_measure m ls a u v hterm
    exact ⟨[(v.pos0, v.pos1, v.currentAngle)], hv, by rw [he]; rfl⟩

/-- C12: a measure-mode call of `generate` that starts with `minX ≤ maxX` and
`minY ≤ maxY` appends the states `vs` to the log and ends with the extremes updated once
per logged state; after each of these updates (the first `k` of them, for every `k`) and
at the end `min ≤ max` holds on both axes, and no update raises `minX` or `minY` or lowers
`maxX` or `maxY`. -/
theorem extent_invariant (m : Libm α) (ls : lsystem α) (n : Nat) (current : List Char)
    (w r : World α) (hx : w.extremes.e0 ≤ w.extremes.e1) (hy : w.extremes.e2 ≤ w.extremes.e3)
    (hrun : generate m ls n false current w = some r) :
    ∃ vs, r.visited = w.visited ++ vs ∧ r.extremes = track w.extremes vs ∧
      (∀ k, (track w.extremes (vs.take k)).e0 ≤ (track w.extremes (vs.take k)).e1 ∧
        (track w.extremes (vs.take k)).e2 ≤ (track w.extremes (vs.take k)).e3) ∧
      (∀ k, (track w.extremes (vs.take (k + 1))).e0 ≤ (track w.extremes (vs.take k)).e0 ∧
        (track w.extremes (vs.take k)).e1 ≤ (track w.extremes (vs.take (k + 1))).e1 ∧
        (track w.extremes (vs.take (k + 1))).e2 ≤ (track w.extremes (vs.take k)).e2 ∧
        (track w.extremes (vs.take k)).e3 ≤ (track w.extremes (vs.take (k + 1))).e3) ∧
      r.extremes.e0 ≤ r.extremes.e1 ∧ r.extremes.e2 ≤ r.extremes.e3 ∧
      r.extremes.e0 ≤ w.extremes.e0 ∧ w.extremes.e1 ≤ r.extremes.e1 ∧
      r.extremes.e2 ≤ w.extremes.e2 ∧ w.extremes.e3 ≤ r.extremes.e3 := by
  obtain ⟨vs, hvis, hext⟩ := generate_track m ls n current w r hrun
  refine ⟨vs, hvis, hext, fun k => ?_, fun k => ?_, ?_⟩
  · obtain ⟨a1, a2, -⟩ := track_ordered w.extremes (vs.take k) hx hy
    exact ⟨a1, a2⟩
  · obtain ⟨a1, a2, -⟩ := track_ordered w.extremes (vs.take k) hx hy
    rcases track_take_succ w.extremes vs k with h | ⟨p, h⟩
    · rw [h]; exact ⟨le_refl _, le_refl _, le_refl _, le_refl _⟩
    · rw [h]
      obtain ⟨-, -, b3, b4, b5, b6⟩ := extend_ordered _ p.1 p.2.1 a1 a2
      exact ⟨b3, b4, b5, b6⟩
  · rw [hext]
    exact track_ordered w.extremes vs hx hy

/-- The measure pass leaves the screen and the log of `drawLine2d` calls. -/
theorem generate_measure_frame (m : Libm α) (ls : lsystem α) (n : Nat) (cur : List Char)
    (u v : World α) (h : generate m ls n false cur u = some v) :
    v.sp = u.sp ∧ v.lines = u.lines := by
  refine generate_rel (P := fun a b => b.sp = a.sp ∧ b.lines = a.lines)
    ⟨fun _ => ⟨rfl, rfl⟩, fun _ _ _ h12 h23 => ⟨h23.1.trans h12.1, h23.2.trans h12.2⟩,
      fun _ _ _ _ _ => ⟨rfl, rfl⟩⟩
    m ls false ?_ n cur u v h
  intro a x y hxy
  by_cases hdraw : ls.draw a = true
  · rw [terminal_draw_measure m ls a x hdraw] at hxy; cases hxy; exact ⟨rfl, rfl⟩
  · have hd : ls.draw a = false := by simpa using hdraw
    by_cases hskip : ls.skip a = true
    · rw [terminal_skip m ls a false x hd hskip] at hxy; cases hxy; exact ⟨rfl, rfl⟩
    · have hs0 : ls.skip a = false := by simpa using hskip
      rw [terminal_idle m ls a false x hd hs0] at hxy; cases hxy; exact ⟨rfl, rfl⟩

/-- C13: `generate` with `drawable = 0` returns with the screen it was given (pixel
buffer, geometry and pen colour) and logs no `drawLine2d` call; `generate` with
`drawable = 1` returns with the extremes it was given. -/
theorem canvas_written_only_in_draw_pass (m : Libm α) (ls : lsystem α) (n : Nat)
    (current : List Char) (w0 r0 w1 r1 : World α)
    (hmeasure : generate m ls n false current w0 = some r0)
    (hdraw : generate m ls n true current w1 = some r1) :
    r0.sp = w0.sp ∧ r0.sp.dat = w0.sp.dat ∧ r0.sp.r = w0.sp.r ∧ r0.sp.g = w0.sp.g ∧
      r0.sp.b = w0.sp.b ∧ r0.lines = w0.lines ∧ r1.extremes = w1.extremes := by
  obtain ⟨hsp, hlines⟩ := generate_measure_frame m ls n current w0 r0 hmeasure
  exact ⟨hsp, by rw [hsp], by rw [hsp], by rw [hsp], by rw [hsp], hlines,
    generate_draw_extremes m ls n current w1 r1 hdraw⟩

end

/-- Witness of C12: the measure pass of the tree with one iteration, from zero extremes. -/
theorem extent_invariant_witness :
    ∃ vs, ([(1, 0, 0), (1, 1, 1), (1, -1, -1), (2, 0, 0)] : List (Saved ℚ)) = [] ++ vs ∧
      (⟨0, 2, -1, 1⟩ : Extremes ℚ) = track ⟨0, 0, 0, 0⟩ vs ∧
      (∀ k, (track (⟨0, 0, 0, 0⟩ : Extremes ℚ) (vs.take k)).e0
            ≤ (track (⟨0, 0, 0, 0⟩ : Extremes ℚ) (vs.take k)).e1 ∧
        (track (⟨0, 0, 0, 0⟩ : Extremes ℚ) (vs.take k)).e2
            ≤ (track (⟨0, 0, 0, 0⟩ : Extremes ℚ) (vs.take k)).e3) ∧
      (∀ k, (track (⟨0, 0, 0, 0⟩ : Extremes ℚ) (vs.take (k + 1))).e0
            ≤ (track (⟨0, 0, 0, 0⟩ : Extremes ℚ) (vs.take k)).e0 ∧
        (track (⟨0, 0, 0, 0⟩ : Extremes ℚ) (vs.take k)).e1
            ≤ (track (⟨0, 0, 0, 0⟩ : Extremes ℚ) (vs.take (k + 1))).e1 ∧
        (track (⟨0, 0, 0, 0⟩ : Extremes ℚ) (vs.take (k + 1))).e2
            ≤ (track (⟨0, 0, 0, 0⟩ : Extremes ℚ) (vs.take k)).e2 ∧
        (track (⟨0, 0, 0, 0⟩ : Extremes ℚ) (vs.take k)).e3
            ≤ (track (⟨0, 0, 0, 0⟩ : Extremes ℚ) (vs.take (k + 1))).e3) ∧
      (0 : ℚ) ≤ 2 ∧ (-1 : ℚ) ≤ 1 ∧ (0 : ℚ) ≤ 0 ∧ (0 : ℚ) ≤ 2 ∧ (-1 : ℚ) ≤ 0 ∧ (0 : ℚ) ≤ 1 :=
  extent_invariant quarter tree 1 ['a'] _ _ (le_refl _) (le_refl _) tree_measure

/-- Witness of C13: the measure pass and the draw pass of the tree with one iteration. -/
theorem canvas_written_only_in_draw_pass_witness :
    sopen 2 2 = sopen 2 2 ∧ (sopen 2 2).dat = (sopen 2 2).dat ∧
      (sopen 2 2).r = (sopen 2 2).r ∧ (sopen 2 2).g = (sopen 2 2).g ∧
      (sopen 2 2).b = (sopen 2 2).b ∧ ([] : List (Line ℚ)) = [] ∧
      (⟨1000, 1000, 1000, 0⟩ : Extremes ℚ) = (reset tree unitDraw).extremes :=
  canvas_written_only_in_draw_pass quarter tree 1 ['a'] _ _ (reset tree unitDraw) _
    tree_measure tree_draw

/-! ## Both passes walk the same path -/

section
variable {α : Type} [LinearOrderedField α] [FloorRing α]

/-- A terminal action is always defined; it moves the pen by `(cos, sin)` of the heading
when the letter is in the draw or the skip set, leaves the heading, and logs the state. -/
theorem terminal_shape (m : Libm α) (ls : lsystem α) (a : Nat) (d : Bool) (u : World α) :
    ∃ v, terminal m ls a d u = some v ∧ v.currentAngle = u.currentAngle ∧
      v.pos0 = (if ls.draw a = true ∨ ls.skip a = true then u.pos0 + m.cos u.currentAngle
        else u.pos0) ∧
      v.pos1 = (if ls.draw a = true ∨ ls.skip a = true then u.pos1 + m.sin u.currentAngle
        else u.pos1) ∧
      v.visited = u.visited ++ [(v.pos0, v.pos1, v.currentAngle)] ∧
      v.slots = u.slots := by
  by_cases hdraw : ls.draw a = true
  · have hor : ls.draw a = true ∨ ls.skip a = true := Or.inl hdraw
    cases d with
    | true =>
      obtain ⟨ps, hps⟩ := terminal_draw m ls a u hdraw
      exact ⟨_, hps, rfl, by rw [if_pos hor], by rw [if_pos hor], rfl, rfl⟩
    | false =>
      exact ⟨_, terminal_draw_measure m ls a u hdraw, rfl, by rw [if_pos hor],
        by rw [if_pos hor], rfl, rfl⟩
  · have hd : ls.draw a = false := by simpa using hdraw
    by_cases hskip : ls.skip a = true
    · have hor : ls.draw a = true ∨ ls.skip a = true := Or.inr hskip
      exact ⟨_, terminal_skip m ls a d u hd hskip, rfl, by rw [if_pos hor],
        by rw [if_pos hor], rfl, rfl⟩
    · have hs0 : ls.skip a = false := by simpa using hskip
      have hor : ¬ (ls.draw a = true ∨ ls.skip a = true) := by
        rintro (h | h)
        · exact hdraw h
        · exact hskip h
      exact ⟨_, terminal_idle m ls a d u hd hs0, rfl, by rw [if_neg hor],
        by rw [if_neg hor], rfl, rfl⟩

theorem terminal_walks (m : Libm α) (ls : lsystem α) (a : Nat) (d d1 : Bool) :
    Walks (terminal m ls a d) (terminal m ls a d1) := by
  intro u v h
  obtain ⟨v0, h0, t0, x0, y0, l0, -⟩ := terminal_shape m ls a d u
  rw [h0] at h
  cases h
  refine ⟨[(v.pos0, v.pos1, v.currentAngle)], l0, fun u1 hs => ?_⟩
  obtain ⟨e0, e1, e2⟩ := hs
  obtain ⟨v1, h1, t1, x1, y1, l1, -⟩ := terminal_shape m ls a d1 u1
  have hx : v.pos0 = v1.pos0 := by rw [x0, x1, e0, e2]
  have hy : v.pos1 = v1.pos1 := by rw [y0, y1, e1, e2]
  have ht : v.currentAngle = v1.currentAngle := by rw [t0, t1, e2]
  exact ⟨v1, h1, ⟨hx, hy, ht⟩, by rw [l1, hx, hy, ht]⟩

/-- The loop body walks the same path in two runs whose recursive calls do, with the
same bracket stack before and after. -/
theorem step_walks (m : Libm α) (ls : lsystem α)
    (recur recur1 : List Char → World α → Option (World α)) (n : Nat) (d d1 : Bool)
    (hrec : ∀ rule, Walks (recur rule) (recur1 rule)) (c : Char) (br br1 : List (Saved α))
    (u v : World α) (h : step m ls recur n d c br u = some (br1, v)) :
    ∃ vs : List (Saved α), v.visited = u.visited ++ vs ∧
      ∀ u1, Turtle u u1 → ∃ v1, step m ls recur1 n d1 c br u1 = some (br1, v1) ∧
        Turtle v v1 ∧ v1.visited = u1.visited ++ vs := by
  have lift : ∀ (f g : World α → Option (World α)), Walks f g →
      Option.map (fun w1 => (br, w1)) (f u) = some (br1, v) →
      ∃ vs : List (Saved α), v.visited = u.visited ++ vs ∧
        ∀ u1, Turtle u u1 → ∃ v1, Option.map (fun w1 => (br, w1)) (g u1) = some (br1, v1) ∧
          Turtle v v1 ∧ v1.visited = u1.visited ++ vs := by
    intro f g hf hmap
    simp only [Option.map_eq_some'] at hmap
    obtain ⟨v0, hv0, hpair⟩ := hmap
    cases hpair
    obtain ⟨vs, hvs, hall⟩ := hf u v hv0
    refine ⟨vs, hvs, fun u1 hs => ?_⟩
    obtain ⟨v1, hv1, hsame, hlog⟩ := hall u1 hs
    exact ⟨v1, by rw [hv1]; rfl, hsame, hlog⟩
  unfold step at h ⊢
  by_cases hl : c.isLower = true
  · rw [if_pos hl] at h
    simp only [if_pos hl]
    cases hr : ls.rules (c.toNat - 97) with
    | none =>
      rw [hr] at h
      exact lift _ _ (terminal_walks m ls _ d d1) h
    | some rule =>
      rw [hr] at h
      simp only [] at h ⊢
      by_cases hn : n = 0
      · rw [if_pos hn] at h
        simp only [if_pos hn]
        exact lift _ _ (terminal_walks m ls _ d d1) h
      · rw [if_neg hn] at h
        simp only [if_neg hn]
        by_cases hne : rule ≠ []
        · rw [if_pos hne] at h
          simp only [if_pos hne]
          exact lift _ _ (hrec rule) h
        · rw [if_neg hne] at h
          simp only [if_neg hne]
          cases h
          exact ⟨[], by simp, fun u1 hs => ⟨u1, rfl, hs, by simp⟩⟩
  · rw [if_neg hl] at h
    simp only [if_neg hl]
    by_cases hp : c = '+'
    · rw [if_pos hp] at h
      simp only [if_pos hp]
      cases h
      refine ⟨[], by simp, fun u1 hs => ⟨_, rfl, ?_, by simp⟩⟩
      obtain ⟨e0, e1, e2⟩ := hs
      exact ⟨e0, e1, by simp only [e2]⟩
    · rw [if_neg hp] at h
      simp only [if_neg hp]
      by_cases hm : c = '-'
      · rw [if_pos hm] at h
        simp only [if_pos hm]
        cases h
        refine ⟨[], by simp, fun u1 hs => ⟨_, rfl, ?_, by simp⟩⟩
        obtain ⟨e0, e1, e2⟩ := hs
        exact ⟨e0, e1, by simp only [e2]⟩
      · rw [if_neg hm] at h
        simp only [if_neg hm]
        by_cases ho : c = '['
        · rw [if_pos ho] at h
          simp only [if_pos ho]
          by_cases hlen : br.length < 8
          · rw [if_pos hlen] at h
            simp only [if_pos hlen]
            cases h
            refine ⟨[], by simp, fun u1 hs => ?_⟩
            obtain ⟨e0, e1, e2⟩ := hs
            exact ⟨{ u1 with slots := u1.slots ++ [br.length] }, by rw [e0, e1, e2],
              ⟨e0, e1, e2⟩, by simp⟩
          · rw [if_neg hlen] at h
            cases h
        · rw [if_neg ho] at h
          simp only [if_neg ho]
          by_cases hcl : c = ']'
          · rw [if_pos hcl] at h
            simp only [if_pos hcl]
            cases br with
            | nil => cases h
            | cons top rest =>
              obtain ⟨x, y, t⟩ := top
              cases h
              exact ⟨[], by simp, fun u1 hs => ⟨_, rfl, ⟨rfl, rfl, rfl⟩, by simp⟩⟩
          · rw [if_neg hcl] at h
            simp only [if_neg hcl]
            cases h
            exact ⟨[], by simp, fun u1 hs => ⟨u1, rfl, hs, by simp⟩⟩

theorem run_walks (m : Libm α) (ls : lsystem α)
    (recur recur1 : List Char → World α → Option (World α)) (n : Nat) (d d1 : Bool)
    (hrec : ∀ rule, Walks (recur rule) (recur1 rule)) (cur : List Char)
    (br br1 : List (Saved α)) (u v : World α)
    (h : run m ls recur n d cur br u = some (br1, v)) :
    ∃ vs : List (Saved α), v.visited = u.visited ++ vs ∧
      ∀ u1, Turtle u u1 → ∃ v1, run m ls recur1 n d1 cur br u1 = some (br1, v1) ∧
        Turtle v v1 ∧ v1.visited = u1.visited ++ vs := by
  induction cur generalizing br u with
  | nil =>
    simp only [run, Option.some.injEq, Prod.mk.injEq] at h
    obtain ⟨hb, hu⟩ := h
    subst hb hu
    exact ⟨[], by simp, fun u1 hs => ⟨u1, rfl, hs, by simp⟩⟩
  | cons c cs ih =>
    simp only [run] at h
    cases hs : step m ls recur n d c br u with
    | none => rw [hs] at h; cases h
    | some p =>
      obtain ⟨br2, u2⟩ := p
      rw [hs] at h
      obtain ⟨us, hus, hall⟩ := step_walks m ls recur recur1 n d d1 hrec c br br2 u u2 hs
      obtain ⟨vs, hvs, hall2⟩ := ih br2 u2 h
      refine ⟨us ++ vs, by rw [hvs, hus, List.append_assoc], fun u1 hsame => ?_⟩
      obtain ⟨v1, hv1, hsame1, hlog1⟩ := hall u1 hsame
      obtain ⟨v2, hv2, hsame2, hlog2⟩ := hall2 v1 hsame1
      refine ⟨v2, ?_, hsame2, by rw [hlog2, hlog1, List.append_assoc]⟩
      simp only [run, hv1]
      exact hv2

theorem generate_walks (m : Libm α) (ls : lsystem α) (d d1 : Bool) (n : Nat)
    (cur : List Char) : Walks (generate m ls n d cur) (generate m ls n d1 cur) := by
  induction n generalizing cur with
  | zero =>
    intro u v h
    simp only [generate, Option.map_eq_some'] at h
    obtain ⟨⟨br2, v2⟩, h2, h3⟩ := h
    cases h3
    obtain ⟨vs, hvs, hall⟩ := run_walks m ls (fun _ _ => none) (fun _ _ => none) 0 d d1
      (fun _ u v hh => by cases hh) cur [] br2 u v2 h2
    refine ⟨vs, hvs, fun u1 hs => ?_⟩
    obtain ⟨v1, hv1, hsame, hlog⟩ := hall u1 hs
    exact ⟨v1, by simp only [generate, hv1, Option.map_some'], hsame, hlog⟩
  | succ k ih =>
    intro u v h
    simp only [generate, Option.map_eq_some'] at h
    obtain ⟨⟨br2, v2⟩, h2, h3⟩ := h
    cases h3
    obtain ⟨vs, hvs, hall⟩ := run_walks m ls (generate m ls k d) (generate m ls k d1)
      (k + 1) d d1 (fun rule => ih rule) cur [] br2 u v2 h2
    refine ⟨vs, hvs, fun u1 hs => ?_⟩
    obtain ⟨v1, hv1, hsame, hlog⟩ := hall u1 hs
    exact ⟨v1, by simp only [generate, hv1, Option.map_some'], hsame, hlog⟩

/-- C19: if `generate` in one mode is defined from the state `u`, then in either mode,
from every state `u1` with the same position and heading (whatever its extremes, screen
and logs), it is defined too, ends with the same position and heading, and logs the same
sequence of positions and headings. -/
theorem both_passes_same_path (m : Libm α) (ls : lsystem α) (n : Nat) (current : List Char)
    (d d1 : Bool) (u u1 v : World α)
    (hpos0 : u.pos0 = u1.pos0) (hpos1 : u.pos1 = u1.pos1)
    (hangle : u.currentAngle = u1.currentAngle)
    (hrun : generate m ls n d current u = some v) :
    ∃ v1 vs, generate m ls n d1 current u1 = some v1 ∧
      v1.pos0 = v.pos0 ∧ v1.pos1 = v.pos1 ∧ v1.currentAngle = v.currentAngle ∧
      v.visited = u.visited ++ vs ∧ v1.visited = u1.visited ++ vs := by
  obtain ⟨vs, hvs, hall⟩ := generate_walks m ls d d1 n current u v hrun
  obtain ⟨v1, hv1, ⟨e0, e1, e2⟩, hlog⟩ := hall u1 ⟨hpos0, hpos1, hangle⟩
  exact ⟨v1, vs, hv1, e0.symm, e1.symm, e2.symm, hvs, hlog⟩

end

/-- Witness of C19: the measure pass of the tree from zero extremes and its draw pass
with the identity transform. -/
theorem both_passes_same_path_witness :
    ∃ v1 vs, generate quarter tree 1 true ['a'] (reset tree unitDraw) = some v1 ∧
      v1.pos0 = 2 ∧ v1.pos1 = 0 ∧ v1.currentAngle = 0 ∧
      ([(1, 0, 0), (1, 1, 1), (1, -1, -1), (2, 0, 0)] : List (Saved ℚ)) = [] ++ vs ∧
      v1.visited = (reset tree unitDraw).visited ++ vs :=
  both_passes_same_path quarter tree 1 ['a'] false true
    { pos0 := 0, pos1 := 0, currentAngle := 0, extremes := ⟨0, 0, 0, 0⟩, sp := sopen 2 2,
      lines := [], visited := [], slots := [] }
    (reset tree unitDraw)
    { pos0 := 2, pos1 := 0, currentAngle := 0, extremes := ⟨0, 2, -1, 1⟩, sp := sopen 2 2,
      lines := [], visited := [(1, 0, 0), (1, 1, 1), (1, -1, -1), (2, 0, 0)],
      slots := [0, 0, 0, 0] }
    (by simp [reset]) (by simp [reset]) (by simp [reset, tree]) tree_measure

/-! ## The bracket stack stays inside its eight rows -/

theorem le_deepest (u : List Char) (k : Nat) : k ≤ deepest u k := by
  cases u with
  | nil => exact le_refl _
  | cons c cs => exact le_max_left _ _

section
variable {α : Type} [LinearOrderedField α] [FloorRing α]

theorem terminal_inside (m : Libm α) (ls : lsystem α) (a : Nat) (d : Bool) :
    Inside (terminal m ls a d) := by
  intro w
  obtain ⟨v, hv, -, -, -, -, hs⟩ := terminal_shape m ls a d w
  exact ⟨v, [], hv, by simp [hs], by simp⟩

/-- The loop body on a character that is not a bracket. -/
theorem step_inside (m : Libm α) (ls : lsystem α)
    (recur : List Char → World α → Option (World α)) (n : Nat) (d : Bool)
    (hrec : n ≠ 0 → ∀ a rule, ls.rules a = some rule → Inside (recur rule))
    (c : Char) (ho : c ≠ '[') (hcl : c ≠ ']') (br : List (Saved α)) (w : World α) :
    ∃ r extra, step m ls recur n d c br w = some (br, r) ∧ r.slots = w.slots ++ extra ∧
      ∀ i ∈ extra, i < 8 := by
  have lift : ∀ f : World α → Option (World α), Inside f →
      ∃ r extra, Option.map (fun w1 => (br, w1)) (f w) = some (br, r) ∧
        r.slots = w.slots ++ extra ∧ ∀ i ∈ extra, i < 8 := by
    intro f hf
    obtain ⟨r, extra, h1, h2, h3⟩ := hf w
    exact ⟨r, extra, by rw [h1]; rfl, h2, h3⟩
  unfold step
  by_cases hl : c.isLower = true
  · simp only [if_pos hl]
    cases hr : ls.rules (c.toNat - 97) with
    | none => exact lift _ (terminal_inside m ls _ d)
    | some rule =>
      simp only []
      by_cases hn : n = 0
      · simp only [if_pos hn]
        exact lift _ (terminal_inside m ls _ d)
      · simp only [if_neg hn]
        by_cases hne : rule ≠ []
        · simp only [if_pos hne]
          exact lift _ (hrec hn _ rule hr)
        · simp only [if_neg hne]
          exact ⟨w, [], rfl, by simp, by simp⟩
  · simp only [if_neg hl]
    by_cases hp : c = '+'
    · simp only [if_pos hp]
      exact ⟨_, [], rfl, by simp, by simp⟩
    · simp only [if_neg hp]
      by_cases hm : c = '-'
      · simp only [if_pos hm]
        exact ⟨_, [], rfl, by simp, by simp⟩
      · simp only [if_neg hm, if_neg ho, if_neg hcl]
        exact ⟨w, [], rfl, by simp, by simp⟩

/-- Over a sequence scanned from depth `k` without leaving the depths 0 to 8, the loop
from a stack of `k` rows is defined and logs only accesses at indices below 8. -/
theorem run_inside (m : Libm α) (ls : lsystem α)
    (recur : List Char → World α → Option (World α)) (n : Nat) (d : Bool)
    (hrec : n ≠ 0 → ∀ a rule, ls.rules a = some rule → Inside (recur rule))
    (u : List Char) (k k1 : Nat) (hk : depthAfter u k = some k1) (hdeep : deepest u k ≤ 8)
    (br : List (Saved α)) (hbr : br.length = k) (w : World α) :
    ∃ br1 r extra, run m ls recur n d u br w = some (br1, r) ∧
      r.slots = w.slots ++ extra ∧ ∀ i ∈ extra, i < 8 := by
  induction u generalizing k br w with
  | nil => exact ⟨br, w, [], rfl, by simp, by simp⟩
  | cons c cs ih =>
    simp only [depthAfter] at hk
    simp only [deepest] at hdeep
    by_cases ho : c = '['
    · subst ho
      simp only [if_true] at hk hdeep
      have hdeep1 : deepest cs (k + 1) ≤ 8 := le_trans (le_max_right _ _) hdeep
      have hlt : br.length < 8 := by
        have := le_deepest cs (k + 1)
        omega
      obtain ⟨br1, r, extra, h1, h2, h3⟩ := ih (k + 1) hk hdeep1
        ((w.pos0, w.pos1, w.currentAngle) :: br) (by simp [hbr])
        { w with slots := w.slots ++ [br.length] }
      refine ⟨br1, r, br.length :: extra, ?_, ?_, ?_⟩
      · simp only [run, step_open m ls recur n d br w hlt]
        exact h1
      · rw [h2]; simp
      · intro i hi
        rcases List.mem_cons.1 hi with h | h
        · rw [h]; exact hlt
        · exact h3 i h
    · by_cases hcl : c = ']'
      · subst hcl
        have hne : ¬ (']' = '[') := by decide
        simp only [hne, if_false, if_true] at hk hdeep
        by_cases hk0 : k = 0
        · rw [if_pos hk0] at hk; cases hk
        · rw [if_neg hk0] at hk
          have hdeep1 : deepest cs (k - 1) ≤ 8 := le_trans (le_max_right _ _) hdeep
          have hk8 : k ≤ 8 := le_trans (le_max_left _ _) hdeep
          cases br with
          | nil => exact absurd hbr.symm hk0
          | cons top rest =>
            obtain ⟨x, y, t⟩ := top
            have hrest : rest.length = k - 1 := by simp at hbr; omega
            obtain ⟨br1, r, extra, h1, h2, h3⟩ := ih (k - 1) hk hdeep1 rest hrest
              { w with pos0 := x, pos1 := y, currentAngle := t,
                       slots := w.slots ++ [rest.length] }
            refine ⟨br1, r, rest.length :: extra, ?_, ?_, ?_⟩
            · simp only [run, step_close]
              exact h1
            · rw [h2]; simp
            · intro i hi
              rcases List.mem_cons.1 hi with h | h
              · rw [h]; omega
              · exact h3 i h
      · simp only [if_neg ho, if_neg hcl] at hk hdeep
        have hdeep1 : deepest cs k ≤ 8 := le_trans (le_max_right _ _) hdeep
        obtain ⟨r0, extra0, h0, s0, b0⟩ := step_inside m ls recur n d hrec c ho hcl br w
        obtain ⟨br1, r, extra, h1, h2, h3⟩ := ih k hk hdeep1 br hbr r0
        refine ⟨br1, r, extra0 ++ extra, ?_, ?_, ?_⟩
        · simp only [run, h0]
          exact h1
        · rw [h2, s0, List.append_assoc]
        · intro i hi
          rcases List.mem_append.1 hi with h | h
          · exact b0 i h
          · exact h3 i h

theorem generate_inside (m : Libm α) (ls : lsystem α) (d : Bool)
    (hrules : ∀ a rule, ls.rules a = some rule → tame rule) (n : Nat) (cur : List Char)
    (hcur : tame cur) : Inside (generate m ls n d cur) := by
  induction n generalizing cur with
  | zero =>
    intro w
    obtain ⟨br1, r, extra, h1, h2, h3⟩ := run_inside m ls (fun _ _ => none) 0 d
      (fun h0 => absurd rfl h0)
      cur 0 0 hcur.1 hcur.2 [] rfl w
    exact ⟨r, extra, by simp only [generate, h1, Option.map_some'], h2, h3⟩
  | succ k ih =>
    intro w
    obtain ⟨br1, r, extra, h1, h2, h3⟩ := run_inside m ls (generate m ls k d) (k + 1) d
      (fun _ a rule hr => ih rule (hrules a rule hr)) cur 0 0 hcur.1 hcur.2 [] rfl w
    exact ⟨r, extra, by simp only [generate, h1, Option.map_some'], h2, h3⟩

end

/-- C11: when the current sequence and every rule body have matched brackets nested no
deeper than 8, `generate` is defined for every iteration count, in either mode and from
every state, and every access `brackets[goTo]` it logs, in the call and in all the calls
below it, is at an index `goTo` from 0 to 7. -/
theorem bracket_stack_never_overflows {α : Type} [LinearOrderedField α] [FloorRing α]
    (m : Libm α) (ls : lsystem α) (drawable : Bool) (iterations : Nat)
    (current : List Char) (w : World α) (hcurrent : tame current)
    (hrules : ∀ a rule, ls.rules a = some rule → tame rule) :
    ∃ r accesses, generate m ls iterations drawable current w = some r ∧
      r.slots = w.slots ++ accesses ∧ ∀ goTo ∈ accesses, 0 ≤ goTo ∧ goTo ≤ 7 := by
  obtain ⟨r, extra, h1, h2, h3⟩ :=
    generate_inside m ls drawable hrules iterations current hcurrent w
  exact ⟨r, extra, h1, h2, fun i hi => ⟨Nat.zero_le i, Nat.lt_succ_iff.1 (h3 i hi)⟩⟩

theorem nested_tame : ∀ a rule, nested.rules a = some rule → tame rule := by
  intro a rule h
  simp only [nested] at h
  split at h
  · cases h; decide
  · cases h

/-- Witness of C11: a rule that nests eight brackets around its own letter, with a
thousand iterations. -/
theorem bracket_stack_never_overflows_witness :
    ∃ r accesses, generate quarter nested 1000 true ['a'] (blank ℚ) = some r ∧
      r.slots = (blank ℚ).slots ++ accesses ∧ ∀ goTo ∈ accesses, 0 ≤ goTo ∧ goTo ≤ 7 :=
  bracket_stack_never_overflows quarter nested true 1000 ['a'] (blank ℚ) (by decide)
    nested_tame

/-! ## Termination and recursion depth -/

section
variable {α : Type} [LinearOrderedField α] [FloorRing α]

/-- At iteration 0 the loop does not read the recursive call. -/
theorem run_zero_recur (m : Libm α) (ls : lsystem α)
    (recur recur1 : List Char → World α → Option (World α)) (d : Bool) (cur : List Char)
    (br : List (Saved α)) (w : World α) :
    run m ls recur1 0 d cur br w = run m ls recur 0 d cur br w :=
  run_zero m ls ls.rules recur recur1 d cur br w

/-- A depth budget of `iteration + 1` calls is enough: the budgeted run is the run. -/
theorem generateWithin_eq (m : Libm α) (ls : lsystem α) (d : Bool) (n : Nat) :
    ∀ (budget : Nat) (cur : List Char) (w : World α), n + 1 ≤ budget →
      generateWithin m ls budget n d cur w = generate m ls n d cur w := by
  induction n with
  | zero =>
    intro budget cur w hb
    obtain ⟨b, rfl⟩ : ∃ b, budget = b + 1 := ⟨budget - 1, by omega⟩
    simp only [generateWithin, generate]
    rw [run_zero_recur m ls (fun _ _ => none)]
  | succ k ih =>
    intro budget cur w hb
    obtain ⟨b, rfl⟩ : ∃ b, budget = b + 1 := ⟨budget - 1, by omega⟩
    simp only [generateWithin, generate, Nat.add_sub_cancel]
    have hfun : generateWithin m ls b k d = generate m ls k d := by
      funext cur1 w1
      exact ih b cur1 w1 (by omega)
    rw [hfun]

/-- C18: for every grammar, mode, sequence and state, `generate` with `iteration`
iterations and a budget of at least `iteration + 1` nested calls makes every call it
wants to make and has the result of `generate` (a total function): the recursion is at
most `iteration + 1` calls deep. At iteration 0 a budget of one call is enough; the call
made at iteration `k + 1` is the one at iteration `k`; and at iteration 0 the loop body
does not depend on the recursive call, so none is made. -/
theorem terminates_within_budget (m : Libm α) (ls : lsystem α) (drawable : Bool)
    (iteration budget : Nat) (current : List Char) (w : World α)
    (hbudget : iteration + 1 ≤ budget) :
    generateWithin m ls budget iteration drawable current w
        = generate m ls iteration drawable current w ∧
      generateWithin m ls 1 0 drawable current w = generate m ls 0 drawable current w ∧
      (∀ k c br v, step m ls (recurAt m ls drawable (k + 1)) (k + 1) drawable c br v
        = step m ls (generate m ls k drawable) (k + 1) drawable c br v) ∧
      (∀ recur c br v, step m ls recur 0 drawable c br v
        = step m ls (fun _ _ => none) 0 drawable c br v) := by
  refine ⟨generateWithin_eq m ls drawable iteration budget current w hbudget,
    generateWithin_eq m ls drawable 0 1 current w (le_refl _), fun _ _ _ _ => rfl, ?_⟩
  intro recur c br v
  exact step_zero m ls ls.rules (fun _ _ => none) recur drawable c br v

end

/-- Witness of C18: the tree, whose rule mentions its own letter, with one iteration and
a budget of two nested calls. -/
theorem terminates_within_budget_witness :
    generateWithin quarter tree 2 1 false ['a'] (blank ℚ)
        = generate quarter tree 1 false ['a'] (blank ℚ) ∧
      generateWithin quarter tree 1 0 false ['a'] (blank ℚ)
        = generate quarter tree 0 false ['a'] (blank ℚ) ∧
      (∀ k c br v, step quarter tree (recurAt quarter tree false (k + 1)) (k + 1) false c br v
        = step quarter tree (generate quarter tree k false) (k + 1) false c br v) ∧
      (∀ recur c br v, step quarter tree recur 0 false c br v
        = step quarter tree (fun _ _ => none) 0 false c br v) :=
  terminates_within_budget quarter tree false 1 2 ['a'] (blank ℚ) (by decide)

/-- With a budget of one call the tree with one iteration is cut short: its recursion
is two calls deep. -/
theorem tree_budget_one :
    generateWithin quarter tree 1 1 false ['a'] (blank ℚ) = none := by
  simp +decide [generateWithin, run, step, tree]

/-! ## The header of the image file -/

theorem le32_bytes (v : Nat) (hv : v < 4294967296) :
    ∃ a b c d, le32 v = [a, b, c, d] ∧ a + 256 * b + 65536 * c + 16777216 * d = v ∧
      (v < 65536 → a + 256 * b = v ∧ c = 0 ∧ d = 0) := by
  refine ⟨v % 256, v / 256 % 256, v / 65536 % 256, v / 16777216 % 256, rfl, ?_, ?_⟩
  · omega
  · intro h; omega

theorem toU32_eq (v : Int) (h0 : 0 ≤ v) (h1 : v < 4294967296) : toU32 v = v.toNat := by
  unfold toU32
  omega

set_option maxRecDepth 8000 in
/-- The 180 bytes of the header, given the bytes of the width, of the length and of
their product. -/
theorem writeHeader_bytes (w l : Int) (a0 a1 a2 a3 b0 b1 b2 b3 c0 c1 c2 c3 : Nat)
    (ha : le32 (toU32 w) = [a0, a1, a2, a3]) (hb : le32 (toU32 l) = [b0, b1, b2, b3])
    (hc : le32 (toU32 (w * l)) = [c0, c1, c2, c3]) :
    writeHeader w l =
      [73, 73, 42, 0, 8, 0, 0, 0, 12, 0, 0, 1, 3, 0, 1, 0, 0, 0, a0, a1, a2, a3, 1, 1, 3, 0,
      1, 0, 0, 0, b0, b1, b2, b3, 2, 1, 3, 0, 3, 0, 0, 0, 174, 0, 0, 0, 3, 1, 3, 0, 1, 0,
      0, 0, 1, 0, 0, 0, 6, 1, 3, 0, 1, 0, 0, 0, 2, 0, 0, 0, 17, 1, 3, 0, 1, 0, 0, 0, 180,
      0, 0, 0, 21, 1, 3, 0, 1, 0, 0, 0, 3, 0, 0, 0, 22, 1, 3, 0, 1, 0, 0, 0, b0, b1, b2,
      b3, 23, 1, 4, 0, 1, 0, 0, 0, c0, c1, c2, c3, 26, 1, 5, 0, 1, 0, 0, 0, 158, 0, 0, 0,
      27, 1, 5, 0, 1, 0, 0, 0, 166, 0, 0, 0, 40, 1, 3, 0, 1, 0, 0, 0, 1, 0, 0, 0, 0, 0, 0,
      0, 1, 0, 0, 0, 1, 0, 0, 0, 1, 0, 0, 0, 1, 0, 0, 0, 8, 0, 8, 0, 8, 0] := by
  unfold writeHeader write_IFD
  rw [ha, hb, hc]
  simp only [le16, le32, SHORT, LONG, RATIONAL, List.cons_append, List.nil_append,
    List.append_assoc]

theorem header_shape (a0 a1 a2 a3 b0 b1 b2 b3 c0 c1 c2 c3 : Nat) (bs : List Nat)
    (hbs : bs =
      [73, 73, 42, 0, 8, 0, 0, 0, 12, 0, 0, 1, 3, 0, 1, 0, 0, 0, a0, a1, a2, a3, 1, 1, 3, 0,
      1, 0, 0, 0, b0, b1, b2, b3, 2, 1, 3, 0, 3, 0, 0, 0, 174, 0, 0, 0, 3, 1, 3, 0, 1, 0,
      0, 0, 1, 0, 0, 0, 6, 1, 3, 0, 1, 0, 0, 0, 2, 0, 0, 0, 17, 1, 3, 0, 1, 0, 0, 0, 180,
      0, 0, 0, 21, 1, 3, 0, 1, 0, 0, 0, 3, 0, 0, 0, 22, 1, 3, 0, 1, 0, 0, 0, b0, b1, b2,
      b3, 23, 1, 4, 0, 1, 0, 0, 0, c0, c1, c2, c3, 26, 1, 5, 0, 1, 0, 0, 0, 158, 0, 0, 0,
      27, 1, 5, 0, 1, 0, 0, 0, 166, 0, 0, 0, 40, 1, 3, 0, 1, 0, 0, 0, 1, 0, 0, 0, 0, 0, 0,
      0, 1, 0, 0, 0, 1, 0, 0, 0, 1, 0, 0, 0, 1, 0, 0, 0, 8, 0, 8, 0, 8, 0]) :
    bs.length = 180 ∧ bs.take 8 = [73, 73, 42, 0, 8, 0, 0, 0] ∧
      read16 bs 2 = 42 ∧ read32 bs 4 = 8 ∧ read16 bs 8 = 12 ∧
      entry bs 0 = (256, SHORT, 1, a0 + 256 * a1 + 65536 * a2 + 16777216 * a3) ∧
      entry bs 1 = (257, SHORT, 1, b0 + 256 * b1 + 65536 * b2 + 16777216 * b3) ∧
      entry bs 2 = (258, SHORT, 3, 174) ∧
      entry bs 3 = (259, SHORT, 1, 1) ∧
      entry bs 4 = (262, SHORT, 1, 2) ∧
      entry bs 5 = (273, SHORT, 1, 180) ∧
      entry bs 6 = (277, SHORT, 1, 3) ∧
      entry bs 7 = (278, SHORT, 1, b0 + 256 * b1 + 65536 * b2 + 16777216 * b3) ∧
      entry bs 8 = (279, LONG, 1, c0 + 256 * c1 + 65536 * c2 + 16777216 * c3) ∧
      entry bs 9 = (282, RATIONAL, 1, 158) ∧
      entry bs 10 = (283, RATIONAL, 1, 166) ∧
      entry bs 11 = (296, SHORT, 1, 1) ∧
      read16 bs 18 = a0 + 256 * a1 ∧ read16 bs 30 = b0 + 256 * b1 ∧
      read32 bs 154 = 0 ∧
      read32 bs 158 = 1 ∧ read32 bs 162 = 1 ∧ read32 bs 166 = 1 ∧ read32 bs 170 = 1 ∧
      read16 bs 174 = 8 ∧ read16 bs 176 = 8 ∧ read16 bs 178 = 8 := by
  subst hbs
  repeat' apply And.intro
  all_goals rfl

/-- The header and the file written for a screen whose width and length are below
`65536`: the decoded entries, the values after the IFD and the place of the pixel data. -/
theorem writeFile_layout (s : screen) (hw0 : 0 ≤ s.w) (hw : s.w < 65536) (hl0 : 0 ≤ s.l)
    (hl : s.l < 65536) :
    (writeHeader s.w s.l).length = 180 ∧
      (writeHeader s.w s.l).take 8 = [73, 73, 42, 0, 8, 0, 0, 0] ∧
      read16 (writeHeader s.w s.l) 2 = 42 ∧ read32 (writeHeader s.w s.l) 4 = 8 ∧
      read16 (writeHeader s.w s.l) 8 = 12 ∧
      entry (writeHeader s.w s.l) 0 = (256, SHORT, 1, s.w.toNat) ∧
      entry (writeHeader s.w s.l) 1 = (257, SHORT, 1, s.l.toNat) ∧
      entry (writeHeader s.w s.l) 2 = (258, SHORT, 3, 174) ∧
      entry (writeHeader s.w s.l) 3 = (259, SHORT, 1, 1) ∧
      entry (writeHeader s.w s.l) 4 = (262, SHORT, 1, 2) ∧
      entry (writeHeader s.w s.l) 5 = (273, SHORT, 1, 180) ∧
      entry (writeHeader s.w s.l) 6 = (277, SHORT, 1, 3) ∧
      entry (writeHeader s.w s.l) 7 = (278, SHORT, 1, s.l.toNat) ∧
      entry (writeHeader s.w s.l) 8 = (279, LONG, 1, (s.w * s.l).toNat) ∧
      entry (writeHeader s.w s.l) 9 = (282, RATIONAL, 1, 158) ∧
      entry (writeHeader s.w s.l) 10 = (283, RATIONAL, 1, 166) ∧
      entry (writeHeader s.w s.l) 11 = (296, SHORT, 1, 1) ∧
      read16 (writeHeader s.w s.l) 18 = s.w.toNat ∧
      read16 (writeHeader s.w s.l) 30 = s.l.toNat ∧
      read32 (writeHeader s.w s.l) 154 = 0 ∧
      read32 (writeHeader s.w s.l) 158 = 1 ∧ read32 (writeHeader s.w s.l) 162 = 1 ∧
      read32 (writeHeader s.w s.l) 166 = 1 ∧ read32 (writeHeader s.w s.l) 170 = 1 ∧
      read16 (writeHeader s.w s.l) 174 = 8 ∧ read16 (writeHeader s.w s.l) 176 = 8 ∧
      read16 (writeHeader s.w s.l) 178 = 8 ∧
      (writeFile s).take 180 = writeHeader s.w s.l ∧
      (writeFile s).drop 180 = s.dat.take (s.w * s.l * 3).toNat := by
  have hwl0 : 0 ≤ s.w * s.l := mul_nonneg hw0 hl0
  have hwl : s.w * s.l < 4294967296 := by nlinarith
  obtain ⟨a0, a1, a2, a3, ha, hasum, hashort⟩ := le32_bytes (toU32 s.w)
    (by rw [toU32_eq s.w hw0 (by omega)]; omega)
  obtain ⟨b0, b1, b2, b3, hb, hbsum, hbshort⟩ := le32_bytes (toU32 s.l)
    (by rw [toU32_eq s.l hl0 (by omega)]; omega)
  obtain ⟨c0, c1, c2, c3, hc, hcsum, -⟩ := le32_bytes (toU32 (s.w * s.l))
    (by rw [toU32_eq _ hwl0 hwl]; omega)
  have hbytes := writeHeader_bytes s.w s.l a0 a1 a2 a3 b0 b1 b2 b3 c0 c1 c2 c3 ha hb hc
  obtain ⟨h1, h2, h3, h4, h5, e0, e1, e2, e3, e4, e5, e6, e7, e8, e9, e10, e11, r18, r30,
    r154, r158, r162, r166, r170, r174, r176, r178⟩ :=
    header_shape a0 a1 a2 a3 b0 b1 b2 b3 c0 c1 c2 c3 (writeHeader s.w s.l) hbytes
  rw [hasum, toU32_eq s.w hw0 (by omega)] at e0
  rw [hbsum, toU32_eq s.l hl0 (by omega)] at e1 e7
  rw [hcsum, toU32_eq _ hwl0 hwl] at e8
  rw [(hashort (by rw [toU32_eq s.w hw0 (by omega)]; omega)).1,
    toU32_eq s.w hw0 (by omega)] at r18
  rw [(hbshort (by rw [toU32_eq s.l hl0 (by omega)]; omega)).1,
    toU32_eq s.l hl0 (by omega)] at r30
  refine ⟨h1, h2, h3, h4, h5, e0, e1, e2, e3, e4, e5, e6, e7, e8, e9, e10, e11, r18, r30,
    r154, r158, r162, r166, r170, r174, r176, r178, ?_, ?_⟩
  · exact List.take_left' h1
  · exact List.drop_left' h1

/-- C14: for a screen whose width `w` and length `l` are from 0 to 65535, on a
little-endian host `writeHeader` emits exactly 180 bytes: `II`, 42 and the IFD offset 8;
the entry count 12; twelve 12-byte entries, among them width `w`, length `l`, compression
1 and samples per pixel 3; the entries of the resolutions hold the offsets 158 and 166,
where the two rationals 1/1 stand, the entry of the bits per sample the offset 174, where
8, 8, 8 stand, and the entry of the strip the offset 180, where the file written by
`writeFile` holds its first pixel byte. -/
theorem tiff_header_layout (s : screen) (hw0 : 0 ≤ s.w) (hw : s.w < 65536) (hl0 : 0 ≤ s.l)
    (hl : s.l < 65536) :
    (writeHeader s.w s.l).length = 180 ∧
      (writeHeader s.w s.l).take 8 = [73, 73, 42, 0, 8, 0, 0, 0] ∧
      read16 (writeHeader s.w s.l) 2 = 42 ∧ read32 (writeHeader s.w s.l) 4 = 8 ∧
      read16 (writeHeader s.w s.l) 8 = 12 ∧
      entry (writeHeader s.w s.l) 0 = (256, SHORT, 1, s.w.toNat) ∧
      entry (writeHeader s.w s.l) 1 = (257, SHORT, 1, s.l.toNat) ∧
      entry (writeHeader s.w s.l) 2 = (258, SHORT, 3, 174) ∧
      entry (writeHeader s.w s.l) 3 = (259, SHORT, 1, 1) ∧
      entry (writeHeader s.w s.l) 4 = (262, SHORT, 1, 2) ∧
      entry (writeHeader s.w s.l) 5 = (273, SHORT, 1, 180) ∧
      entry (writeHeader s.w s.l) 6 = (277, SHORT, 1, 3) ∧
      entry (writeHeader s.w s.l) 7 = (278, SHORT, 1, s.l.toNat) ∧
      entry (writeHeader s.w s.l) 8 = (279, LONG, 1, (s.w * s.l).toNat) ∧
      entry (writeHeader s.w s.l) 9 = (282, RATIONAL, 1, 158) ∧
      entry (writeHeader s.w s.l) 10 = (283, RATIONAL, 1, 166) ∧
      entry (writeHeader s.w s.l) 11 = (296, SHORT, 1, 1) ∧
      read16 (writeHeader s.w s.l) 18 = s.w.toNat ∧
      read16 (writeHeader s.w s.l) 30 = s.l.toNat ∧
      read32 (writeHeader s.w s.l) 154 = 0 ∧
      read32 (writeHeader s.w s.l) 158 = 1 ∧ read32 (writeHeader s.w s.l) 162 = 1 ∧
      read32 (writeHeader s.w s.l) 166 = 1 ∧ read32 (writeHeader s.w s.l) 170 = 1 ∧
      read16 (writeHeader s.w s.l) 174 = 8 ∧ read16 (writeHeader s.w s.l) 176 = 8 ∧
      read16 (writeHeader s.w s.l) 178 = 8 ∧
      (writeFile s).take 180 = writeHeader s.w s.l ∧
      (writeFile s).drop 180 = s.dat.take (s.w * s.l * 3).toNat :=
  writeFile_layout s hw0 hw hl0 hl

/-- Witness of C14: the screen of `main`, 2000 by 2000. -/
theorem tiff_header_layout_witness :
    (writeHeader (sopen WID WID).w (sopen WID WID).l).length = 180 ∧
      (writeHeader (sopen WID WID).w (sopen WID WID).l).take 8 = [73, 73, 42, 0, 8, 0, 0, 0] ∧
      read16 (writeHeader (sopen WID WID).w (sopen WID WID).l) 2 = 42 ∧ read32 (writeHeader (sopen WID WID).w (sopen WID WID).l) 4 = 8 ∧
      read16 (writeHeader (sopen WID WID).w (sopen WID WID).l) 8 = 12 ∧
      entry (writeHeader (sopen WID WID).w (sopen WID WID).l) 0 = (256, SHORT, 1, (sopen WID WID).w.toNat) ∧
      entry (writeHeader (sopen WID WID).w (sopen WID WID).l) 1 = (257, SHORT, 1, (sopen WID WID).l.toNat) ∧
      entry (writeHeader (sopen WID WID).w (sopen WID WID).l) 2 = (258, SHORT, 3, 174) ∧
      entry (writeHeader (sopen WID WID).w (sopen WID WID).l) 3 = (259, SHORT, 1, 1) ∧
      entry (writeHeader (sopen WID WID).w (sopen WID WID).l) 4 = (262, SHORT, 1, 2) ∧
      entry (writeHeader (sopen WID WID).w (sopen WID WID).l) 5 = (273, SHORT, 1, 180) ∧
      entry (writeHeader (sopen WID WID).w (sopen WID WID).l) 6 = (277, SHORT, 1, 3) ∧
      entry (writeHeader (sopen WID WID).w (sopen WID WID).l) 7 = (278, SHORT, 1, (sopen WID WID).l.toNat) ∧
      entry (writeHeader (sopen WID WID).w (sopen WID WID).l) 8 = (279, LONG, 1, ((sopen WID WID).w * (sopen WID WID).l).toNat) ∧
      entry (writeHeader (sopen WID WID).w (sopen WID WID).l) 9 = (282, RATIONAL, 1, 158) ∧
      entry (writeHeader (sopen WID WID).w (sopen WID WID).l) 10 = (283, RATIONAL, 1, 166) ∧
      entry (writeHeader (sopen WID WID).w (sopen WID WID).l) 11 = (296, SHORT, 1, 1) ∧
      read16 (writeHeader (sopen WID WID).w (sopen WID WID).l) 18 = (sopen WID WID).w.toNat ∧
      read16 (writeHeader (sopen WID WID).w (sopen WID WID).l) 30 = (sopen WID WID).l.toNat ∧
      read32 (writeHeader (sopen WID WID).w (sopen WID WID).l) 154 = 0 ∧
      read32 (writeHeader (sopen WID WID).w (sopen WID WID).l) 158 = 1 ∧ read32 (writeHeader (sopen WID WID).w (sopen WID WID).l) 162 = 1 ∧
      read32 (writeHeader (sopen WID WID).w (sopen WID WID).l) 166 = 1 ∧ read32 (writeHeader (sopen WID WID).w (sopen WID WID).l) 170 = 1 ∧
      read16 (writeHeader (sopen WID WID).w (sopen WID WID).l) 174 = 8 ∧ read16 (writeHeader (sopen WID WID).w (sopen WID WID).l) 176 = 8 ∧
      read16 (writeHeader (sopen WID WID).w (sopen WID WID).l) 178 = 8 ∧
      (writeFile (sopen WID WID)).take 180 = writeHeader (sopen WID WID).w (sopen WID WID).l ∧
      (writeFile (sopen WID WID)).drop 180 = (sopen WID WID).dat.take ((sopen WID WID).w * (sopen WID WID).l * 3).toNat :=
  tiff_header_layout (sopen WID WID) (by decide) (by decide) (by decide) (by decide)

/-- C20, evaluated on the screen of `main`: the entry of tag 279 records the strip byte
count `2000 * 2000 = 4000000`, and `writeFile` writes `3 * 2000 * 2000 = 12000000` bytes
of pixel data after the 180 bytes of the header. -/
theorem strip_byte_count_mismatch :
    entry (writeHeader (sopen WID WID).w (sopen WID WID).l) 8 = (279, LONG, 1, 4000000) ∧
      ((writeFile (sopen WID WID)).drop 180).length = 12000000 ∧
      (writeFile (sopen WID WID)).length = 180 + 12000000 := by
  have h := writeFile_layout (sopen WID WID) (by decide) (by decide) (by decide) (by decide)
  have hdata : ((sopen WID WID).dat.take
      ((sopen WID WID).w * (sopen WID WID).l * 3).toNat).length = 12000000 := by
    have hdat : (sopen WID WID).dat = List.replicate (WID * WID * 1 * 3).toNat 0 := rfl
    rw [List.length_take, hdat, List.length_replicate]
    decide
  refine ⟨h.2.2.2.2.2.2.2.2.2.2.2.2.2.1, ?_, ?_⟩
  · rw [h.2.2.2.2.2.2.2.2.2.2.2.2.2.2.2.2.2.2.2.2.2.2.2.2.2.2.2.2]
    exact hdata
  · unfold writeFile
    rw [List.length_append, h.1, hdata]

/-! ## Which pixels the guard lets through -/

/-- On a screen with `datmax = 3*w*l` the guard of `drawLine2d` holds for the pixels of
the canvas other than the last one, `(w-1, l-1)`, and for no other pixel. -/
theorem painted_iff (s : screen) (hw : 0 < s.w) (hl : 0 < s.l)
    (hmax : s.datmax = 3 * s.w * s.l) (p : Int × Int) :
    painted s p = true ↔
      (0 ≤ p.1 ∧ p.1 < s.w ∧ 0 ≤ p.2 ∧ p.2 < s.l) ∧ ¬ (p.1 = s.w - 1 ∧ p.2 = s.l - 1) := by
  constructor
  · intro hp
    obtain ⟨a, b, c, d, -, -⟩ := painted_inside s hw hl hmax p hp
    refine ⟨⟨a, b, c, d⟩, ?_⟩
    rintro ⟨hx, hy⟩
    simp only [painted, offset, Bool.and_eq_true, decide_eq_true_eq, ge_iff_le] at hp
    obtain ⟨⟨⟨-, -⟩, h3⟩, -⟩ := hp
    rw [hmax, hx, hy] at h3
    have : 3 * s.w * (s.l - 1) + 3 * (s.w - 1) = 3 * s.w * s.l - 3 := by ring
    omega
  · rintro ⟨⟨a, b, c, d⟩, hlast⟩
    simp only [painted, offset, Bool.and_eq_true, decide_eq_true_eq, ge_iff_le]
    refine ⟨⟨⟨a, b⟩, ?_⟩, ?_⟩
    · rw [hmax]
      by_cases hy : p.2 = s.l - 1
      · have hx : p.1 ≤ s.w - 2 := by
          by_contra hcon
          exact hlast ⟨by omega, hy⟩
        rw [hy]
        have : 3 * s.w * (s.l - 1) = 3 * s.w * s.l - 3 * s.w := by ring
        omega
      · have hy2 : p.2 ≤ s.l - 2 := by omega
        have : s.w * p.2 ≤ s.w * (s.l - 2) := mul_le_mul_of_nonneg_left hy2 hw.le
        nlinarith
    · have : 0 ≤ s.w * p.2 := mul_nonneg hw.le c
      nlinarith

/-- C15, evaluated: on the 2 by 2 screen of `sopen` the line from `(1,1)` to `(2,1)`
computes the one pixel `(1,1)`, which lies on the canvas; the guard fails for it, since
its byte offset 9 is not below `datmax - 3 = 9`, and `drawLine2d` returns the screen
unpainted. The same holds for the last pixel `(1999,1999)` of the screen of `main`. -/
theorem last_pixel_skipped :
    pixels 1 1 2 1 = some [(1, 1)] ∧
      ((0 : Int) ≤ 1 ∧ (1 : Int) < (sopen 2 2).w ∧ (0 : Int) ≤ 1 ∧ (1 : Int) < (sopen 2 2).l) ∧
      offset (sopen 2 2) (1, 1) = 9 ∧ (sopen 2 2).datmax - 3 = 9 ∧
      painted (sopen 2 2) (1, 1) = false ∧
      drawLine2d (sopen 2 2) 1 1 2 1 = some (sopen 2 2) ∧
      painted (sopen WID WID) (1999, 1999) = false := by
  have hpix : pixels 1 1 2 1 = some [(1, 1)] := by
    norm_num [pixels, steps, xPass, yPass, interpolate, toInt, List.range_succ]
  refine ⟨hpix, by decide, by decide, by decide, by decide, ?_, by decide⟩
  rw [drawLine2d, hpix]
  simp only [Option.map_some', List.foldl_cons, List.foldl_nil]
  have hp : painted (sopen 2 2) (1, 1) = false := by decide
  unfold plot
  rw [hp]
  rfl

/-! ## The lines of the draw pass join logged positions -/

section
variable {α : Type} [LinearOrderedField α] [FloorRing α]

/-- The branches of the loop body. -/
theorem step_cases (m : Libm α) (ls : lsystem α)
    (recur : List Char → World α → Option (World α)) (n : Nat) (d : Bool) (c : Char)
    (br br1 : List (Saved α)) (u v : World α)
    (h : step m ls recur n d c br u = some (br1, v)) :
    (br1 = br ∧ ∃ a, terminal m ls a d u = some v) ∨
    (br1 = br ∧ ∃ rule, recur rule u = some v) ∨
    (br1 = br ∧ ∃ t, v = { u with currentAngle := t }) ∨
    (br1 = (u.pos0, u.pos1, u.currentAngle) :: br ∧
      v = { u with slots := u.slots ++ [br.length] }) ∨
    (∃ x y t, br = (x, y, t) :: br1 ∧
      v = { u with pos0 := x, pos1 := y, currentAngle := t,
                   slots := u.slots ++ [br1.length] }) := by
  unfold step at h
  by_cases hl : c.isLower = true
  · rw [if_pos hl] at h
    split at h
    · simp only [Option.map_eq_some'] at h
      obtain ⟨v0, h2, h3⟩ := h
      cases h3
      exact Or.inl ⟨rfl, _, h2⟩
    · split at h
      · simp only [Option.map_eq_some'] at h
        obtain ⟨v0, h2, h3⟩ := h
        cases h3
        exact Or.inl ⟨rfl, _, h2⟩
      · split at h
        · simp only [Option.map_eq_some'] at h
          obtain ⟨v0, h2, h3⟩ := h
          cases h3
          exact Or.inr (Or.inl ⟨rfl, _, h2⟩)
        · cases h
          exact Or.inr (Or.inr (Or.inl ⟨rfl, u.currentAngle, rfl⟩))
  · rw [if_neg hl] at h
    by_cases hp : c = '+'
    · rw [if_pos hp] at h
      cases h
      exact Or.inr (Or.inr (Or.inl ⟨rfl, _, rfl⟩))
    · rw [if_neg hp] at h
      by_cases hm : c = '-'
      · rw [if_pos hm] at h
        cases h
        exact Or.inr (Or.inr (Or.inl ⟨rfl, _, rfl⟩))
      · rw [if_neg hm] at h
        by_cases ho : c = '['
        · rw [if_pos ho] at h
          split at h
          · cases h
            exact Or.inr (Or.inr (Or.inr (Or.inl ⟨rfl, rfl⟩)))
          · cases h
        · rw [if_neg ho] at h
          by_cases hcl : c = ']'
          · rw [if_pos hcl] at h
            cases br with
            | nil => cases h
            | cons top rest =>
              obtain ⟨x, y, t⟩ := top
              cases h
              exact Or.inr (Or.inr (Or.inr (Or.inr ⟨x, y, t, rfl, rfl⟩)))
          · rw [if_neg hcl] at h
            cases h
            exact Or.inr (Or.inr (Or.inl ⟨rfl, u.currentAngle, rfl⟩))

theorem points_mono (v vs : List (Saved α)) (p : α × α) (hp : p ∈ points v) :
    p ∈ points (v ++ vs) := by
  simp only [points, List.mem_cons, List.map_append, List.mem_append] at hp ⊢
  rcases hp with h | h
  · exact Or.inl h
  · exact Or.inr (Or.inl h)

theorem points_last (v : List (Saved α)) (x y t : α) : (x, y) ∈ points (v ++ [(x, y, t)]) := by
  simp [points]

/-- A terminal action of the draw pass: what it logs. -/
theorem terminal_draw_log (m : Libm α) (ls : lsystem α) (a : Nat) (u v : World α)
    (h : terminal m ls a true u = some v) :
    v.extremes = u.extremes ∧
      v.visited = u.visited ++ [(v.pos0, v.pos1, v.currentAngle)] ∧
      (v.lines = u.lines ∨
        (v.lines = u.lines ++ [segment u.extremes u.pos0 u.pos1 v.pos0 v.pos1] ∧
          v.pos0 = u.pos0 + m.cos u.currentAngle ∧ v.pos1 = u.pos1 + m.sin u.currentAngle)) := by
  by_cases hdraw : ls.draw a = true
  · obtain ⟨ps, hps⟩ := terminal_draw m ls a u hdraw
    rw [hps] at h; cases h
    exact ⟨rfl, rfl, Or.inr ⟨rfl, rfl, rfl⟩⟩
  · have hd : ls.draw a = false := by simpa using hdraw
    by_cases hskip : ls.skip a = true
    · rw [terminal_skip m ls a true u hd hskip] at h; cases h
      exact ⟨rfl, rfl, Or.inl rfl⟩
    · have hs0 : ls.skip a = false := by simpa using hskip
      rw [terminal_idle m ls a true u hd hs0] at h; cases h
      exact ⟨rfl, rfl, Or.inl rfl⟩

theorem terminal_keeps (m : Libm α) (ls : lsystem α)
    (hunit : ∀ t, m.cos t ^ 2 + m.sin t ^ 2 = 1) (a : Nat) (br : List (Saved α))
    (u v : World α) (h : terminal m ls a true u = some v) : Keeps u br v br := by
  intro hk hf
  obtain ⟨hext, hvis, hlines⟩ := terminal_draw_log m ls a u v h
  have hmono : ∀ p ∈ points u.visited, p ∈ points v.visited := by
    intro p hp
    rw [hvis]
    exact points_mono _ _ p hp
  have hpos : (v.pos0, v.pos1) ∈ points v.visited := by
    rw [hvis]
    exact points_last _ _ _ _
  refine ⟨⟨hpos, fun s hs => hmono _ (hk.2 s hs)⟩, ?_, hmono, hext⟩
  intro ln hln
  have hold : ln ∈ u.lines → ∃ p ∈ points v.visited, ∃ q ∈ points v.visited,
      p ≠ q ∧ ln = segment v.extremes p.1 p.2 q.1 q.2 := by
    intro hin
    obtain ⟨p, hp, q, hq, hne, heq⟩ := hf ln hin
    exact ⟨p, hmono p hp, q, hmono q hq, hne, by rw [hext]; exact heq⟩
  rcases hlines with hl | ⟨hl, hx, hy⟩
  · rw [hl] at hln
    exact hold hln
  · rw [hl] at hln
    rcases List.mem_append.1 hln with hin | hin
    · exact hold hin
    · rw [List.mem_singleton] at hin
      refine ⟨(u.pos0, u.pos1), hmono _ hk.1, (v.pos0, v.pos1), hpos, ?_, by rw [hin, hext]⟩
      intro heq
      simp only [Prod.mk.injEq] at heq
      have hc : m.cos u.currentAngle = 0 := by
        have := heq.1
        rw [hx] at this
        linarith
      have hs : m.sin u.currentAngle = 0 := by
        have := heq.2
        rw [hy] at this
        linarith
      have h1 := hunit u.currentAngle
      rw [hc, hs] at h1
      norm_num at h1

theorem step_keeps (m : Libm α) (ls : lsystem α)
    (hunit : ∀ t, m.cos t ^ 2 + m.sin t ^ 2 = 1)
    (recur : List Char → World α → Option (World α)) (n : Nat)
    (hrec : ∀ rule u v, recur rule u = some v → Keeps u [] v [])
    (c : Char) (br br1 : List (Saved α)) (u v : World α)
    (h : step m ls recur n true c br u = some (br1, v)) : Keeps u br v br1 := by
  rcases step_cases m ls recur n true c br br1 u v h with
    ⟨hb, a, ht⟩ | ⟨hb, rule, hr⟩ | ⟨hb, t, hv⟩ | ⟨hb, hv⟩ | ⟨x, y, t, hb, hv⟩
  · subst hb
    exact terminal_keeps m ls hunit a br1 u v ht
  · subst hb
    intro hk hf
    obtain ⟨hk1, hf1, hmono, hext⟩ := hrec rule u v hr ⟨hk.1, fun s hs => by cases hs⟩ hf
    exact ⟨⟨hk1.1, fun s hs => hmono _ (hk.2 s hs)⟩, hf1, hmono, hext⟩
  · subst hb hv
    intro hk hf
    exact ⟨hk, hf, fun p hp => hp, rfl⟩
  · subst hb hv
    intro hk hf
    refine ⟨⟨hk.1, fun s hs => ?_⟩, hf, fun p hp => hp, rfl⟩
    rcases List.mem_cons.1 hs with h1 | h1
    · rw [h1]; exact hk.1
    · exact hk.2 s h1
  · subst hb hv
    intro hk hf
    exact ⟨⟨hk.2 (x, y, t) (List.mem_cons_self _ _),
      fun s hs => hk.2 s (List.mem_cons_of_mem _ hs)⟩, hf, fun p hp => hp, rfl⟩

theorem run_keeps (m : Libm α) (ls : lsystem α)
    (hunit : ∀ t, m.cos t ^ 2 + m.sin t ^ 2 = 1)
    (recur : List Char → World α → Option (World α)) (n : Nat)
    (hrec : ∀ rule u v, recur rule u = some v → Keeps u [] v [])
    (cur : List Char) (br br1 : List (Saved α)) (u v : World α)
    (h : run m ls recur n true cur br u = some (br1, v)) : Keeps u br v br1 := by
  induction cur generalizing br u with
  | nil =>
    simp only [run, Option.some.injEq, Prod.mk.injEq] at h
    obtain ⟨hb, hu⟩ := h
    subst hb hu
    intro hk hf
    exact ⟨hk, hf, fun p hp => hp, rfl⟩
  | cons c cs ih =>
    simp only [run] at h
    cases hs : step m ls recur n true c br u with
    | none => rw [hs] at h; cases h
    | some p =>
      obtain ⟨br2, u2⟩ := p
      rw [hs] at h
      intro hk hf
      obtain ⟨hk2, hf2, hmono2, hext2⟩ := step_keeps m ls hunit recur n hrec c br br2 u u2 hs hk hf
      obtain ⟨hk3, hf3, hmono3, hext3⟩ := ih br2 u2 h hk2 hf2
      exact ⟨hk3, hf3, fun p hp => hmono3 p (hmono2 p hp), hext3.trans hext2⟩

theorem generate_keeps (m : Libm α) (ls : lsystem α)
    (hunit : ∀ t, m.cos t ^ 2 + m.sin t ^ 2 = 1) (n : Nat) (cur : List Char)
    (u v : World α) (h : generate m ls n true cur u = some v) : Keeps u [] v [] := by
  induction n generalizing cur u v with
  | zero =>
    simp only [generate, Option.map_eq_some'] at h
    obtain ⟨⟨br2, v2⟩, h2, h3⟩ := h
    cases h3
    intro hk hf
    obtain ⟨hk1, hf1, hmono, hext⟩ := run_keeps m ls hunit (fun _ _ => none) 0
      (fun _ _ _ hh => by cases hh) cur [] br2 u v2 h2 hk hf
    exact ⟨⟨hk1.1, fun s hs => by cases hs⟩, hf1, hmono, hext⟩
  | succ k ih =>
    simp only [generate, Option.map_eq_some'] at h
    obtain ⟨⟨br2, v2⟩, h2, h3⟩ := h
    cases h3
    intro hk hf
    obtain ⟨hk1, hf1, hmono, hext⟩ := run_keeps m ls hunit (generate m ls k true) (k + 1)
      (fun rule a b hh => ih rule a b hh) cur [] br2 u v2 h2 hk hf
    exact ⟨⟨hk1.1, fun s hs => by cases hs⟩, hf1, hmono, hext⟩

end

/-! ## The transform maps the bounding box into the canvas -/

section
variable {α : Type} [LinearOrderedField α] [FloorRing α]

/-- The half span after the conversion is positive when the box holds two points. -/
theorem convert_pos (e : Extremes α) (p q : α × α)
    (hp : e.e0 ≤ p.1 ∧ p.1 ≤ e.e1 ∧ e.e2 ≤ p.2 ∧ p.2 ≤ e.e3)
    (hq : e.e0 ≤ q.1 ∧ q.1 ≤ e.e1 ∧ e.e2 ≤ q.2 ∧ q.2 ≤ e.e3) (hne : p ≠ q) :
    0 < (convert e).e2 := by
  have hspan : e.e0 < e.e1 ∨ e.e2 < e.e3 := by
    by_contra hcon
    push_neg at hcon
    apply hne
    obtain ⟨p0, p1, p2, p3⟩ := hp
    obtain ⟨q0, q1, q2, q3⟩ := hq
    exact Prod.ext (le_antisymm (by linarith) (by linarith))
      (le_antisymm (by linarith) (by linarith))
  have h12 : (1.2 : α) = 6 / 5 := by norm_num
  unfold convert
  dsimp only
  rw [h12]
  obtain ⟨p0, p1, p2, p3⟩ := hp
  split_ifs with h
  · rcases hspan with h1 | h1 <;> linarith
  · rcases hspan with h1 | h1 <;> linarith

/-- One coordinate: a value between `lo` and `hi` is mapped, with the centre
`(lo + hi) / 2` and a half span of at least `1.2 * (hi - lo) / 2`, between
`1000 - 1000 / 1.2` and `1000 + 1000 / 1.2`. -/
theorem coordinate_fits (lo hi x hs : α) (h0 : lo ≤ x) (h1 : x ≤ hi) (hpos : 0 < hs)
    (hspan : (hi - lo) / 2 * 1.2 ≤ hs) :
    1000 - 1000 / 1.2 ≤ (x - (lo + hi) / 2) * (HWID / hs) + HWID ∧
      (x - (lo + hi) / 2) * (HWID / hs) + HWID ≤ 1000 + 1000 / 1.2 := by
  have h12 : (1.2 : α) = 6 / 5 := by norm_num
  rw [h12] at hspan ⊢
  have e1 : (x - (lo + hi) / 2) * (HWID / hs) = (x - (lo + hi) / 2) * 1000 / hs := by
    unfold HWID; ring
  have hH : (HWID : α) = 1000 := rfl
  rw [e1, hH]
  constructor
  · have : -(1000 / (6 / 5)) ≤ (x - (lo + hi) / 2) * 1000 / hs := by
      rw [le_div_iff₀ hpos]
      norm_num
      linarith
    linarith
  · have : (x - (lo + hi) / 2) * 1000 / hs ≤ 1000 / (6 / 5) := by
      rw [div_le_iff₀ hpos]
      norm_num
      linarith
    linarith

theorem convert_fields (e : Extremes α) :
    (convert e).e0 = (e.e0 + e.e1) / 2 ∧ (convert e).e1 = (e.e2 + e.e3) / 2 ∧
      (e.e1 - e.e0) / 2 * 1.2 ≤ (convert e).e2 ∧ (e.e3 - e.e2) / 2 * 1.2 ≤ (convert e).e2 := by
  have h12 : (1.2 : α) = 6 / 5 := by norm_num
  refine ⟨rfl, rfl, ?_, ?_⟩ <;>
  · unfold convert
    dsimp only
    rw [h12]
    split_ifs with h <;> linarith

/-- The four arguments of a `drawLine2d` call between two points of the box lie between
`1000 - 1000 / 1.2` and `1000 + 1000 / 1.2`. -/
theorem segment_fits (e : Extremes α) (p q : α × α)
    (hp : e.e0 ≤ p.1 ∧ p.1 ≤ e.e1 ∧ e.e2 ≤ p.2 ∧ p.2 ≤ e.e3)
    (hq : e.e0 ≤ q.1 ∧ q.1 ≤ e.e1 ∧ e.e2 ≤ q.2 ∧ q.2 ≤ e.e3)
    (hpos : 0 < (convert e).e2) (c : α)
    (hc : c = (segment (convert e) p.1 p.2 q.1 q.2).1 ∨
      c = (segment (convert e) p.1 p.2 q.1 q.2).2.1 ∨
      c = (segment (convert e) p.1 p.2 q.1 q.2).2.2.1 ∨
      c = (segment (convert e) p.1 p.2 q.1 q.2).2.2.2) :
    1000 - 1000 / 1.2 ≤ c ∧ c ≤ 1000 + 1000 / 1.2 := by
  obtain ⟨f0, f1, f2, f3⟩ := convert_fields e
  obtain ⟨p0, p1, p2, p3⟩ := hp
  obtain ⟨q0, q1, q2, q3⟩ := hq
  rcases hc with h | h | h | h <;> rw [h] <;> simp only [segment]
  · rw [f0]; exact coordinate_fits e.e0 e.e1 p.1 _ p0 p1 hpos f2
  · rw [f1]; exact coordinate_fits e.e2 e.e3 p.2 _ p2 p3 hpos f3
  · rw [f0]; exact coordinate_fits e.e0 e.e1 q.1 _ q0 q1 hpos f2
  · rw [f1]; exact coordinate_fits e.e2 e.e3 q.2 _ q2 q3 hpos f3

/-- The conversion to `int` of a value between `lo` and `hi`, two integers, lies between
them. -/
theorem toInt_between (x : α) (lo hi : Int) (h0 : (lo : α) ≤ x) (h1 : x ≤ (hi : α)) :
    lo ≤ toInt x ∧ toInt x ≤ hi := by
  unfold toInt
  split_ifs with h
  · exact ⟨Int.le_floor.2 h0, Int.cast_le.1 ((Int.floor_le x).trans h1)⟩
  · exact ⟨Int.cast_le.1 (h0.trans (Int.le_ceil x)), Int.ceil_le.2 h1⟩

/-- After the conversion to `int` an argument between `1000 - 1000 / 1.2` and
`1000 + 1000 / 1.2` lies from 166 to 1833. -/
theorem toInt_fits (c : α) (h0 : 1000 - 1000 / 1.2 ≤ c) (h1 : c ≤ 1000 + 1000 / 1.2) :
    166 ≤ toInt c ∧ toInt c ≤ 1833 := by
  have h12 : (1.2 : α) = 6 / 5 := by norm_num
  rw [h12] at h0 h1
  have hc0 : (0 : α) ≤ c := by
    have : (0 : α) ≤ 1000 - 1000 / (6 / 5) := by norm_num
    linarith
  have hlo : ((166 : Int) : α) ≤ c := by
    have : ((166 : Int) : α) ≤ 1000 - 1000 / (6 / 5) := by norm_num
    exact this.trans h0
  unfold toInt
  rw [if_pos hc0]
  refine ⟨Int.le_floor.2 hlo, ?_⟩
  have hlt : ⌊c⌋ < 1834 := by
    rw [Int.floor_lt]
    have : (1000 : α) + 1000 / (6 / 5) < ((1834 : Int) : α) := by norm_num
    exact lt_of_le_of_lt h1 this
  omega

end

/-! ## The pixels of a line stay between its endpoints -/

theorem mem_steps (a b x : Int) (hx : x ∈ steps a b) : a ≤ x ∧ x < b := by
  unfold steps at hx
  rw [List.mem_map] at hx
  obtain ⟨k, hk, rfl⟩ := hx
  simp at hk
  obtain ⟨j, hj, rfl⟩ := hk
  omega

/-- An interpolated value lies between the two values it interpolates. -/
theorem interpolate_between (a1 a2 b1 b2 t lo hi v : Int) (ht0 : b1 ≤ t) (ht1 : t < b2)
    (h1 : lo ≤ a1 ∧ a1 ≤ hi) (h2 : lo ≤ a2 ∧ a2 ≤ hi)
    (hv : interpolate a1 a2 b1 b2 t = some v) : lo ≤ v ∧ v ≤ hi := by
  unfold interpolate at hv
  have hd : ¬ (b1 - b2 = 0) := by omega
  rw [if_neg hd] at hv
  simp only [Option.some.injEq] at hv
  rw [← hv]
  apply toInt_between
  · push_cast
    have hdq : (0 : ℚ) < (b2 : ℚ) - b1 := by
      have : b1 < b2 := by omega
      exact sub_pos.2 (by exact_mod_cast this)
    have hk0 : (0 : ℚ) ≤ (t : ℚ) - b1 := sub_nonneg.2 (by exact_mod_cast ht0)
    have hk1 : (t : ℚ) - b1 ≤ (b2 : ℚ) - b1 := by
      have : (t : ℚ) ≤ b2 := by exact_mod_cast ht1.le
      linarith
    have e : ((a1 : ℚ) - a2) / ((b1 : ℚ) - b2) * ((t : ℚ) - b1) + a1
        = ((a1 : ℚ) * (((b2 : ℚ) - b1) - ((t : ℚ) - b1)) + a2 * ((t : ℚ) - b1))
          / ((b2 : ℚ) - b1) := by
      have hne : (b1 : ℚ) - b2 ≠ 0 := by linarith
      have hne2 : (b2 : ℚ) - b1 ≠ 0 := by linarith
      field_simp
      ring
    rw [e, le_div_iff₀ hdq]
    have l1 : (lo : ℚ) ≤ a1 := by exact_mod_cast h1.1
    have l2 : (lo : ℚ) ≤ a2 := by exact_mod_cast h2.1
    nlinarith [mul_nonneg (sub_nonneg.2 l1) (sub_nonneg.2 hk1),
      mul_nonneg (sub_nonneg.2 l2) hk0]
  · push_cast
    have hdq : (0 : ℚ) < (b2 : ℚ) - b1 := by
      have : b1 < b2 := by omega
      exact sub_pos.2 (by exact_mod_cast this)
    have hk0 : (0 : ℚ) ≤ (t : ℚ) - b1 := sub_nonneg.2 (by exact_mod_cast ht0)
    have hk1 : (t : ℚ) - b1 ≤ (b2 : ℚ) - b1 := by
      have : (t : ℚ) ≤ b2 := by exact_mod_cast ht1.le
      linarith
    have e : ((a1 : ℚ) - a2) / ((b1 : ℚ) - b2) * ((t : ℚ) - b1) + a1
        = ((a1 : ℚ) * (((b2 : ℚ) - b1) - ((t : ℚ) - b1)) + a2 * ((t : ℚ) - b1))
          / ((b2 : ℚ) - b1) := by
      have hne : (b1 : ℚ) - b2 ≠ 0 := by linarith
      have hne2 : (b2 : ℚ) - b1 ≠ 0 := by linarith
      field_simp
      ring
    rw [e, div_le_iff₀ hdq]
    have l1 : (a1 : ℚ) ≤ hi := by exact_mod_cast h1.2
    have l2 : (a2 : ℚ) ≤ hi := by exact_mod_cast h2.2
    nlinarith [mul_nonneg (sub_nonneg.2 l1) (sub_nonneg.2 hk1),
      mul_nonneg (sub_nonneg.2 l2) hk0]

theorem xPass_between (x1 y1 x2 y2 lo hi : Int) (hx1 : lo ≤ x1) (hx2 : x2 ≤ hi)
    (hy1 : lo ≤ y1 ∧ y1 ≤ hi) (hy2 : lo ≤ y2 ∧ y2 ≤ hi) (xs : List Int)
    (hxs : ∀ x ∈ xs, x1 ≤ x ∧ x < x2) (ps : List (Int × Int))
    (h : xPass x1 y1 x2 y2 xs = some ps) :
    ∀ p ∈ ps, (lo ≤ p.1 ∧ p.1 ≤ hi) ∧ (lo ≤ p.2 ∧ p.2 ≤ hi) := by
  induction xs generalizing ps with
  | nil =>
    simp only [xPass, Option.some.injEq] at h
    subst h
    intro p hp
    cases hp
  | cons x xs ih =>
    simp only [xPass] at h
    cases hy : interpolate y1 y2 x1 x2 x with
    | none => rw [hy] at h; cases h
    | some y =>
      rw [hy] at h
      simp only [Option.map_eq_some'] at h
      obtain ⟨qs, hqs, rfl⟩ := h
      have hx := hxs x (List.mem_cons_self _ _)
      intro p hp
      rcases List.mem_cons.1 hp with hp | hp
      · subst hp
        exact ⟨⟨by omega, by omega⟩,
          interpolate_between y1 y2 x1 x2 x lo hi y hx.1 hx.2 hy1 hy2 hy⟩
      · exact ih (fun z hz => hxs z (List.mem_cons_of_mem _ hz)) qs hqs p hp

theorem yPass_between (x1 y1 x2 y2 lo hi : Int) (hy1 : lo ≤ y1) (hy2 : y2 ≤ hi)
    (hx1 : lo ≤ x1 ∧ x1 ≤ hi) (hx2 : lo ≤ x2 ∧ x2 ≤ hi) (ys : List Int)
    (hys : ∀ y ∈ ys, y1 ≤ y ∧ y < y2) (ps : List (Int × Int))
    (h : yPass x1 y1 x2 y2 ys = some ps) :
    ∀ p ∈ ps, (lo ≤ p.1 ∧ p.1 ≤ hi) ∧ (lo ≤ p.2 ∧ p.2 ≤ hi) := by
  induction ys generalizing ps with
  | nil =>
    simp only [yPass, Option.some.injEq] at h
    subst h
    intro p hp
    cases hp
  | cons y ys ih =>
    simp only [yPass] at h
    cases hx : interpolate x1 x2 y1 y2 y with
    | none => rw [hx] at h; cases h
    | some x =>
      rw [hx] at h
      simp only [Option.map_eq_some'] at h
      obtain ⟨qs, hqs, rfl⟩ := h
      have hy := hys y (List.mem_cons_self _ _)
      intro p hp
      rcases List.mem_cons.1 hp with hp | hp
      · subst hp
        exact ⟨interpolate_between x1 x2 y1 y2 y lo hi x hy.1 hy.2 hx1 hx2 hx,
          ⟨by omega, by omega⟩⟩
      · exact ih (fun z hz => hys z (List.mem_cons_of_mem _ hz)) qs hqs p hp

/-- Every pixel computed by `drawLine2d` has its coordinates between bounds of the
coordinates of the two endpoints. -/
theorem pixels_between (px1 py1 px2 py2 lo hi : Int)
    (h1 : lo ≤ px1 ∧ px1 ≤ hi) (h2 : lo ≤ py1 ∧ py1 ≤ hi)
    (h3 : lo ≤ px2 ∧ px2 ≤ hi) (h4 : lo ≤ py2 ∧ py2 ≤ hi) (ps : List (Int × Int))
    (h : pixels px1 py1 px2 py2 = some ps) :
    ∀ p ∈ ps, (lo ≤ p.1 ∧ p.1 ≤ hi) ∧ (lo ≤ p.2 ∧ p.2 ≤ hi) := by
  unfold pixels at h
  dsimp only at h
  have bx1 : lo ≤ (if px1 < px2 then px1 else px2) ∧ (if px1 < px2 then px1 else px2) ≤ hi := by
    split_ifs <;> assumption
  have bx2 : lo ≤ (if px1 < px2 then px2 else px1) ∧ (if px1 < px2 then px2 else px1) ≤ hi := by
    split_ifs <;> assumption
  have by1 : lo ≤ (if px1 < px2 then py1 else py2) ∧ (if px1 < px2 then py1 else py2) ≤ hi := by
    split_ifs <;> assumption
  have by2 : lo ≤ (if px1 < px2 then py2 else py1) ∧ (if px1 < px2 then py2 else py1) ≤ hi := by
    split_ifs <;> assumption
  revert h
  generalize (if px1 < px2 then px1 else px2) = x1 at bx1 ⊢
  generalize (if px1 < px2 then px2 else px1) = x2 at bx2 ⊢
  generalize (if px1 < px2 then py1 else py2) = y1 at by1 ⊢
  generalize (if px1 < px2 then py2 else py1) = y2 at by2 ⊢
  intro h
  cases hxp : xPass x1 y1 x2 y2 (steps x1 x2) with
  | none => rw [hxp] at h; cases h
  | some qs =>
    rw [hxp] at h
    simp only [Option.map_eq_some'] at h
    obtain ⟨rs, hrs, rfl⟩ := h
    have hq := xPass_between x1 y1 x2 y2 lo hi bx1.1 bx2.2 by1 by2 (steps x1 x2)
      (fun x hx => mem_steps _ _ x hx) qs hxp
    have cx1 : lo ≤ (if y2 < y1 then x2 else x1) ∧ (if y2 < y1 then x2 else x1) ≤ hi := by
      split_ifs <;> assumption
    have cx2 : lo ≤ (if y2 < y1 then x1 else x2) ∧ (if y2 < y1 then x1 else x2) ≤ hi := by
      split_ifs <;> assumption
    have cy1 : lo ≤ (if y2 < y1 then y2 else y1) ∧ (if y2 < y1 then y2 else y1) ≤ hi := by
      split_ifs <;> assumption
    have cy2 : lo ≤ (if y2 < y1 then y1 else y2) ∧ (if y2 < y1 then y1 else y2) ≤ hi := by
      split_ifs <;> assumption
    have hr := yPass_between _ _ _ _ lo hi cy1.1 cy2.2 cx1 cx2 _
      (fun y hy => mem_steps _ _ y hy) rs hrs
    intro p hp
    rcases List.mem_append.1 hp with hp | hp
    · exact hq p hp
    · exact hr p hp

/-- On the screen of `main` the guard holds for every pixel with coordinates from 166 to
1833. -/
theorem painted_main (p : Int × Int) (hx : 166 ≤ p.1 ∧ p.1 ≤ 1833)
    (hy : 166 ≤ p.2 ∧ p.2 ≤ 1833) : painted (sopen WID WID) p = true := by
  have hw : (sopen WID WID).w = 2000 := rfl
  have hmax : (sopen WID WID).datmax = 12000000 := by decide
  simp only [painted, offset, hw, hmax, Bool.and_eq_true, decide_eq_true_eq, ge_iff_le]
  omega

/-! ## The two passes of `main` -/

section
variable {α : Type} [LinearOrderedField α] [FloorRing α]

theorem main_passes (m : Libm α) (ls : lsystem α) (r : World α) (h : main m ls = some r) :
    ∃ w1, generate m ls ls.iterations false ls.axiom_ (initial ls) = some w1 ∧
      drawPass m ls { w1 with extremes := convert w1.extremes } = some r := by
  unfold main at h
  cases hm : generate m ls ls.iterations false ls.axiom_ (initial ls) with
  | none => rw [hm] at h; cases h
  | some w1 => rw [hm] at h; exact ⟨w1, rfl, h⟩

theorem points_twice (v : List (Saved α)) (p : α × α) (hp : p ∈ points (v ++ v)) :
    p ∈ points v := by
  simp only [points, List.mem_cons, List.map_append, List.mem_append] at hp ⊢
  rcases hp with h | h | h
  · exact Or.inl h
  · exact Or.inr h
  · exact Or.inr h

/-- Every `drawLine2d` call of `main` joins the images of two different points of the
bounding box measured by the first pass, under the transform of the converted extremes;
the screen of the draw pass has the geometry of `sopen(WID, WID)`. -/
theorem main_lines (m : Libm α) (ls : lsystem α)
    (hunit : ∀ t, m.cos t ^ 2 + m.sin t ^ 2 = 1) (r : World α)
    (h : main m ls = some r) :
    ∃ e : Extremes α, r.extremes = convert e ∧
      ∀ ln ∈ r.lines, ∃ p q : α × α,
        (e.e0 ≤ p.1 ∧ p.1 ≤ e.e1 ∧ e.e2 ≤ p.2 ∧ p.2 ≤ e.e3) ∧
        (e.e0 ≤ q.1 ∧ q.1 ≤ e.e1 ∧ e.e2 ≤ q.2 ∧ q.2 ≤ e.e3) ∧
        p ≠ q ∧ ln = segment (convert e) p.1 p.2 q.1 q.2 := by
  obtain ⟨w1, hm, hd⟩ := main_passes m ls r h
  have hbox : Box w1.extremes (points w1.visited) :=
    generate_box m ls ls.iterations ls.axiom_ (initial ls) w1 hm (by simp [Box, points, initial])
  obtain ⟨-, hlines⟩ := generate_measure_frame m ls _ _ _ _ hm
  obtain ⟨vs, hvs, hall⟩ := generate_walks m ls false true ls.iterations ls.axiom_ _ _ hm
  have hvs1 : w1.visited = vs := by rw [hvs]; rfl
  unfold drawPass at hd
  obtain ⟨v1, hv1, -, hlog⟩ := hall (reset ls { w1 with extremes := convert w1.extremes })
    ⟨rfl, rfl, rfl⟩
  rw [hd] at hv1
  cases hv1
  have hlog1 : r.visited = w1.visited ++ w1.visited := by rw [hlog, ← hvs1]; rfl
  obtain ⟨-, hf, -, hext⟩ := generate_keeps m ls hunit _ _ _ _ hd
    ⟨by simp [points, reset], fun s hs => by cases hs⟩
    (by
      intro ln hln
      have : ln ∈ w1.lines := hln
      rw [hlines] at this
      cases this)
  refine ⟨w1.extremes, hext, fun ln hln => ?_⟩
  obtain ⟨p, hp, q, hq, hne, heq⟩ := hf ln hln
  rw [hlog1] at hp hq
  rw [hext] at heq
  exact ⟨p, q, hbox.1 p (points_twice _ p hp), hbox.1 q (points_twice _ q hq), hne, heq⟩

/-- C16: in the two passes of `main` (measure pass from the origin with zero extremes,
conversion, reset, draw pass), with `cos^2 + sin^2 = 1` and exact arithmetic, whenever
the draw pass has made a `drawLine2d` call, and so evaluated `HWID / extremes[2]`, the
half span `extremes[2]` is strictly positive; a half span of 0 leaves the draw pass
without any such call. -/
theorem halfspan_positive (m : Libm α) (ls : lsystem α)
    (hunit : ∀ t, m.cos t ^ 2 + m.sin t ^ 2 = 1) (r : World α)
    (hmain : main m ls = some r) :
    (r.lines ≠ [] → 0 < r.extremes.e2) ∧ (r.extremes.e2 = 0 → r.lines = []) := by
  obtain ⟨e, hext, hall⟩ := main_lines m ls hunit r hmain
  have hpos : r.lines ≠ [] → 0 < r.extremes.e2 := by
    intro hne
    obtain ⟨ln, hln⟩ := List.exists_mem_of_ne_nil _ hne
    obtain ⟨p, q, hp, hq, hpq, -⟩ := hall ln hln
    rw [hext]
    exact convert_pos e p q hp hq hpq
  refine ⟨hpos, fun hzero => ?_⟩
  by_contra hne
  have := hpos hne
  rw [hzero] at this
  exact lt_irrefl _ this

/-- C17: in the two passes of `main`, with `cos^2 + sin^2 = 1` and exact arithmetic,
for every `drawLine2d` call of the draw pass the half span is positive, each of the four
arguments lies between `1000 - 1000 / 1.2` and `1000 + 1000 / 1.2` and, converted to
`int`, from 0 to 1999; and every pixel the call computes lies on the 2000 by 2000 canvas
and passes the guard of `drawLine2d`, so none is clipped. -/
theorem drawing_fits_canvas (m : Libm α) (ls : lsystem α)
    (hunit : ∀ t, m.cos t ^ 2 + m.sin t ^ 2 = 1) (r : World α)
    (hmain : main m ls = some r) :
    ∀ ln ∈ r.lines, 0 < r.extremes.e2 ∧
      (∀ c, c = ln.1 ∨ c = ln.2.1 ∨ c = ln.2.2.1 ∨ c = ln.2.2.2 →
        1000 - 1000 / 1.2 ≤ c ∧ c ≤ 1000 + 1000 / 1.2 ∧ 0 ≤ toInt c ∧ toInt c < 2000) ∧
      ∃ ps, pixels (toInt ln.1) (toInt ln.2.1) (toInt ln.2.2.1) (toInt ln.2.2.2) = some ps ∧
        ∀ p ∈ ps, 0 ≤ p.1 ∧ p.1 < 2000 ∧ 0 ≤ p.2 ∧ p.2 < 2000 ∧
          painted (sopen WID WID) p = true := by
  obtain ⟨e, hext, hall⟩ := main_lines m ls hunit r hmain
  intro ln hln
  obtain ⟨p, q, hp, hq, hpq, heq⟩ := hall ln hln
  have hpos : 0 < (convert e).e2 := convert_pos e p q hp hq hpq
  have hfit : ∀ c, c = ln.1 ∨ c = ln.2.1 ∨ c = ln.2.2.1 ∨ c = ln.2.2.2 →
      1000 - 1000 / 1.2 ≤ c ∧ c ≤ 1000 + 1000 / 1.2 := by
    intro c hc
    rw [heq] at hc
    exact segment_fits e p q hp hq hpos c hc
  have hint : ∀ c, c = ln.1 ∨ c = ln.2.1 ∨ c = ln.2.2.1 ∨ c = ln.2.2.2 →
      166 ≤ toInt c ∧ toInt c ≤ 1833 := fun c hc =>
    toInt_fits c (hfit c hc).1 (hfit c hc).2
  refine ⟨by rw [hext]; exact hpos, fun c hc => ?_, ?_⟩
  · obtain ⟨i0, i1⟩ := hint c hc
    exact ⟨(hfit c hc).1, (hfit c hc).2, by omega, by omega⟩
  · obtain ⟨ps, hps⟩ := pixels_isSome (toInt ln.1) (toInt ln.2.1) (toInt ln.2.2.1)
      (toInt ln.2.2.2)
    refine ⟨ps, hps, fun px hpx => ?_⟩
    obtain ⟨bx, by1⟩ := pixels_between _ _ _ _ 166 1833
      (hint _ (Or.inl rfl)) (hint _ (Or.inr (Or.inl rfl)))
      (hint _ (Or.inr (Or.inr (Or.inl rfl)))) (hint _ (Or.inr (Or.inr (Or.inr rfl))))
      ps hps px hpx
    exact ⟨by omega, by omega, by omega, by omega, painted_main px bx by1⟩

end

theorem quarter_unit (t : ℚ) : quarter.cos t ^ 2 + quarter.sin t ^ 2 = 1 := by
  simp only [quarter]
  split_ifs <;> norm_num

theorem tree_tame : ∀ a rule, tree.rules a = some rule → tame rule := by
  intro a rule h
  simp only [tree] at h
  split at h
  · cases h; decide
  · cases h

/-- The two passes of `main` on the tree are defined and make four `drawLine2d` calls. -/
theorem tree_main : ∃ r, main quarter tree = some r ∧ r.lines.length = 4 := by
  obtain ⟨w1, -, h1, -, -⟩ :=
    generate_inside quarter tree false tree_tame tree.iterations tree.axiom_ (by decide)
      (initial tree)
  obtain ⟨-, hlines⟩ := generate_measure_frame quarter tree _ _ _ _ h1
  obtain ⟨r, hr, hlen, -⟩ := tree_letter quarter tree rfl rfl 1 []
    (reset tree { w1 with extremes := convert w1.extremes })
  refine ⟨r, ?_, ?_⟩
  · unfold main
    rw [h1]
    show generate quarter tree 1 true ['a'] _ = some r
    rw [generate_eq_run]
    simp only [run, hr, Option.map_some']
  · rw [hlen]
    have : (reset tree { w1 with extremes := convert w1.extremes }).lines = [] := by
      show w1.lines = []
      rw [hlines]
      rfl
    rw [this]
    rfl

/-- Witness of C16: the tree of the file header through `main`. -/
theorem halfspan_positive_witness :
    ∃ r, main quarter tree = some r ∧ r.lines ≠ [] ∧
      (r.lines ≠ [] → 0 < r.extremes.e2) ∧ (r.extremes.e2 = 0 → r.lines = []) := by
  obtain ⟨r, hr, hlen⟩ := tree_main
  refine ⟨r, hr, ?_, halfspan_positive quarter tree quarter_unit r hr⟩
  intro h
  rw [h] at hlen
  cases hlen

/-- Witness of C17: the tree of the file header through `main`. -/
theorem drawing_fits_canvas_witness :
    ∃ r, main quarter tree = some r ∧ r.lines.length = 4 ∧
      ∀ ln ∈ r.lines, 0 < r.extremes.e2 ∧
        (∀ c, c = ln.1 ∨ c = ln.2.1 ∨ c = ln.2.2.1 ∨ c = ln.2.2.2 →
          1000 - 1000 / 1.2 ≤ c ∧ c ≤ 1000 + 1000 / 1.2 ∧ 0 ≤ toInt c ∧ toInt c < 2000) ∧
        ∃ ps, pixels (toInt ln.1) (toInt ln.2.1) (toInt ln.2.2.1) (toInt ln.2.2.2) = some ps ∧
          ∀ p ∈ ps, 0 ≤ p.1 ∧ p.1 < 2000 ∧ 0 ≤ p.2 ∧ p.2 < 2000 ∧
            painted (sopen WID WID) p = true := by
  obtain ⟨r, hr, hlen⟩ := tree_main
  exact ⟨r, hr, hlen, drawing_fits_canvas quarter tree quarter_unit r hr⟩

/-! ## The driver and iteration 0, on whole runs -/

section
variable {α : Type} [LinearOrderedField α] [FloorRing α]

theorem terminalDraws_nil (ls : lsystem α) (n : Nat) : terminalDraws ls n [] = 0 := by
  cases n <;> rfl

theorem emits_stable (m : Libm α) : Stable (Emits m) := by
  refine ⟨?_, ?_, ?_⟩
  · intro w
    exact ⟨rfl, [], [], by simp, by simp, by simp⟩
  · intro w1 w2 w3 h12 h23
    obtain ⟨he1, o1, v1, hl1, hv1, hs1⟩ := h12
    obtain ⟨he2, o2, v2, hl2, hv2, hs2⟩ := h23
    refine ⟨he2.trans he1, o1 ++ o2, v1 ++ v2, ?_, ?_, ?_⟩
    · rw [hl2, hl1, he1, List.map_append, List.append_assoc]
    · rw [hv2, hv1, List.append_assoc]
    · rw [List.map_append]
      exact hs1.append hs2
  · intro w x y t k
    exact ⟨rfl, [], [], by simp, by simp, by simp⟩

theorem terminal_emits (m : Libm α) (ls : lsystem α) (a : Nat) (u v : World α)
    (h : terminal m ls a true u = some v) : Emits m u v := by
  by_cases hdraw : ls.draw a = true
  · obtain ⟨ps, hps⟩ := terminal_draw m ls a u hdraw
    rw [hps] at h; cases h
    exact ⟨rfl, [(u.pos0, u.pos1, u.currentAngle)], _, rfl, rfl, by simp⟩
  · have hd : ls.draw a = false := by simpa using hdraw
    by_cases hskip : ls.skip a = true
    · rw [terminal_skip m ls a true u hd hskip] at h; cases h
      exact ⟨rfl, [], _, by simp, rfl, by simp⟩
    · have hs0 : ls.skip a = false := by simpa using hskip
      rw [terminal_idle m ls a true u hd hs0] at h; cases h
      exact ⟨rfl, [], _, by simp, rfl, by simp⟩

theorem generate_emits (m : Libm α) (ls : lsystem α) (n : Nat) (cur : List Char)
    (u v : World α) (h : generate m ls n true cur u = some v) : Emits m u v :=
  generate_rel (emits_stable m) m ls true (terminal_emits m ls) n cur u v h

/-- The number of calls of one terminal action of the draw pass. -/
theorem terminal_count (m : Libm α) (ls : lsystem α) (a : Nat) (u v : World α)
    (h : terminal m ls a true u = some v) :
    v.lines.length = u.lines.length + (if ls.draw a then 1 else 0) := by
  by_cases hdraw : ls.draw a = true
  · obtain ⟨ps, hps⟩ := terminal_draw m ls a u hdraw
    rw [hps] at h; cases h
    simp [hdraw]
  · have hd : ls.draw a = false := by simpa using hdraw
    by_cases hskip : ls.skip a = true
    · rw [terminal_skip m ls a true u hd hskip] at h; cases h
      simp [hd]
    · have hs0 : ls.skip a = false := by simpa using hskip
      rw [terminal_idle m ls a true u hd hs0] at h; cases h
      simp [hd]

/-- The number of calls of one loop body of the draw pass. -/
theorem step_count (m : Libm α) (ls : lsystem α)
    (recur : List Char → World α → Option (World α)) (deeper : List Char → Nat)
    (n : Nat) (hnil : deeper [] = 0)
    (hrec : ∀ rule u v, recur rule u = some v →
      v.lines.length = u.lines.length + deeper rule)
    (c : Char) (br br1 : List (Saved α)) (u v : World α)
    (h : step m ls recur n true c br u = some (br1, v)) :
    v.lines.length = u.lines.length + drawsOf ls deeper n c := by
  unfold step at h
  unfold drawsOf
  by_cases hl : c.isLower = true
  · rw [if_pos hl] at h
    rw [if_pos hl]
    split at h
    · rename_i hnone
      simp only [Option.map_eq_some'] at h
      obtain ⟨v0, h2, h3⟩ := h
      cases h3
      rw [if_pos (Or.inr hnone)]
      exact terminal_count m ls _ u v h2
    · rename_i rule hsome
      split at h
      · rename_i hz
        simp only [Option.map_eq_some'] at h
        obtain ⟨v0, h2, h3⟩ := h
        cases h3
        rw [if_pos (Or.inl hz)]
        exact terminal_count m ls _ u v h2
      · rename_i hz
        have hno : ¬ (n = 0 ∨ ls.rules (c.toNat - 97) = none) := by
          rw [hsome]
          simp [hz]
        rw [if_neg hno, hsome]
        split at h
        · simp only [Option.map_eq_some'] at h
          obtain ⟨v0, h2, h3⟩ := h
          cases h3
          exact hrec rule u v h2
        · rename_i hempty
          cases h
          have : rule = [] := by simpa using hempty
          rw [this]
          simp [hnil]
  · rw [if_neg hl] at h
    rw [if_neg hl]
    have hsame : v.lines = u.lines := by
      by_cases hp : c = '+'
      · rw [if_pos hp] at h; cases h; rfl
      · rw [if_neg hp] at h
        by_cases hm : c = '-'
        · rw [if_pos hm] at h; cases h; rfl
        · rw [if_neg hm] at h
          by_cases ho : c = '['
          · rw [if_pos ho] at h
            split at h
            · cases h; rfl
            · cases h
          · rw [if_neg ho] at h
            by_cases hcl : c = ']'
            · rw [if_pos hcl] at h
              cases br with
              | nil => cases h
              | cons top rest =>
                obtain ⟨x, y, t⟩ := top
                cases h
                rfl
            · rw [if_neg hcl] at h
              cases h
              rfl
    rw [hsame]
    rfl

theorem run_count (m : Libm α) (ls : lsystem α)
    (recur : List Char → World α → Option (World α)) (deeper : List Char → Nat)
    (n : Nat) (hnil : deeper [] = 0)
    (hrec : ∀ rule u v, recur rule u = some v →
      v.lines.length = u.lines.length + deeper rule)
    (cur : List Char) (br br1 : List (Saved α)) (u v : World α)
    (h : run m ls recur n true cur br u = some (br1, v)) :
    v.lines.length = u.lines.length + (cur.map (drawsOf ls deeper n)).sum := by
  induction cur generalizing br u with
  | nil =>
    simp only [run] at h
    cases h
    simp
  | cons c cs ih =>
    simp only [run] at h
    cases hs : step m ls recur n true c br u with
    | none => rw [hs] at h; cases h
    | some p =>
      obtain ⟨br2, u2⟩ := p
      rw [hs] at h
      have h1 := step_count m ls recur deeper n hnil hrec c br br2 u u2 hs
      have h2 := ih br2 u2 h
      rw [h2, h1, List.map_cons, List.sum_cons]
      omega

/-- The draw pass makes one `drawLine2d` call for each terminal draw symbol. -/
theorem generate_count (m : Libm α) (ls : lsystem α) (n : Nat) (cur : List Char)
    (u v : World α) (h : generate m ls n true cur u = some v) :
    v.lines.length = u.lines.length + terminalDraws ls n cur := by
  induction n generalizing cur u v with
  | zero =>
    simp only [generate, Option.map_eq_some'] at h
    obtain ⟨p, hp, rfl⟩ := h
    exact run_count m ls _ (fun _ => 0) 0 rfl (fun _ _ _ hr => by cases hr) cur [] p.1 u p.2 hp
  | succ k ih =>
    simp only [generate, Option.map_eq_some'] at h
    obtain ⟨p, hp, rfl⟩ := h
    exact run_count m ls _ (terminalDraws ls k) (k + 1) (terminalDraws_nil ls k)
      (fun rule x y hr => ih rule x y hr) cur [] p.1 u p.2 hp

theorem convert_span (e : Extremes α) :
    (convert e).e2 = max (e.e1 - e.e0) (e.e3 - e.e2) / 2 * 1.2 := by
  unfold convert
  dsimp only
  rcases le_or_lt (e.e1 - e.e0) (e.e3 - e.e2) with h | h
  · rw [if_neg (not_lt.2 h), max_eq_right h]
  · rw [if_pos h, max_eq_left h.le]

end

section
variable {α : Type} [LinearOrderedField α] [FloorRing α]

/-- The arguments of a `drawLine2d` call under the converted extremes, written with the
centre and the half span of the measured extremes. -/
theorem segment_convert (e : Extremes α) (t0 t1 p0 p1 : α) :
    segment (convert e) t0 t1 p0 p1
      = (screenCoord ((e.e0 + e.e1) / 2) (max (e.e1 - e.e0) (e.e3 - e.e2) / 2 * 1.2) t0,
         screenCoord ((e.e2 + e.e3) / 2) (max (e.e1 - e.e0) (e.e3 - e.e2) / 2 * 1.2) t1,
         screenCoord ((e.e0 + e.e1) / 2) (max (e.e1 - e.e0) (e.e3 - e.e2) / 2 * 1.2) p0,
         screenCoord ((e.e2 + e.e3) / 2) (max (e.e1 - e.e0) (e.e3 - e.e2) / 2 * 1.2) p1) := by
  simp only [segment, screenCoord, HWID, ← convert_span]
  rfl

/-- C2: when `main` returns `r`, its measure pass has returned a state `w1` whose
extremes are the extents `(minX, maxX, minY, maxY)`, and its draw pass has run from the
state with the converted extremes. In `r` the conversion has left
`extremes[0] = (minX+maxX)/2`, `extremes[1] = (minY+maxY)/2` and
`extremes[2] = max(maxX-minX, maxY-minY)/2 * 1.2`. The `drawLine2d` calls of `main` are
as many as the terminal draw symbols of the walk of the axiom, and they are, in order, one
call for each turtle state `olds` (position and heading before a drawing action): from
the old position to the old position plus `(cos, sin)` of the heading, each coordinate
mapped by `(p - center) * (1000 / halfSpan) + 1000`. The draw pass logs the turtles that
the measure pass has logged from the origin and the start heading, and the turtles after
the drawing actions are among them, in the same order. -/
theorem driver_transform (m : Libm α) (ls : lsystem α) (r : World α)
    (hmain : main m ls = some r) :
    ∃ (w1 : World α) (olds : List (Saved α)),
      generate m ls ls.iterations false ls.axiom_ (initial ls) = some w1 ∧
      drawPass m ls { w1 with extremes := convert w1.extremes } = some r ∧
      r.extremes.e0 = (w1.extremes.e0 + w1.extremes.e1) / 2 ∧
      r.extremes.e1 = (w1.extremes.e2 + w1.extremes.e3) / 2 ∧
      r.extremes.e2
        = max (w1.extremes.e1 - w1.extremes.e0) (w1.extremes.e3 - w1.extremes.e2) / 2 * 1.2 ∧
      r.lines.length = terminalDraws ls ls.iterations ls.axiom_ ∧
      r.lines = olds.map (fun s =>
        (screenCoord ((w1.extremes.e0 + w1.extremes.e1) / 2)
            (max (w1.extremes.e1 - w1.extremes.e0) (w1.extremes.e3 - w1.extremes.e2) / 2 * 1.2)
            s.1,
         screenCoord ((w1.extremes.e2 + w1.extremes.e3) / 2)
            (max (w1.extremes.e1 - w1.extremes.e0) (w1.extremes.e3 - w1.extremes.e2) / 2 * 1.2)
            s.2.1,
         screenCoord ((w1.extremes.e0 + w1.extremes.e1) / 2)
            (max (w1.extremes.e1 - w1.extremes.e0) (w1.extremes.e3 - w1.extremes.e2) / 2 * 1.2)
            (s.1 + m.cos s.2.2),
         screenCoord ((w1.extremes.e2 + w1.extremes.e3) / 2)
            (max (w1.extremes.e1 - w1.extremes.e0) (w1.extremes.e3 - w1.extremes.e2) / 2 * 1.2)
            (s.2.1 + m.sin s.2.2))) ∧
      r.visited = w1.visited ++ w1.visited ∧
      (olds.map (fun s =>
        (s.1 + m.cos s.2.2, s.2.1 + m.sin s.2.2, s.2.2))).Sublist w1.visited := by
  obtain ⟨w1, h1, h2⟩ := main_passes m ls r hmain
  have hdraw : generate m ls ls.iterations true ls.axiom_
      (reset ls { w1 with extremes := convert w1.extremes }) = some r := h2
  obtain ⟨-, hl0⟩ := generate_measure_frame m ls _ _ _ _ h1
  have hnil : (reset ls { w1 with extremes := convert w1.extremes }).lines = [] := by
    show w1.lines = []
    rw [hl0]
    rfl
  obtain ⟨hext, olds, vis, hl, hv, hs⟩ := generate_emits m ls _ _ _ _ hdraw
  have hcount := generate_count m ls _ _ _ _ hdraw
  rw [hnil] at hl hcount
  have hext1 : r.extremes = convert w1.extremes := hext
  have hv1 : r.visited = w1.visited ++ vis := hv
  obtain ⟨vs, hvs, hall⟩ := generate_walks m ls false true _ _ _ _ h1
  obtain ⟨r1, hr1, -, hlog⟩ := hall (reset ls { w1 with extremes := convert w1.extremes })
    ⟨rfl, rfl, rfl⟩
  rw [hdraw] at hr1
  cases hr1
  have hvs1 : w1.visited = vs := by
    rw [hvs]
    rfl
  have hlog1 : r.visited = w1.visited ++ vs := hlog
  have hvis : vis = w1.visited := by
    rw [hvs1]
    exact List.append_cancel_left (hv1.symm.trans hlog1)
  rw [hvis] at hs
  refine ⟨w1, olds, h1, h2, ?_, ?_, ?_, ?_, ?_, ?_, hs⟩
  rotate_right
  · rw [hlog1, ← hvs1]
  · rw [hext1]; rfl
  · rw [hext1]; rfl
  · rw [hext1]; exact convert_span w1.extremes
  · simpa using hcount
  · rw [hl, List.nil_append]
    apply List.map_congr_left
    intro s _
    exact segment_convert w1.extremes _ _ _ _

/-- A terminal action logs exactly one turtle. -/
theorem terminal_visits (m : Libm α) (ls : lsystem α) (a : Nat) (d : Bool) (u v : World α)
    (h : terminal m ls a d u = some v) :
    v.visited = u.visited ++ [(v.pos0, v.pos1, v.currentAngle)] := by
  by_cases hdraw : ls.draw a = true
  · cases d with
    | true =>
      obtain ⟨ps, hps⟩ := terminal_draw m ls a u hdraw
      rw [hps] at h; cases h; rfl
    | false =>
      rw [terminal_draw_measure m ls a u hdraw] at h; cases h; rfl
  · have hd : ls.draw a = false := by simpa using hdraw
    by_cases hskip : ls.skip a = true
    · rw [terminal_skip m ls a d u hd hskip] at h; cases h; rfl
    · have hs0 : ls.skip a = false := by simpa using hskip
      rw [terminal_idle m ls a d u hd hs0] at h; cases h; rfl

/-- At iteration 0 the loop body logs one turtle on a lowercase letter and none on
another character. -/
theorem step_zero_visits (m : Libm α) (ls : lsystem α)
    (recur : List Char → World α → Option (World α)) (d : Bool) (c : Char)
    (br br1 : List (Saved α)) (u v : World α)
    (h : step m ls recur 0 d c br u = some (br1, v)) :
    v.visited.length = u.visited.length + (if c.isLower = true then 1 else 0) := by
  by_cases hl : c.isLower = true
  · rw [step_terminal m ls recur 0 d c br u hl (Or.inl rfl)] at h
    simp only [Option.map_eq_some'] at h
    obtain ⟨v0, h2, h3⟩ := h
    cases h3
    rw [terminal_visits m ls _ d u v h2, if_pos hl]
    simp
  · rw [if_neg hl]
    unfold step at h
    rw [if_neg hl] at h
    have hsame : v.visited = u.visited := by
      by_cases hp : c = '+'
      · rw [if_pos hp] at h; cases h; rfl
      · rw [if_neg hp] at h
        by_cases hm : c = '-'
        · rw [if_pos hm] at h; cases h; rfl
        · rw [if_neg hm] at h
          by_cases ho : c = '['
          · rw [if_pos ho] at h
            split at h
            · cases h; rfl
            · cases h
          · rw [if_neg ho] at h
            by_cases hcl : c = ']'
            · rw [if_pos hcl] at h
              cases br with
              | nil => cases h
              | cons top rest =>
                obtain ⟨x, y, t⟩ := top
                cases h
                rfl
            · rw [if_neg hcl] at h
              cases h
              rfl
    rw [hsame]
    rfl

theorem run_zero_visits (m : Libm α) (ls : lsystem α)
    (recur : List Char → World α → Option (World α)) (d : Bool) (cur : List Char)
    (br br1 : List (Saved α)) (u v : World α)
    (h : run m ls recur 0 d cur br u = some (br1, v)) :
    v.visited.length = u.visited.length + (cur.filter Char.isLower).length := by
  induction cur generalizing br u with
  | nil =>
    simp only [run] at h
    cases h
    simp
  | cons c cs ih =>
    simp only [run] at h
    cases hs : step m ls recur 0 d c br u with
    | none => rw [hs] at h; cases h
    | some p =>
      obtain ⟨br2, u2⟩ := p
      rw [hs] at h
      have h1 := step_zero_visits m ls recur d c br br2 u u2 hs
      have h2 := ih br2 u2 h
      rw [h2, h1]
      by_cases hl : c.isLower = true
      · rw [if_pos hl, List.filter_cons_of_pos hl, List.length_cons]
        omega
      · rw [if_neg hl, List.filter_cons_of_neg hl]
        omega

/-- C4: at `iteration = 0` the result of `generate` (position, heading, extremes, screen,
emitted calls and logs) is the same for every rules table, in particular for the table
without rules, and it does not depend on what a recursive call would return, so none is
made. When `generate` returns on the sequence `current`, every lowercase letter of
`current` has performed one terminal action and no other action was performed (the log
`visited` has grown by the number of letters); and for every occurrence of a letter `c`
of the draw or skip set in `current = pre ++ c :: post`, `generate` returns on `pre` and
on `pre ++ [c]`, and the second result is the first moved by exactly `(cos, sin)` of the
heading, with the same heading and one more logged turtle. -/
theorem iteration_zero_literal (m : Libm α) (ls : lsystem α)
    (rules1 : Nat → Option (List Char)) (drawable : Bool) (current : List Char)
    (w : World α) :
    generate m { ls with rules := rules1 } 0 drawable current w
        = generate m ls 0 drawable current w ∧
      generate m ls 0 drawable current w
        = generate m { ls with rules := fun _ => none } 0 drawable current w ∧
      (∀ recur : List Char → World α → Option (World α),
        (run m ls recur 0 drawable current [] w).map Prod.snd
          = generate m ls 0 drawable current w) ∧
      (∀ r, generate m ls 0 drawable current w = some r →
        r.visited.length = w.visited.length + (current.filter Char.isLower).length ∧
        ∀ (pre : List Char) (c : Char) (post : List Char), current = pre ++ c :: post →
          c.isLower = true →
          ls.draw (c.toNat - 97) = true ∨ ls.skip (c.toNat - 97) = true →
          ∃ before after,
            generate m ls 0 drawable pre w = some before ∧
            generate m ls 0 drawable (pre ++ [c]) w = some after ∧
            after.pos0 = before.pos0 + m.cos before.currentAngle ∧
            after.pos1 = before.pos1 + m.sin before.currentAngle ∧
            after.currentAngle = before.currentAngle ∧
            after.visited
              = before.visited ++ [(after.pos0, after.pos1, after.currentAngle)]) := by
  refine ⟨?_, ?_, ?_, ?_⟩
  · simp only [generate]
    rw [run_zero m ls rules1 (fun _ _ => none) (fun _ _ => none)]
  · simp only [generate]
    rw [run_zero m ls (fun _ => none) (fun _ _ => none) (fun _ _ => none)]
  · intro recur
    simp only [generate]
    have h := run_zero m ls ls.rules (fun _ _ => none) recur drawable current [] w
    rw [← h]
  · intro r hr
    simp only [generate, Option.map_eq_some'] at hr
    obtain ⟨p, hp, rfl⟩ := hr
    refine ⟨run_zero_visits m ls _ drawable current [] p.1 w p.2 hp, ?_⟩
    intro pre c post hcur hc hmove
    rw [hcur, run_append] at hp
    cases hpre : run m ls (fun _ _ => none) 0 drawable pre [] w with
    | none => rw [hpre] at hp; cases hp
    | some q =>
      obtain ⟨br, before⟩ := q
      obtain ⟨after, hterm, h0, h1, h2⟩ :=
        terminal_moves m ls (c.toNat - 97) drawable before hmove
      have hstep : step m ls (fun _ _ => none) 0 drawable c br before = some (br, after) := by
        rw [step_terminal m ls _ 0 drawable c br before hc (Or.inl rfl), hterm]
        rfl
      refine ⟨before, after, ?_, ?_, h0, h1, h2, terminal_visits m ls _ drawable _ _ hterm⟩
      · simp only [generate, hpre, Option.map_some']
      · have hrun : run m ls (fun _ _ => none) 0 drawable (pre ++ [c]) [] w
            = some (br, after) := by
          rw [run_append, hpre]
          simp only [Option.some_bind, run, hstep]
        simp only [generate, hrun, Option.map_some']

end

/-- Witness of C2: the tree of the file header through `main`. -/
theorem driver_transform_witness :
    ∃ r, main quarter tree = some r ∧
      ∃ (w1 : World ℚ) (olds : List (Saved ℚ)),
        generate quarter tree tree.iterations false tree.axiom_ (initial tree) = some w1 ∧
        drawPass quarter tree { w1 with extremes := convert w1.extremes } = some r ∧
        r.extremes.e0 = (w1.extremes.e0 + w1.extremes.e1) / 2 ∧
        r.extremes.e1 = (w1.extremes.e2 + w1.extremes.e3) / 2 ∧
        r.extremes.e2
          = max (w1.extremes.e1 - w1.extremes.e0) (w1.extremes.e3 - w1.extremes.e2) / 2 * 1.2 ∧
        r.lines.length = terminalDraws tree tree.iterations tree.axiom_ ∧
        r.lines = olds.map (fun s =>
          (screenCoord ((w1.extremes.e0 + w1.extremes.e1) / 2)
              (max (w1.extremes.e1 - w1.extremes.e0) (w1.extremes.e3 - w1.extremes.e2) / 2 * 1.2)
              s.1,
           screenCoord ((w1.extremes.e2 + w1.extremes.e3) / 2)
              (max (w1.extremes.e1 - w1.extremes.e0) (w1.extremes.e3 - w1.extremes.e2) / 2 * 1.2)
              s.2.1,
           screenCoord ((w1.extremes.e0 + w1.extremes.e1) / 2)
              (max (w1.extremes.e1 - w1.extremes.e0) (w1.extremes.e3 - w1.extremes.e2) / 2 * 1.2)
              (s.1 + quarter.cos s.2.2),
           screenCoord ((w1.extremes.e2 + w1.extremes.e3) / 2)
              (max (w1.extremes.e1 - w1.extremes.e0) (w1.extremes.e3 - w1.extremes.e2) / 2 * 1.2)
              (s.2.1 + quarter.sin s.2.2))) ∧
        r.visited = w1.visited ++ w1.visited ∧
        (olds.map (fun s =>
          (s.1 + quarter.cos s.2.2, s.2.1 + quarter.sin s.2.2, s.2.2))).Sublist w1.visited := by
  obtain ⟨r, hr, -⟩ := tree_main
  exact ⟨r, hr, driver_transform quarter tree r hr⟩

/-- The tree has four terminal draw symbols after one iteration. -/
theorem tree_terminalDraws : terminalDraws tree tree.iterations tree.axiom_ = 4 := by
  decide

/-- The measure pass of the tree at iteration 0 on `a[+a]`, as a call of `generate`. -/
theorem branch_generate :
    generate quarter tree 0 false ['a', '[', '+', 'a', ']'] origin = some afterBranch := by
  rw [generate_eq_run]
  exact congrArg (Option.map Prod.snd) branch_after

/-- Witness of C4: the second `a` of `a[+a]` in the measure pass of the tree at
iteration 0. -/
theorem iteration_zero_literal_witness :
    ∃ before after,
      generate quarter tree 0 false ['a', '[', '+'] origin = some before ∧
      generate quarter tree 0 false (['a', '[', '+'] ++ ['a']) origin = some after ∧
      after.pos0 = before.pos0 + quarter.cos before.currentAngle ∧
      after.pos1 = before.pos1 + quarter.sin before.currentAngle ∧
      after.currentAngle = before.currentAngle ∧
      after.visited = before.visited ++ [(after.pos0, after.pos1, after.currentAngle)] :=
  ((iteration_zero_literal quarter tree tree.rules false ['a', '[', '+', 'a', ']']
    origin).2.2.2 afterBranch branch_generate).2 ['a', '[', '+'] 'a' [']'] rfl (by decide)
    (Or.inl (by decide))

end LSystem
